import Mathlib

/-!
Verification of the plain-text task-tracking scripts (filter_priority.py,
task_status_view.py, import_external_tasks.py, sync_completed.py).

Physical lines are modelled as `List Char` (the result of Python
`read_text().splitlines()`, hence free of newline characters unless stated).
Python string operations used by the scripts (`strip`, `lstrip`, `rstrip`,
`expandtabs(4)`, `split`, `splitlines`) are given as executable definitions,
together with models of the regular expressions the scripts compile
(`STATUS_PATTERN`, `PRIORITY_PATTERN`, `LEGEND_PATTERN`, `HEADING_PATTERN`,
`TASK_REGEX`).  Whitespace is the ASCII whitespace set; this matches every
character the files in question can contain.
-/

set_option maxRecDepth 20000
set_option maxHeartbeats 1000000

abbrev Line := List Char

/-- ASCII whitespace, the set stripped by Python `str.strip` on these files:
space, tab, newline, carriage return, vertical tab, form feed. -/
def pyWS (c : Char) : Bool :=
  c = ' ' || c = '\t' || c = '\n' || c = '\x0d' || c = Char.ofNat 11 || c = Char.ofNat 12

/-- Python `str.lstrip()`. -/
def lstrip (l : Line) : Line := l.dropWhile pyWS

/-- Python `str.rstrip()`. -/
def rstrip (l : Line) : Line := (l.reverse.dropWhile pyWS).reverse

/-- Python `str.strip()`. -/
def strip (l : Line) : Line := rstrip (lstrip l)

/-- `not line.strip()`: the line is empty or all-whitespace. -/
def isBlank (l : Line) : Bool := strip l = []

/-- `line.lstrip() == line`: the line has no leading whitespace. -/
def unindented (l : Line) : Bool := lstrip l = l

/-- Helper for `expandtabs(4)`: current column is tracked, a tab jumps to the
next multiple of the tab width. -/
def expandTabsAux (w : Nat) : List Char → Nat → List Char
  | [], _ => []
  | c :: cs, col =>
    if c = '\t' then
      List.replicate (w - col % w) ' ' ++ expandTabsAux w cs (col + (w - col % w))
    else
      c :: expandTabsAux w cs (col + 1)

/-- Python `line.expandtabs(4)`. -/
def expandTabs (l : Line) : Line := expandTabsAux 4 l 0

/-- `leading_indent` from filter_priority.py / task_status_view.py:
`expanded = line.expandtabs(4); len(expanded) - len(expanded.lstrip())`. -/
def leadingIndent (l : Line) : Nat :=
  (expandTabs l).length - (lstrip (expandTabs l)).length

/-- ASCII `str.lower` on one character (all data here is ASCII). -/
def pyLower (c : Char) : Char :=
  if 'A' ≤ c ∧ c ≤ 'Z' then Char.ofNat (c.toNat + 32) else c

/-- Convenience conversion from a string literal to a `Line`. -/
def lc (s : String) : Line := s.toList

/-- `STATUS_PATTERN = ^\s*\[([bdwixt])\]\s*(.*)$` (IGNORECASE), returning the
lowercased tag character when the line matches. -/
def statusTag (l : Line) : Option Char :=
  match lstrip l with
  | '[' :: c :: ']' :: _ =>
    if ['b', 'd', 'w', 'i', 'x', 't'].contains (pyLower c) then some (pyLower c) else none
  | _ => none

/-- `STATUS_PATTERN.match(line)` used as a boolean. -/
def statusMatches (l : Line) : Bool := (statusTag l).isSome

/-- `PRIORITY_PATTERN = ^\s*\[([123])\]\s*(.*)$`, returning the priority. -/
def priorityTag (l : Line) : Option Nat :=
  match lstrip l with
  | '[' :: c :: ']' :: _ =>
    if c = '1' then some 1 else if c = '2' then some 2 else if c = '3' then some 3 else none
  | _ => none

/-- `STATUS_TAGS` of task_status_view.py. -/
def statusName (c : Char) : Option String :=
  if c = 'b' then some "blocked"
  else if c = 'i' then some "in-progress"
  else if c = 'w' then some "waiting"
  else if c = 'd' then some "delegated"
  else if c = 'x' then some "done"
  else if c = 't' then some "transfer"
  else none

/-- Scanner for `LEGEND_PATTERN = ^\[[^\]]+\]\s*=`, after the opening bracket
and at least one non-`]` character have been consumed: look for the closing
bracket followed by optional whitespace and `=`. -/
def legendScan : Line → Bool
  | [] => false
  | c :: cs =>
    if c = ']' then
      match cs.dropWhile pyWS with
      | '=' :: _ => true
      | _ => false
    else legendScan cs

/-- `LEGEND_PATTERN.match(stripped)` of task_status_view.py: `[`, one or more
non-`]` characters, `]`, optional whitespace, `=`. -/
def legendTSV (l : Line) : Bool :=
  match l with
  | '[' :: c :: cs => if c = ']' then false else legendScan (c :: cs)
  | _ => false

/-- The legend test of filter_priority.py:
`stripped.startswith('[') and '=' in stripped`. -/
def legendFP (l : Line) : Bool :=
  match l with
  | '[' :: _ => l.contains '='
  | _ => false

/-- Length of the run of `#` characters at the head of a line. -/
def countLeadingHash : Line → Nat
  | [] => 0
  | c :: cs => if c = '#' then countLeadingHash cs + 1 else 0

/-- `HEADING_PATTERN = ^\s*(#+)\s*(.+?)\s*$` of task_status_view.py, returning
`(level, text)` where `level = len(group(1))` and `text = group(2).strip()`
(the parser always strips the captured text).  Backtracking semantics: with
`r = line.lstrip()` and `k` the leading `#`-run of `r`,
  * if the remainder after the `#`-run contains a non-whitespace character the
    match uses all `k` hashes and the lazy group strips to that remainder's
    `strip()`;
  * if the remainder is non-empty but all whitespace, the lazy group captures a
    single whitespace character, which strips to the empty text;
  * if there is no remainder and `k ≥ 2`, `(#+)` backtracks by one and the lazy
    group captures the final `#`;
  * otherwise (`r = "#"` or no hash at all) there is no match. -/
def headingMatch (l : Line) : Option (Nat × Line) :=
  let r := lstrip l
  let k := countLeadingHash r
  if k = 0 then none
  else
    let tail := r.drop k
    if strip tail ≠ [] then some (k, strip tail)
    else if tail ≠ [] then some (k, [])
    else if 2 ≤ k then some (k - 1, ['#'])
    else none

/-- `f"{'#' * level} {heading_text}"`. -/
def headingLabel (level : Nat) (text : Line) : Line :=
  List.replicate level '#' ++ ' ' :: text

/-- `while len(heading_stack) >= level: heading_stack.pop()` followed by
`heading_stack.append(heading_label)`: popping from the end until the length
is below `level` keeps exactly the first `level - 1` entries. -/
def pushHeading (stack : List Line) (level : Nat) (label : Line) : List Line :=
  stack.take (level - 1) ++ [label]

/-- `TaskEntry` of task_status_view.py (the `file_path` field is the identity
of the source file and plays no role in any claim about parsing). -/
structure TSVEntry where
  status : String
  sect : Line
  lines : List Line
  headings : List Line
  deriving Repr, DecidableEq

/-- The inner block-collection loop of `parse_file` in task_status_view.py
(lines 320–341): starting after the tag line with `base = leading_indent` of
the tag line, consume blank lines and deeper lines (appending them
`rstrip`-ped), stopping without consuming at an unindented non-status line, at
a status line of depth `≤ base`, or at any other line of depth `≤ base`.
Returns the collected block tail and the unconsumed remainder. -/
def tsvCollect (base : Nat) : List Line → List Line × List Line
  | [] => ([], [])
  | next :: rest =>
    if isBlank next then
      let pr := tsvCollect base rest
      (rstrip next :: pr.1, pr.2)
    else if unindented next && !statusMatches next then
      ([], next :: rest)
    else if statusMatches next && leadingIndent next ≤ base then
      ([], next :: rest)
    else if leadingIndent next ≤ base then
      ([], next :: rest)
    else
      let pr := tsvCollect base rest
      (rstrip next :: pr.1, pr.2)

/-- The main loop of `parse_file` in task_status_view.py (lines 274–345),
written with explicit fuel (each iteration consumes at least one line, so
`fuel = number of remaining lines` suffices; `tsvParseFile` below supplies
it).  State: remaining lines, current section, heading stack. -/
def tsvParseAux : Nat → List Line → Line → List Line → List TSVEntry
  | 0, _, _, _ => []
  | _ + 1, [], _, _ => []
  | fuel + 1, line :: rest, sect, stack =>
    if isBlank line then tsvParseAux fuel rest sect stack
    else if legendTSV (strip line) then tsvParseAux fuel rest sect stack
    else
      match headingMatch line with
      | some kv =>
        let stack2 := pushHeading stack kv.1 (headingLabel kv.1 kv.2)
        let sect2 := if unindented line then strip line else sect
        tsvParseAux fuel rest sect2 stack2
      | none =>
        if unindented line && !statusMatches line then
          tsvParseAux fuel rest (strip line) stack
        else
          match statusTag line with
          | none => tsvParseAux fuel rest sect stack
          | some c =>
            match statusName c with
            | none => tsvParseAux fuel rest sect stack
            | some st =>
              let pr := tsvCollect (leadingIndent line) rest
              { status := st, sect := sect, lines := rstrip line :: pr.1,
                headings := stack } :: tsvParseAux fuel pr.2 sect stack

/-- `parse_file` of task_status_view.py on the split lines of a file. -/
def tsvParseFile (ls : List Line) : List TSVEntry :=
  tsvParseAux ls.length ls (lc "Uncategorized") []

/-- The inner block-collection loop of `parse_file` in filter_priority.py
(lines 62–81): stop without consuming at an unindented non-blank line or at
any non-blank line of depth `≤ base`; otherwise append the raw line. -/
def fpCollect (base : Nat) : List Line → List Line × List Line
  | [] => ([], [])
  | next :: rest =>
    if unindented next && !isBlank next then
      ([], next :: rest)
    else if !isBlank next && leadingIndent next ≤ base then
      ([], next :: rest)
    else
      let pr := fpCollect base rest
      (next :: pr.1, pr.2)

/-- The main loop of `parse_file` in filter_priority.py (lines 35–87), with
fuel as for `tsvParseAux`.  Emits `(priority, section_name, task_lines)`
records in file order; `parse_file` groups them in the dict
`{1: [...], 2: [...], 3: [...]}`, modelled by `fpPriorities`. -/
def fpParseAux : Nat → List Line → Option Line → List (Nat × Line × List Line)
  | 0, _, _ => []
  | _ + 1, [], _ => []
  | fuel + 1, line :: rest, cur =>
    if isBlank line || legendFP (strip line) then fpParseAux fuel rest cur
    else if unindented line then fpParseAux fuel rest (some (strip line))
    else
      match priorityTag line with
      | some p =>
        let pr := fpCollect (leadingIndent line) rest
        (p, cur.getD (lc "Uncategorized"), line :: pr.1) :: fpParseAux fuel pr.2 cur
      | none => fpParseAux fuel rest cur

/-- `parse_file` of filter_priority.py, as the ordered record list. -/
def fpParseFile (ls : List Line) : List (Nat × Line × List Line) :=
  fpParseAux ls.length ls none

/-- `priorities[p]` of filter_priority.py. -/
def fpPriorities (ls : List Line) (p : Nat) : List (Line × List Line) :=
  ((fpParseFile ls).filter (fun t => t.1 = p)).map (fun t => t.2)

/-- The boundary predicate of the specification: a line continues an open
block iff it is blank or strictly deeper than the tag line. -/
def blankOrDeeper (d : Nat) (l : Line) : Bool := isBlank l || d < leadingIndent l

/-! ### Basic lemmas about the string primitives -/

theorem rstrip_cons (a : Char) (l : Line) :
    rstrip (a :: l) =
      if rstrip l = [] then (if pyWS a then [] else [a]) else a :: rstrip l := by
  simp only [rstrip, List.reverse_cons, List.dropWhile_append]
  by_cases h : l.reverse.dropWhile pyWS = []
  · by_cases ha : pyWS a <;>
      simp [h, List.dropWhile, ha]
  · have h1 : (l.reverse.dropWhile pyWS).isEmpty = false := by
      simpa [List.isEmpty_iff] using h
    have h2 : ((l.reverse.dropWhile pyWS).reverse = ([] : Line)) = False := by
      simp [h]
    simp [h1, h2]

theorem head_not_ws_of_unindented (a : Char) (l : Line) (h : unindented (a :: l) = true) :
    pyWS a = false := by
  by_contra hws
  simp only [Bool.not_eq_false] at hws
  simp only [unindented, lstrip, List.dropWhile, hws] at h
  have hlen : (List.dropWhile pyWS l).length ≤ l.length :=
    (List.dropWhile_sublist (l := l) pyWS).length_le
  have h2 := congrArg List.length (by simpa using h)
  simp at h2
  omega

theorem leadingIndent_of_unindented (l : Line) (h : unindented l = true) :
    leadingIndent l = 0 := by
  cases l with
  | nil => rfl
  | cons a cs =>
    have ha : pyWS a = false := head_not_ws_of_unindented a cs h
    have hat : a ≠ '\t' := by
      intro he; subst he; simp [pyWS] at ha
    simp only [leadingIndent, expandTabs, expandTabsAux, if_neg hat, lstrip, List.dropWhile, ha]
    simp

/-- Shape of a `STATUS_PATTERN` match: the `lstrip`-ped line starts with the
three characters `[`, tag, `]`. -/
theorem statusTag_some_shape (l : Line) (c : Char) (h : statusTag l = some c) :
    ∃ b rest, lstrip l = '[' :: b :: ']' :: rest ∧ pyLower b = c := by
  simp only [statusTag] at h
  split at h
  case h_1 b rest heq =>
    split at h
    · exact ⟨b, rest, heq, by simpa using h⟩
    · exact absurd h (by simp)
  case h_2 => exact absurd h (by simp)

theorem statusTag_not_blank (l : Line) (c : Char) (h : statusTag l = some c) :
    isBlank l = false := by
  obtain ⟨b, rest, heq, -⟩ := statusTag_some_shape l c h
  simp only [isBlank, strip, heq]
  rw [rstrip_cons]
  split <;> simp [pyWS]

theorem statusTag_heading_none (l : Line) (c : Char) (h : statusTag l = some c) :
    headingMatch l = none := by
  obtain ⟨b, rest, heq, -⟩ := statusTag_some_shape l c h
  simp [headingMatch, heq, countLeadingHash]

/-! ### C1: the block-boundary rule of the extractors -/

theorem tsvCollect_eq (d : Nat) (ls : List Line) :
    tsvCollect d ls =
      ((ls.takeWhile (blankOrDeeper d)).map rstrip, ls.dropWhile (blankOrDeeper d)) := by
  induction ls with
  | nil => rfl
  | cons next rest ih =>
    by_cases hb : isBlank next = true
    · have hp : blankOrDeeper d next = true := by simp [blankOrDeeper, hb]
      simp [tsvCollect, hb, List.takeWhile_cons, List.dropWhile_cons, hp, ih]
    · simp only [Bool.not_eq_true] at hb
      by_cases hd : leadingIndent next ≤ d
      · have hp : blankOrDeeper d next = false := by
          simp [blankOrDeeper, hb]; omega
        by_cases hu : unindented next = true
        · by_cases hs : statusMatches next = true
          · simp [tsvCollect, hb, hu, hs, hd, List.takeWhile_cons, List.dropWhile_cons, hp]
          · simp only [Bool.not_eq_true] at hs
            simp [tsvCollect, hb, hu, hs, hd, List.takeWhile_cons, List.dropWhile_cons, hp]
        · simp only [Bool.not_eq_true] at hu
          by_cases hs : statusMatches next = true
          · simp [tsvCollect, hb, hu, hs, hd, List.takeWhile_cons, List.dropWhile_cons, hp]
          · simp only [Bool.not_eq_true] at hs
            simp [tsvCollect, hb, hu, hs, hd, List.takeWhile_cons, List.dropWhile_cons, hp]
      · have hp : blankOrDeeper d next = true := by
          simp [blankOrDeeper, hb]; omega
        have hu : unindented next = false := by
          by_contra hu
          simp only [Bool.not_eq_false] at hu
          have := leadingIndent_of_unindented next hu
          omega
        simp [tsvCollect, hb, hu, hd, List.takeWhile_cons, List.dropWhile_cons, hp, ih]

theorem fpCollect_eq (d : Nat) (ls : List Line) :
    fpCollect d ls =
      (ls.takeWhile (blankOrDeeper d), ls.dropWhile (blankOrDeeper d)) := by
  induction ls with
  | nil => rfl
  | cons next rest ih =>
    by_cases hb : isBlank next = true
    · have hp : blankOrDeeper d next = true := by simp [blankOrDeeper, hb]
      have hu : ¬ (unindented next && !isBlank next) = true := by simp [hb]
      simp [fpCollect, hb, hu, List.takeWhile_cons, List.dropWhile_cons, hp, ih]
    · simp only [Bool.not_eq_true] at hb
      by_cases hd : leadingIndent next ≤ d
      · have hp : blankOrDeeper d next = false := by
          simp [blankOrDeeper, hb]; omega
        by_cases hu : unindented next = true
        · simp [fpCollect, hb, hu, hd, List.takeWhile_cons, List.dropWhile_cons, hp]
        · simp only [Bool.not_eq_true] at hu
          simp [fpCollect, hb, hu, hd, List.takeWhile_cons, List.dropWhile_cons, hp]
      · have hp : blankOrDeeper d next = true := by
          simp [blankOrDeeper, hb]; omega
        have hu : unindented next = false := by
          by_contra hu
          simp only [Bool.not_eq_false] at hu
          have := leadingIndent_of_unindented next hu
          omega
        simp [fpCollect, hb, hu, hd, List.takeWhile_cons, List.dropWhile_cons, hp, ih]

/-- When the main loop of task_status_view.py's `parse_file` reaches a
status-tagged line (that is not also a legend line), it emits one entry whose
block is the `rstrip`-ped tag line followed by exactly the immediately
following blank-or-deeper lines, and resumes, without consuming it, at the
first following non-blank line of depth `≤` the tag line's depth. -/
theorem tsvParseAux_tag (fuel : Nat) (line : Line) (rest : List Line) (sect : Line)
    (stack : List Line) (c : Char) (st : String)
    (hc : statusTag line = some c) (hst : statusName c = some st)
    (hleg : legendTSV (strip line) = false) :
    tsvParseAux (fuel + 1) (line :: rest) sect stack =
      { status := st, sect := sect,
        lines := rstrip line ::
          (rest.takeWhile (blankOrDeeper (leadingIndent line))).map rstrip,
        headings := stack } ::
        tsvParseAux fuel (rest.dropWhile (blankOrDeeper (leadingIndent line))) sect stack := by
  have hb : isBlank line = false := statusTag_not_blank line c hc
  have hh : headingMatch line = none := statusTag_heading_none line c hc
  have hs : statusMatches line = true := by simp [statusMatches, hc]
  simp [tsvParseAux, hb, hleg, hh, hs, hc, hst, tsvCollect_eq]

/-- C1.  Block extraction boundary rule: in both parsers, the block attached
to a tagged line of depth `d` is the tag line followed by exactly the
immediately following lines that are blank or of depth `> d`; the block stops,
without consuming it, at the first non-blank line of depth `≤ d` (top-level
section lines are such lines, and blank lines never terminate a block). -/
theorem claim_C1_block_boundary :
    (∀ d ls, tsvCollect d ls =
      ((ls.takeWhile (blankOrDeeper d)).map rstrip, ls.dropWhile (blankOrDeeper d)))
    ∧ (∀ d ls, fpCollect d ls =
      (ls.takeWhile (blankOrDeeper d), ls.dropWhile (blankOrDeeper d)))
    ∧ (∀ fuel line rest sect stack c st,
        statusTag line = some c → statusName c = some st →
        legendTSV (strip line) = false →
        tsvParseAux (fuel + 1) (line :: rest) sect stack =
          { status := st, sect := sect,
            lines := rstrip line ::
              (rest.takeWhile (blankOrDeeper (leadingIndent line))).map rstrip,
            headings := stack } ::
            tsvParseAux fuel (rest.dropWhile (blankOrDeeper (leadingIndent line))) sect stack) :=
  ⟨tsvCollect_eq, fpCollect_eq,
    fun fuel line rest sect stack c st hc hst hleg =>
      tsvParseAux_tag fuel line rest sect stack c st hc hst hleg⟩

/-- Concrete instance of C1: a tag line `"\t[i] a"` with one deeper
continuation line `"\t\tb"` and a sibling `"\t[w] s"` afterwards. -/
theorem claim_C1_witness :
    tsvParseAux 3 [lc "\t[i] a", lc "\t\tb", lc "\t[w] s"] (lc "S") [] =
      { status := "in-progress", sect := lc "S",
        lines := rstrip (lc "\t[i] a") ::
          (([lc "\t\tb", lc "\t[w] s"].takeWhile
            (blankOrDeeper (leadingIndent (lc "\t[i] a")))).map rstrip),
        headings := [] } ::
        tsvParseAux 2 ([lc "\t\tb", lc "\t[w] s"].dropWhile
          (blankOrDeeper (leadingIndent (lc "\t[i] a")))) (lc "S") [] :=
  claim_C1_block_boundary.2.2 2 (lc "\t[i] a") [lc "\t\tb", lc "\t[w] s"] (lc "S") []
    'i' "in-progress" (by decide) (by decide) (by decide)

/-! ### C2: heading-stack maintenance -/

/-- The heading level recorded in a stored label `'#' * level ++ " " ++ text`
is recoverable as its leading `#`-run (the separating space stops the run). -/
theorem countLeadingHash_headingLabel (level : Nat) (text : Line) :
    countLeadingHash (headingLabel level text) = level := by
  induction level with
  | zero =>
    have h1 : ¬ (' ' : Char) = '#' := by decide
    simp [headingLabel, countLeadingHash, h1]
  | succ n ih =>
    have h2 : headingLabel (n + 1) text = '#' :: headingLabel n text := by
      simp [headingLabel, List.replicate_succ]
    rw [h2]
    show (if ('#' : Char) = '#' then countLeadingHash (headingLabel n text) + 1 else 0) = n + 1
    rw [if_pos rfl, ih]

/-- Positional lower bound on heading-chain levels: the entry at 1-based
position `p` (counting from `n` for the head) has heading level `≥ p`. -/
def chainLB : Nat → List Line → Bool
  | _, [] => true
  | n, h :: t => decide (n ≤ countLeadingHash h) && chainLB (n + 1) t

theorem chainLB_take (xs : List Line) : ∀ (n k : Nat),
    chainLB n xs = true → chainLB n (xs.take k) = true := by
  induction xs with
  | nil => intro n k _; simp [List.take_nil, chainLB]
  | cons h t ih =>
    intro n k hc
    cases k with
    | zero => simp [chainLB]
    | succ m =>
      simp only [List.take_succ_cons, chainLB, Bool.and_eq_true] at hc ⊢
      exact ⟨hc.1, ih (n + 1) m hc.2⟩

theorem chainLB_append_one (xs : List Line) : ∀ (n : Nat) (a : Line),
    chainLB n xs = true → n + xs.length ≤ countLeadingHash a →
    chainLB n (xs ++ [a]) = true := by
  induction xs with
  | nil =>
    intro n a _ ha
    simp only [List.nil_append, chainLB, Bool.and_eq_true, decide_eq_true_eq]
    refine ⟨by simpa using ha, ?_⟩
    simp [chainLB]
  | cons h t ih =>
    intro n a hc ha
    simp only [List.cons_append, chainLB, Bool.and_eq_true] at hc ⊢
    refine ⟨hc.1, ih (n + 1) a hc.2 ?_⟩
    simp only [List.length_cons] at ha
    omega

/-- Pushing a heading of level `level ≥ 1` preserves the positional invariant:
the stack is first truncated to length `≤ level - 1`, and the new label's own
level equals `level`. -/
theorem chainLB_push (stack : List Line) (level : Nat) (text : Line)
    (h : chainLB 1 stack = true) (hl : 1 ≤ level) :
    chainLB 1 (pushHeading stack level (headingLabel level text)) = true := by
  unfold pushHeading
  apply chainLB_append_one _ _ _ (chainLB_take stack 1 (level - 1) h)
  rw [countLeadingHash_headingLabel]
  have ht : (stack.take (level - 1)).length ≤ level - 1 := by
    simp [List.length_take]
  omega

theorem headingMatch_level_pos (l : Line) (kv : Nat × Line)
    (h : headingMatch l = some kv) : 1 ≤ kv.1 := by
  simp only [headingMatch] at h
  split at h
  · exact absurd h (by simp)
  · split at h
    · rename_i hk _
      cases h
      omega
    · split at h
      · rename_i hk _ _
        cases h
        omega
      · split at h
        · rename_i hk _ _ h2
          cases h
          simp
          omega
        · exact absurd h (by simp)

/-- Every heading chain attached by task_status_view.py's parser satisfies the
positional invariant (induction over the fuelled main loop). -/
theorem tsvParseAux_chainLB (fuel : Nat) :
    ∀ (ls : List Line) (sect : Line) (stack : List Line), chainLB 1 stack = true →
      ∀ e ∈ tsvParseAux fuel ls sect stack, chainLB 1 e.headings = true := by
  induction fuel with
  | zero =>
    intro ls sect stack _ e he
    simp [tsvParseAux] at he
  | succ n ih =>
    intro ls sect stack hstack e he
    cases ls with
    | nil => simp [tsvParseAux] at he
    | cons line rest =>
      simp only [tsvParseAux] at he
      by_cases hb : isBlank line = true
      · rw [if_pos hb] at he
        exact ih rest sect stack hstack e he
      · rw [if_neg hb] at he
        by_cases hleg : legendTSV (strip line) = true
        · rw [if_pos hleg] at he
          exact ih rest sect stack hstack e he
        · rw [if_neg hleg] at he
          rcases hh : headingMatch line with _ | kv
          · simp only [hh] at he
            by_cases hsec : (unindented line && !statusMatches line) = true
            · rw [if_pos hsec] at he
              exact ih rest (strip line) stack hstack e he
            · rw [if_neg hsec] at he
              rcases hc : statusTag line with _ | c
              · simp only [hc] at he
                exact ih rest sect stack hstack e he
              · simp only [hc] at he
                rcases hst : statusName c with _ | st
                · simp only [hst] at he
                  exact ih rest sect stack hstack e he
                · simp only [hst] at he
                  rcases List.mem_cons.mp he with h1 | h1
                  · rw [h1]
                    exact hstack
                  · exact ih _ sect stack hstack e h1
          · simp only [hh] at he
            exact ih rest _ _
              (chainLB_push stack kv.1 kv.2 hstack (headingMatch_level_pos line kv hh))
              e he

/-- C2 is false as stated: after `### A` then `## B`, the stack is popped by
*length* (`while len(heading_stack) >= level`), not by entry level, so the
level-3 entry survives the arrival of the level-2 heading and the chain
`["### A", "## B"]` attached to the task is not strictly increasing in depth
(levels 3 then 2). -/
theorem claim_C2_cex :
    (tsvParseFile [lc "### A", lc "## B", lc "[i] t"]).map TSVEntry.headings =
      [[lc "### A", lc "## B"]]
    ∧ countLeadingHash (lc "### A") = 3 ∧ countLeadingHash (lc "## B") = 2 := by
  decide

/-- C2 (amended).  When a heading of level `L` arrives, stack entries are
popped until the stack *length* is below `L` and the new label is pushed, so
the resulting stack never has more than `L` entries; consequently the heading
chain attached to every extracted task satisfies the positional invariant
`chainLB 1`: the label at 1-based position `p` has heading level `≥ p`
(outermost first) — but the chain need not be strictly increasing in depth. -/
theorem claim_C2_heading_stack :
    (∀ (stack : List Line) (level : Nat) (label : Line), 1 ≤ level →
      (pushHeading stack level label).length ≤ level)
    ∧ (∀ (ls : List Line), ∀ e ∈ tsvParseFile ls, chainLB 1 e.headings = true) := by
  constructor
  · intro stack level label hl
    simp only [pushHeading, List.length_append, List.length_take, List.length_singleton]
    omega
  · intro ls e he
    exact tsvParseAux_chainLB ls.length ls (lc "Uncategorized") [] rfl e he

/-- Concrete instance of C2 (amended): the chain `["# T", "## B"]` attached to
the task in a well-nested file satisfies the positional invariant. -/
theorem claim_C2_witness :
    chainLB 1 [lc "# T", lc "## B"] = true :=
  claim_C2_heading_stack.2 [lc "# T", lc "## B", lc "[i] t"]
    { status := "in-progress", sect := lc "## B", lines := [lc "[i] t"],
      headings := [lc "# T", lc "## B"] } (by decide)

/-! ### C6: the section-header rule of the tokenizers -/

/-- Exclusive per-line classification, mirroring the branch order of
`parse_file` in task_status_view.py: blank, legend, heading, section header,
status-tagged task, other content. -/
inductive LineClass where
  | blank | legend | heading | sectionHeader | task | other
  deriving Repr, DecidableEq

/-- The classification cascade of task_status_view.py's `parse_file`
(lines 276–314, in branch order). -/
def tsvClassify (l : Line) : LineClass :=
  if isBlank l then .blank
  else if legendTSV (strip l) then .legend
  else
    match headingMatch l with
    | some _ => .heading
    | none =>
      if unindented l && !statusMatches l then .sectionHeader
      else
        match statusTag l with
        | some c =>
          match statusName c with
          | some _ => .task
          | none => .other
        | none => .other

theorem tsvClassify_sectionHeader_iff (l : Line) :
    tsvClassify l = .sectionHeader ↔
      (isBlank l = false ∧ unindented l = true ∧ statusMatches l = false ∧
       legendTSV (strip l) = false ∧ headingMatch l = none) := by
  unfold tsvClassify
  by_cases hb : isBlank l = true
  · simp [hb]
  · simp only [Bool.not_eq_true] at hb
    rw [if_neg (by simp [hb])]
    by_cases hleg : legendTSV (strip l) = true
    · simp [hleg]
    · simp only [Bool.not_eq_true] at hleg
      rw [if_neg (by simp [hleg])]
      rcases hh : headingMatch l with _ | kv
      · by_cases hsec : (unindented l && !statusMatches l) = true
        · rw [if_pos hsec]
          simp only [Bool.and_eq_true, Bool.not_eq_true', Bool.not_eq_true] at hsec
          simp [hb, hleg, hsec.1, hsec.2]
        · rw [if_neg hsec]
          simp only [Bool.and_eq_true, Bool.not_eq_true', not_and_or, Bool.not_eq_true] at hsec
          rcases hc : statusTag l with _ | c
          · have hsm : statusMatches l = false := by simp [statusMatches, hc]
            rcases hsec with h1 | h1
            · simp [h1, hsm]
            · simp [h1, hsm] at *
          · rcases hsn : statusName c with _ | st
            · simp only [hc, hsn]
              constructor
              · intro h; exact absurd h (by simp)
              · rintro ⟨-, -, hsm, -, -⟩
                simp [statusMatches, hc] at hsm
            · simp only [hc, hsn]
              constructor
              · intro h; exact absurd h (by simp)
              · rintro ⟨-, -, hsm, -, -⟩
                simp [statusMatches, hc] at hsm
      · simp [hh]

/-- Operational meaning of the section-header class: the parser continues with
the current section replaced by the stripped line (and emits nothing). -/
theorem tsvParseAux_sectionHeader (fuel : Nat) (l : Line) (rest : List Line)
    (sect : Line) (stack : List Line) (h : tsvClassify l = .sectionHeader) :
    tsvParseAux (fuel + 1) (l :: rest) sect stack =
      tsvParseAux fuel rest (strip l) stack := by
  obtain ⟨hb, hu, hsm, hleg, hh⟩ := (tsvClassify_sectionHeader_iff l).mp h
  simp [tsvParseAux, hb, hleg, hh, hu, hsm]

/-- An unindented status-tagged, non-legend line is classified as a task. -/
theorem tsvClassify_tag (l : Line) (c : Char) (st : String)
    (hc : statusTag l = some c) (hst : statusName c = some st)
    (hleg : legendTSV (strip l) = false) :
    tsvClassify l = .task := by
  have hb : isBlank l = false := statusTag_not_blank l c hc
  have hh : headingMatch l = none := statusTag_heading_none l c hc
  have hsm : statusMatches l = true := by simp [statusMatches, hc]
  simp [tsvClassify, hb, hleg, hh, hsm, hc, hst]

/-- In filter_priority.py, any unindented non-blank line that is not a legend
line (in filter_priority's own sense) resets the section — even when it
matches the tag pattern or is a heading line. -/
theorem fpParseAux_sectionHeader (fuel : Nat) (l : Line) (rest : List Line)
    (cur : Option Line) (hb : isBlank l = false) (hleg : legendFP (strip l) = false)
    (hu : unindented l = true) :
    fpParseAux (fuel + 1) (l :: rest) cur = fpParseAux fuel rest (some (strip l)) := by
  simp [fpParseAux, hb, hleg, hu]

/-- C6 is false as stated: filter_priority.py treats the unindented
tag-matching line `"[1] x"` as a *section header* — it produces no
priority-1 task and becomes the section of the following task. -/
theorem claim_C6_cex :
    fpParseFile [lc "[1] x", lc "\t[2] y"] = [(2, lc "[1] x", [lc "\t[2] y"])]
    ∧ fpPriorities [lc "[1] x", lc "\t[2] y"] 1 = []
    ∧ (priorityTag (lc "[1] x")).isSome = true := by
  decide

/-- C6 (amended).  In task_status_view.py the rule holds as stated: a line is
classified as a section header iff it is non-blank, has zero leading
whitespace, does not match the tag pattern, is not a legend line and is not a
heading line, and an unindented tagged (non-legend) line is classified and
extracted as a task with the enclosing section left unchanged.  In
filter_priority.py, however, *every* unindented non-blank non-legend line is
treated as a section header, including lines matching the tag pattern. -/
theorem claim_C6_section_rule :
    (∀ l, tsvClassify l = .sectionHeader ↔
      (isBlank l = false ∧ unindented l = true ∧ statusMatches l = false ∧
       legendTSV (strip l) = false ∧ headingMatch l = none))
    ∧ (∀ fuel l rest sect stack, tsvClassify l = .sectionHeader →
        tsvParseAux (fuel + 1) (l :: rest) sect stack =
          tsvParseAux fuel rest (strip l) stack)
    ∧ (∀ l c st, statusTag l = some c → statusName c = some st →
        legendTSV (strip l) = false → tsvClassify l = .task)
    ∧ (∀ fuel l rest cur, isBlank l = false → legendFP (strip l) = false →
        unindented l = true →
        fpParseAux (fuel + 1) (l :: rest) cur = fpParseAux fuel rest (some (strip l))) :=
  ⟨tsvClassify_sectionHeader_iff, tsvParseAux_sectionHeader,
    tsvClassify_tag, fpParseAux_sectionHeader⟩

/-- Concrete instance of C6 (amended): `"Work"` is a section header for the
status parser and resets the section; the unindented tagged line `"[i] t"` is
classified as a task. -/
theorem claim_C6_witness :
    tsvClassify (lc "Work") = .sectionHeader
    ∧ tsvParseAux 1 [lc "Work"] (lc "Uncategorized") [] =
        tsvParseAux 0 [] (strip (lc "Work")) []
    ∧ tsvClassify (lc "[i] t") = .task
    ∧ fpParseAux 1 [lc "[1] x"] none = fpParseAux 0 [] (some (strip (lc "[1] x"))) :=
  ⟨by decide,
   claim_C6_section_rule.2.1 0 (lc "Work") [] (lc "Uncategorized") [] (by decide),
   claim_C6_section_rule.2.2.1 (lc "[i] t") 'i' "in-progress" (by decide) (by decide) (by decide),
   claim_C6_section_rule.2.2.2 0 (lc "[1] x") [] none (by decide) (by decide) (by decide)⟩

/-! ### import_external_tasks.py: definitions -/

/-- `"\n".join(normalized)`. -/
def joinNL (ls : List Line) : Line := List.intercalate ['\n'] ls

/-- `canonicalize_lines` (import_external_tasks.py lines 171–173):
`normalized = [line.strip() for line in lines if line.strip()]`, newline
joined. -/
def canonicalizeLines (lines : List Line) : Line :=
  joinNL ((lines.map strip).filter (fun l => !l.isEmpty))

/-- `heading_level` (lines 176–181): `None` when the stripped label does not
start with `#`, else the length of the leading `#`-run. -/
def headingLevelPy (label : Line) : Option Nat :=
  let stripped := lstrip label
  match stripped with
  | '#' :: _ => some (countLeadingHash stripped)
  | _ => none

/-- `level is not None and level >= 2` for one label. -/
def levelGE2 (label : Line) : Bool :=
  match headingLevelPy label with
  | some k => 2 ≤ k
  | none => false

/-- `cleaned = [label.strip() for label in chain if label.strip()]`. -/
def cleanedChain (chain : List Line) : List Line :=
  (chain.map strip).filter (fun l => !l.isEmpty)

/-- `normalize_heading_chain` (lines 184–193). -/
def normalizeHeadingChain (chain : List Line) : List Line :=
  let cleaned := cleanedChain chain
  if cleaned = [] then []
  else if cleaned.any levelGE2 then cleaned.dropWhile (fun l => !levelGE2 l)
  else cleaned

/-- `reindent_entry_lines` (lines 196–204): non-blank lines are stripped and
re-prefixed with the uniform `indent_prefix`; blank lines become empty. -/
def reindentEntryLines (lines : List Line) (indentPrefix : Line) : List Line :=
  lines.map (fun line => if strip line = [] then [] else indentPrefix ++ strip line)

/-- The heading lines of `build_heading_block`:
`for level, heading in enumerate(heading_chain, start=1): "\t" * level + heading`. -/
def headingChainLines : Nat → List Line → List Line
  | _, [] => []
  | lvl, h :: rest => (List.replicate lvl '\t' ++ h) :: headingChainLines (lvl + 1) rest

/-- The entry bodies of `build_heading_block`: reindented entries with one
empty line between siblings (`if idx != len(entries) - 1: lines.append("")`). -/
def entriesBody (indent : Line) : List TSVEntry → List Line
  | [] => []
  | [e] => reindentEntryLines e.lines indent
  | e :: rest => reindentEntryLines e.lines indent ++ [] :: entriesBody indent rest

/-- `build_heading_block` (lines 207–219). -/
def buildHeadingBlock (chain : List Line) (entries : List TSVEntry) : List Line :=
  let hs := headingChainLines 1 chain
  let entryIndent := List.replicate (if chain = [] then 1 else chain.length + 1) '\t'
  let all := hs ++ entriesBody entryIndent entries
  if all ≠ [] ∧ all.getLast? ≠ some [] then all ++ [[]] else all

/-- `ImportSpec` (configuration of one import; name/path identity omitted). -/
structure PyImportSpec where
  sect : Line
  statuses : List String
  allowDuplicates : Bool := false
  useSourceSection : Bool := false
  sectionMap : List (Line × Line) := []

/-- Association-list lookup (model of a Python dict keyed by strings). -/
def assocGet (m : List (Line × Line)) (k : Line) : Option Line :=
  match m with
  | [] => none
  | (k', v) :: rest => if k' = k then some v else assocGet rest k

/-- `determine_section` (lines 222–228). -/
def determineSection (spec : PyImportSpec) (e : TSVEntry) : Line :=
  let sn := strip e.sect
  if sn ≠ [] ∧ (assocGet spec.sectionMap sn).isSome then
    match assocGet spec.sectionMap sn with
    | some v => if v = [] then spec.sect else v
    | none => spec.sect
  else if spec.useSourceSection ∧ sn ≠ [] then sn
  else spec.sect

/-- `gather_tasks` (lines 129–143): parse, filter by status, drop empty
canonical signatures and batch-level duplicates. -/
def gatherAux (sts : List String) : List TSVEntry → List Line → List TSVEntry
  | [], _ => []
  | e :: rest, seen =>
    if ¬ sts.contains e.status then gatherAux sts rest seen
    else
      let k := canonicalizeLines e.lines
      if k = [] ∨ seen.contains k then gatherAux sts rest seen
      else e :: gatherAux sts rest (k :: seen)

def gatherTasks (src : List Line) (sts : List String) : List TSVEntry :=
  gatherAux sts (tsvParseFile src) []

/-- `find_section_indices` (lines 146–168): index of the first unindented
non-blank line whose stripped text equals the section (or `none`), and the
insertion index — the first top-level non-blank line after it, else the end
of the file. -/
def findIdxFrom (p : Line → Bool) : List Line → Option Nat
  | [] => none
  | l :: rest =>
    if p l then some 0
    else match findIdxFrom p rest with
      | some j => some (j + 1)
      | none => none

def findSectionIndices (lines : List Line) (sect : Line) : Option Nat × Nat :=
  match findIdxFrom (fun l => !isBlank l && unindented l && strip l = sect) lines with
  | none => (none, lines.length)
  | some i =>
    match findIdxFrom (fun l => !isBlank l && unindented l) (lines.drop (i + 1)) with
    | some j => (some i, i + 1 + j)
    | none => (some i, lines.length)

/-- `list.insert` repeated: insert `new` before position `i`. -/
def insertAt (ls : List Line) (i : Nat) (new : List Line) : List Line :=
  ls.take i ++ new ++ ls.drop i

/-- `new_lines[i]` (always called in range; out of range yields `[]`). -/
def lineAt (ls : List Line) (i : Nat) : Line := (ls.get? i).getD []

/-- `insert_into_section` (lines 231–255). -/
def insertIntoSection (lines : List Line) (sect : Line) (block : List Line) : List Line :=
  let p := findSectionIndices lines sect
  let q : List Line × Nat :=
    match p.1 with
    | none =>
      let a := if lines ≠ [] ∧ ¬ isBlank ((lines.getLast?).getD []) then lines ++ [[]] else lines
      let b := a ++ [sect, ([] : Line)]
      (b, b.length)
    | some _ =>
      if 0 < p.2 ∧ ¬ isBlank (lineAt lines (p.2 - 1)) then (insertAt lines p.2 [[]], p.2 + 1)
      else (lines, p.2)
  let r := insertAt q.1 q.2 block
  let j := q.2 + block.length
  if j < r.length ∧ ¬ isBlank (lineAt r j) then insertAt r j [[]] else r

/-- The `existing_keys` set (lines 276–280): canonical signatures of the
destination entries whose status is in the import's status filter. -/
def existingKeysOf (dest : List Line) (sts : List String) : List Line :=
  ((tsvParseFile dest).filter (fun e => sts.contains e.status)).map
    (fun e => canonicalizeLines e.lines)

/-- The deduplication loop of `run_single_import` (lines 281–292): returns
`unique_tasks` and the duplicate count; every appended entry's key is added to
the accumulating key set whether or not duplicates are allowed. -/
def dedupLoop (allowDup : Bool) : List TSVEntry → List Line → List TSVEntry × Nat
  | [], _ => ([], 0)
  | e :: rest, keys =>
    let k := canonicalizeLines e.lines
    if k = [] then dedupLoop allowDup rest keys
    else if !allowDup && keys.contains k then
      let pr := dedupLoop allowDup rest keys
      (pr.1, pr.2 + 1)
    else
      let pr := dedupLoop allowDup rest (k :: keys)
      (e :: pr.1, pr.2)

/-- Grouping of unique tasks by target section and normalized heading chain
(lines 299–316), keeping both insertion orders; sections map to ordered
`(heading chain, entries)` groups. -/
def addToHeadingGroups (hgs : List (List Line × List TSVEntry)) (hk : List Line)
    (e : TSVEntry) : List (List Line × List TSVEntry) :=
  match hgs with
  | [] => [(hk, [e])]
  | (hk', es) :: rest =>
    if hk' = hk then (hk', es ++ [e]) :: rest
    else (hk', es) :: addToHeadingGroups rest hk e

def addToGroups (gs : List (Line × List (List Line × List TSVEntry))) (s : Line)
    (hk : List Line) (e : TSVEntry) : List (Line × List (List Line × List TSVEntry)) :=
  match gs with
  | [] => [(s, [(hk, [e])])]
  | (s', hgs) :: rest =>
    if s' = s then (s', addToHeadingGroups hgs hk e) :: rest
    else (s', hgs) :: addToGroups rest s hk e

/-- The heading chain used to store one entry (lines 303–307): the normalized
source chain, or the single fallback label `entry.section.strip() or
target_section` when the normalized chain is empty. -/
def chainFor (spec : PyImportSpec) (e : TSVEntry) : List Line :=
  let ts := determineSection spec e
  let h := normalizeHeadingChain e.headings
  let fb := if strip e.sect = [] then ts else strip e.sect
  if h = [] then [fb] else h

def groupAll (spec : PyImportSpec) (entries : List TSVEntry) :
    List (Line × List (List Line × List TSVEntry)) :=
  entries.foldl (fun gs e => addToGroups gs (determineSection spec e) (chainFor spec e) e) []

/-- `while block_lines and block_lines[-1] == "": block_lines.pop()`. -/
def popTrailingEmpty (ls : List Line) : List Line :=
  (ls.reverse.dropWhile (fun l => l.isEmpty)).reverse

/-- The combined block inserted for one section (lines 331–336). -/
def sectionBlock (hgs : List (List Line × List TSVEntry)) : List Line :=
  popTrailingEmpty (List.flatten (hgs.map (fun hg => buildHeadingBlock hg.1 hg.2)))

/-- The pure core of `run_single_import` (lines 258–346) for an existing
source and destination file, `dry_run = False`: returns the new destination
lines when the file is written (`none` when the run returns without writing)
and the number of inserted tasks. -/
def runSingleImport (spec : PyImportSpec) (src : List Line) (dest : List Line) :
    Option (List Line) × Nat :=
  let tasks := gatherTasks src spec.statuses
  if tasks = [] then (none, 0)
  else
    let du := dedupLoop spec.allowDuplicates tasks (existingKeysOf dest spec.statuses)
    if du.1 = [] then (none, 0)
    else
      let gs := groupAll spec du.1
      let newDest := gs.foldl (fun acc g => insertIntoSection acc g.1 (sectionBlock g.2)) dest
      (some newDest, du.1.length)

/-- Python `splitlines`, restricted to `\n` / `\r` / `\r\n` line breaks (the
only breaks the scripts can write): `\r\n` is first normalized to `\n`. -/
def normNewlines : Line → Line
  | [] => []
  | [c] => [c]
  | c :: d :: cs =>
    if c = '\x0d' then
      if d = '\n' then '\n' :: normNewlines cs
      else '\x0d' :: normNewlines (d :: cs)
    else c :: normNewlines (d :: cs)

def splitNLAux (cur : Line) : Line → List Line
  | [] => if cur = [] then [] else [cur.reverse]
  | c :: cs =>
    if c = '\n' || c = '\x0d' then cur.reverse :: splitNLAux [] cs
    else splitNLAux (c :: cur) cs

def splitNL (content : Line) : List Line := splitNLAux [] (normNewlines content)

/-- `"\n".join(lines).rstrip() + "\n"`: the content written by
`run_single_import` (line 338) and by the sync scripts. -/
def writeContent (ls : List Line) : Line := rstrip (joinNL ls) ++ ['\n']

/-! ### C5: heading-chain normalization -/

theorem dropWhile_ne_nil_of_any (p : Line → Bool) (l : List Line) (h : l.any p = true) :
    l.dropWhile (fun x => !p x) ≠ [] := by
  induction l with
  | nil => simp at h
  | cons a t ih =>
    simp only [List.any_cons, Bool.or_eq_true] at h
    by_cases ha : p a = true
    · simp [List.dropWhile_cons, ha]
    · simp only [Bool.not_eq_true] at ha
      rcases h with h | h
      · rw [ha] at h
        simp at h
      · simp [List.dropWhile_cons, ha, ih h]

/-- C5 is false as stated: a chain with no heading of level ≥ 2 is returned
unchanged, not normalized to the empty chain — `["# Project Title"]` survives
(and hence the synthetic-label fallback is not applied to it). -/
theorem claim_C5_cex :
    normalizeHeadingChain [lc "# Project Title"] = [lc "# Project Title"]
    ∧ normalizeHeadingChain [lc "# Project Title"] ≠ []
    ∧ levelGE2 (lc "# Project Title") = false := by
  decide

/-- C5 (amended).  Normalization first trims labels and drops blank ones
(`cleanedChain`); if some surviving label has level ≥ 2, the result is the
suffix of the cleaned chain starting at the first such label (so the example
`["# Project Title", "## Phase 1", "### Step A"] → ["## Phase 1", "### Step A"]`
holds); but a chain with no label of level ≥ 2 is returned *unchanged* after
cleaning — only an entirely blank/empty chain normalizes to the empty chain —
and the import falls back to the single synthetic heading label exactly when
the normalized chain is empty. -/
theorem claim_C5_normalization :
    (∀ chain, (cleanedChain chain).any levelGE2 = true →
      normalizeHeadingChain chain = (cleanedChain chain).dropWhile (fun l => !levelGE2 l))
    ∧ (∀ chain, (cleanedChain chain).any levelGE2 = false →
      normalizeHeadingChain chain = cleanedChain chain)
    ∧ (∀ chain, normalizeHeadingChain chain = [] ↔ cleanedChain chain = [])
    ∧ (∀ spec e, chainFor spec e =
        (if normalizeHeadingChain e.headings = [] then
          [if strip e.sect = [] then determineSection spec e else strip e.sect]
        else normalizeHeadingChain e.headings)) := by
  refine ⟨?_, ?_, ?_, ?_⟩
  · intro chain hany
    have hne : cleanedChain chain ≠ [] := by
      intro h
      rw [h] at hany
      simp at hany
    simp [normalizeHeadingChain, hne, hany]
  · intro chain hany
    by_cases hne : cleanedChain chain = []
    · simp [normalizeHeadingChain, hne]
    · simp [normalizeHeadingChain, hne, hany]
  · intro chain
    by_cases hne : cleanedChain chain = []
    · simp [normalizeHeadingChain, hne]
    · by_cases hany : (cleanedChain chain).any levelGE2 = true
      · simp only [normalizeHeadingChain, if_neg hne, hany, if_pos rfl]
        constructor
        · intro h
          exact absurd h (dropWhile_ne_nil_of_any levelGE2 (cleanedChain chain) hany)
        · intro h
          exact absurd h hne
      · simp only [Bool.not_eq_true] at hany
        simp [normalizeHeadingChain, hne, hany]
  · intro spec e
    by_cases h : normalizeHeadingChain e.headings = []
    · by_cases hs : strip e.sect = [] <;> simp [chainFor, h, hs]
    · simp [chainFor, h]

/-- Concrete instance of C5 (amended): the spec's own example chain. -/
theorem claim_C5_witness :
    normalizeHeadingChain [lc "# Project Title", lc "## Phase 1", lc "### Step A"] =
      (cleanedChain [lc "# Project Title", lc "## Phase 1", lc "### Step A"]).dropWhile
        (fun l => !levelGE2 l) :=
  claim_C5_normalization.1 [lc "# Project Title", lc "## Phase 1", lc "### Step A"]
    (by decide)

/-! ### C3: import idempotence -/

/-- The import configuration used by the concrete import scenarios: section
`Imported`, statuses `in-progress`, duplicates suppressed. -/
def specImp : PyImportSpec := { sect := lc "Imported", statuses := ["in-progress"] }

/-- A source file with one task block holding a nested continuation line. -/
def srcNested : List Line := [lc "Proj", lc "\t[i] alpha", lc "\t\tbeta"]

/-- C3 is false as stated: importing the two-line block `[i] alpha` +
`\t\tbeta` into an empty destination and then re-running the very same import
on the written destination inserts the block a *second* time (the second run
reports 1 inserted task and appends four more lines), because
`reindent_entry_lines` flattened the nested line to the tag line's
indentation, so the destination re-parses to the signature `"[i] alpha"`
only, which differs from the source block's signature `"[i] alpha\nbeta"`. -/
theorem claim_C3_cex :
    runSingleImport specImp srcNested [] =
      (some [lc "Imported", lc "", lc "\tProj", lc "\t\t[i] alpha", lc "\t\tbeta"], 1)
    ∧ runSingleImport specImp srcNested
        (splitNL (writeContent
          [lc "Imported", lc "", lc "\tProj", lc "\t\t[i] alpha", lc "\t\tbeta"])) =
      (some [lc "Imported", lc "", lc "\tProj", lc "\t\t[i] alpha", lc "\t\tbeta",
        lc "", lc "\tProj", lc "\t\t[i] alpha", lc "\t\tbeta"], 1) := by
  decide

theorem dedupLoop_all_dup (l : List TSVEntry) (keys : List Line)
    (h : ∀ e ∈ l, keys.contains (canonicalizeLines e.lines) = true) :
    (dedupLoop false l keys).1 = [] := by
  induction l with
  | nil => rfl
  | cons e rest ih =>
    have he := h e (List.mem_cons_self e rest)
    have hrest : ∀ e2 ∈ rest, keys.contains (canonicalizeLines e2.lines) = true :=
      fun e2 h2 => h e2 (List.mem_cons_of_mem e h2)
    have he2 : canonicalizeLines e.lines ∈ keys := by simpa using he
    by_cases hk : canonicalizeLines e.lines = []
    · simp [dedupLoop, hk, ih hrest]
    · simp [dedupLoop, hk, he2, ih hrest]

/-- C3 (amended).  With duplicates disabled, a run in which every gathered
block's canonical signature already occurs among the destination's parsed
same-status signatures inserts zero tasks and returns without writing the
destination file at all (so no spacing is perturbed).  After a first import
this precondition holds for single-line blocks (see the witness); it fails
for blocks with nested continuation lines, which `reindent_entry_lines`
flattens, making the import re-insert them on every run
(`claim_C3_cex`). -/
theorem claim_C3_idempotence (spec : PyImportSpec) (src dest : List Line)
    (hdup : spec.allowDuplicates = false)
    (h : ∀ e ∈ gatherTasks src spec.statuses,
      (existingKeysOf dest spec.statuses).contains (canonicalizeLines e.lines) = true) :
    runSingleImport spec src dest = (none, 0) := by
  unfold runSingleImport
  by_cases ht : gatherTasks src spec.statuses = []
  · simp [ht]
  · rw [if_neg ht, hdup]
    have hd := dedupLoop_all_dup (gatherTasks src spec.statuses)
      (existingKeysOf dest spec.statuses) h
    simp [hd]

/-- Concrete instance of C3 (amended): the second run of a single-line import
(first run written as `["Imported", "", "\tProj", "\t\t[i] alpha"]`) inserts
nothing and does not write the file. -/
theorem claim_C3_witness :
    runSingleImport specImp [lc "Proj", lc "\t[i] alpha"]
      (splitNL (writeContent [lc "Imported", lc "", lc "\tProj", lc "\t\t[i] alpha"])) =
      (none, 0) :=
  claim_C3_idempotence specImp [lc "Proj", lc "\t[i] alpha"]
    (splitNL (writeContent [lc "Imported", lc "", lc "\tProj", lc "\t\t[i] alpha"]))
    (by decide) (by decide)

/-! ### C7: canonical signature and deduplication scope -/

/-- Canonical signature of a parsed entry. -/
def sigOf (e : TSVEntry) : Line := canonicalizeLines e.lines

theorem gatherAux_props (sts : List String) (l : List TSVEntry) :
    ∀ seen, ∀ e ∈ gatherAux sts l seen,
      sts.contains e.status = true ∧ sigOf e ≠ [] ∧ ¬ sigOf e ∈ seen := by
  induction l with
  | nil => intro seen e he; simp [gatherAux] at he
  | cons a rest ih =>
    intro seen e he
    by_cases hs : sts.contains a.status = true
    · rw [gatherAux, if_neg (not_not_intro hs)] at he
      by_cases hk : canonicalizeLines a.lines = [] ∨ seen.contains (canonicalizeLines a.lines) = true
      · rw [if_pos hk] at he
        exact ih seen e he
      · rw [if_neg hk] at he
        push_neg at hk
        rcases List.mem_cons.mp he with h1 | h1
        · subst h1
          refine ⟨hs, hk.1, ?_⟩
          intro hmem
          have h2 : seen.contains (canonicalizeLines e.lines) = true := by
            simpa [sigOf] using hmem
          exact absurd h2 hk.2
        · have h3 := ih (canonicalizeLines a.lines :: seen) e h1
          exact ⟨h3.1, h3.2.1, fun hm => h3.2.2 (List.mem_cons_of_mem _ hm)⟩
    · rw [gatherAux, if_pos hs] at he
      exact ih seen e he

theorem gatherAux_sig_nodup (sts : List String) (l : List TSVEntry) :
    ∀ seen, ((gatherAux sts l seen).map sigOf).Nodup := by
  induction l with
  | nil => intro seen; simp [gatherAux]
  | cons a rest ih =>
    intro seen
    by_cases hs : sts.contains a.status = true
    · rw [gatherAux, if_neg (not_not_intro hs)]
      by_cases hk : canonicalizeLines a.lines = [] ∨ seen.contains (canonicalizeLines a.lines) = true
      · rw [if_pos hk]
        exact ih seen
      · rw [if_neg hk]
        simp only [List.map_cons, List.nodup_cons]
        constructor
        · intro hmem
          obtain ⟨e, he, hsig⟩ := List.mem_map.mp hmem
          have h3 := (gatherAux_props sts rest (canonicalizeLines a.lines :: seen) e he).2.2
          apply h3
          apply List.mem_cons.mpr
          left
          simpa [sigOf] using hsig
        · exact ih _
    · rw [gatherAux, if_pos hs]
      exact ih seen

theorem dedupLoop_allow (l : List TSVEntry)
    (hne : ∀ e ∈ l, sigOf e ≠ []) :
    ∀ keys, (dedupLoop true l keys).1 = l := by
  induction l with
  | nil => intro keys; rfl
  | cons e rest ih =>
    intro keys
    have h1 : canonicalizeLines e.lines ≠ [] := hne e (List.mem_cons_self e rest)
    simp only [dedupLoop, if_neg h1, Bool.not_true, Bool.false_and, Bool.false_eq_true,
      if_false]
    rw [ih (fun e2 h2 => hne e2 (List.mem_cons_of_mem e h2))]

theorem dedupLoop_strict (l : List TSVEntry)
    (hne : ∀ e ∈ l, sigOf e ≠ []) (hnd : (l.map sigOf).Nodup) :
    ∀ keys, (dedupLoop false l keys).1 = l.filter (fun e => !(keys.contains (sigOf e))) := by
  induction l with
  | nil => intro keys; rfl
  | cons e rest ih =>
    intro keys
    have h1 : canonicalizeLines e.lines ≠ [] := hne e (List.mem_cons_self e rest)
    have hne2 : ∀ e2 ∈ rest, sigOf e2 ≠ [] :=
      fun e2 h2 => hne e2 (List.mem_cons_of_mem e h2)
    have hnd2 : (rest.map sigOf).Nodup := by
      simp only [List.map_cons, List.nodup_cons] at hnd
      exact hnd.2
    have hnotin : sigOf e ∉ rest.map sigOf := by
      simp only [List.map_cons, List.nodup_cons] at hnd
      exact hnd.1
    by_cases hc : keys.contains (canonicalizeLines e.lines) = true
    · simp only [dedupLoop, if_neg h1, Bool.not_false, Bool.true_and, hc, if_true,
        List.filter_cons]
      have hpe : (!(keys.contains (sigOf e))) = false := by
        unfold sigOf
        rw [hc]
        rfl
      rw [hpe]
      simp only [Bool.false_eq_true, if_false]
      exact ih hne2 hnd2 keys
    · simp only [Bool.not_eq_true] at hc
      simp only [dedupLoop, if_neg h1, Bool.not_false, Bool.true_and, hc, Bool.false_eq_true,
        if_false, List.filter_cons]
      have hpe : (!(keys.contains (sigOf e))) = true := by
        unfold sigOf
        rw [hc]
        rfl
      rw [hpe]
      simp only [if_true]
      rw [ih hne2 hnd2 (canonicalizeLines e.lines :: keys)]
      congr 1
      apply List.filter_congr
      intro e2 h2
      have hne3 : sigOf e2 ≠ sigOf e := by
        intro hEq
        exact hnotin (hEq ▸ List.mem_map_of_mem sigOf h2)
      simp only [List.contains_cons]
      have h4 : (sigOf e2 == canonicalizeLines e.lines) = false := by
        have : sigOf e2 ≠ canonicalizeLines e.lines := hne3
        simpa using this
      rw [h4]
      simp

/-- C7.  Within one gathered batch, canonical signatures are pairwise distinct
(rule (a)), and every batch entry has a status inside the filter set and a
non-empty signature; with `allow_duplicates` set, the destination check is
skipped entirely — `unique_tasks` is the whole batch, so only rule (a)
remains in force; with `allow_duplicates` unset, `unique_tasks` is exactly the
batch minus the entries whose signature occurs among the destination's parsed
same-status signatures (`existingKeysOf` filters the destination's entries by
the same status set — rule (b)). -/
theorem claim_C7_dedup_scope :
    (∀ (src : List Line) (sts : List String),
      ((gatherTasks src sts).map sigOf).Nodup
      ∧ ∀ e ∈ gatherTasks src sts, sts.contains e.status = true ∧ sigOf e ≠ [])
    ∧ (∀ (spec : PyImportSpec) (src dest : List Line), spec.allowDuplicates = true →
        (dedupLoop spec.allowDuplicates (gatherTasks src spec.statuses)
          (existingKeysOf dest spec.statuses)).1 = gatherTasks src spec.statuses)
    ∧ (∀ (spec : PyImportSpec) (src dest : List Line), spec.allowDuplicates = false →
        (dedupLoop spec.allowDuplicates (gatherTasks src spec.statuses)
          (existingKeysOf dest spec.statuses)).1 =
        (gatherTasks src spec.statuses).filter
          (fun e => !((existingKeysOf dest spec.statuses).contains (sigOf e)))) := by
  have hprops : ∀ (src : List Line) (sts : List String), ∀ e ∈ gatherTasks src sts,
      sts.contains e.status = true ∧ sigOf e ≠ [] ∧ ¬ sigOf e ∈ ([] : List Line) := by
    intro src sts e he
    exact gatherAux_props sts (tsvParseFile src) [] e he
  refine ⟨?_, ?_, ?_⟩
  · intro src sts
    exact ⟨gatherAux_sig_nodup sts (tsvParseFile src) [],
      fun e he => ⟨(hprops src sts e he).1, (hprops src sts e he).2.1⟩⟩
  · intro spec src dest hdup
    rw [hdup]
    exact dedupLoop_allow (gatherTasks src spec.statuses)
      (fun e he => (hprops src spec.statuses e he).2.1) _
  · intro spec src dest hdup
    rw [hdup]
    exact dedupLoop_strict (gatherTasks src spec.statuses)
      (fun e he => (hprops src spec.statuses e he).2.1)
      (gatherAux_sig_nodup spec.statuses (tsvParseFile src) []) _

/-- Concrete instance of C7: with duplicates disabled, the nested-source batch
against the empty destination is kept whole (no destination signatures). -/
theorem claim_C7_witness :
    (dedupLoop specImp.allowDuplicates (gatherTasks srcNested specImp.statuses)
      (existingKeysOf [] specImp.statuses)).1 =
    (gatherTasks srcNested specImp.statuses).filter
      (fun e => !((existingKeysOf [] specImp.statuses).contains (sigOf e))) :=
  claim_C7_dedup_scope.2.2 specImp srcNested [] (by decide)

/-! ### sync_completed.py: definitions -/

/-- `TASK_REGEX.search(line)` with `TASK_REGEX = \[x\]\s*(.*)` (IGNORECASE):
find the leftmost `[x]` / `[X]` occurrence anywhere in the line and return the
text after it, with following whitespace skipped. -/
def taskSearch : Line → Option Line
  | [] => none
  | c :: cs =>
    match c, cs with
    | '[', x :: ']' :: rest =>
      if pyLower x = 'x' then some (rest.dropWhile pyWS) else taskSearch cs
    | _, _ => taskSearch cs

/-- Python `str.split()` (split on whitespace runs, no empty words). -/
def splitWSAux (cur : Line) : Line → List Line
  | [] => if cur = [] then [] else [cur.reverse]
  | c :: cs =>
    if pyWS c then
      if cur = [] then splitWSAux [] cs else cur.reverse :: splitWSAux [] cs
    else splitWSAux (c :: cur) cs

def pySplitWS (l : Line) : List Line := splitWSAux [] l

/-- `normalize_task`: `" ".join(text.strip().split())`. -/
def normalizeTask (t : Line) : Line := List.intercalate [' '] (pySplitWS (strip t))

/-- `extract_task_text` of sync_completed.py. -/
def extractTaskText (l : Line) : Line :=
  match taskSearch l with
  | some g => normalizeTask g
  | none => normalizeTask l

/-- `TaskEntry` of sync_completed.py (`file_path` modelled by a numeric id). -/
structure SyncTask where
  sect : Line
  text : Line
  fileId : Nat
  lineIdx : Nat
  deriving Repr, DecidableEq

/-- `extract_tasks_from_lines` (sync_completed.py lines 75–96): checked lines
anywhere in the line produce a task (unless the normalized text is empty);
only lines *without* a `[x]` match update the current section. -/
def extractAux (stem : Line) (fid : Nat) : Nat → List Line → Option Line → List SyncTask
  | _, [], _ => []
  | idx, l :: rest, cur =>
    if isBlank l then extractAux stem fid (idx + 1) rest cur
    else
      match taskSearch l with
      | some g =>
        let t := normalizeTask g
        if t = [] then extractAux stem fid (idx + 1) rest cur
        else { sect := cur.getD stem, text := t, fileId := fid, lineIdx := idx } ::
          extractAux stem fid (idx + 1) rest cur
      | none =>
        if unindented l then extractAux stem fid (idx + 1) rest (some (strip l))
        else extractAux stem fid (idx + 1) rest cur

def extractTasksFromLines (lines : List Line) (stem : Line) (fid : Nat) : List SyncTask :=
  extractAux stem fid 0 lines none

/-- State of the completion log:
`(section_order, section_entries, section_tasks)`. -/
structure LogState where
  order : List Line
  entries : List (Line × List Line)
  sigs : List (Line × List Line)
  deriving Repr, DecidableEq

/-- Association-list find (Python dict read). -/
def assocFind (m : List (Line × List Line)) (k : Line) : Option (List Line) :=
  match m with
  | [] => none
  | (k', v) :: rest => if k' = k then some v else assocFind rest k

/-- Python dict assignment `d[k] = v` (overwrite or append). -/
def assocSet (m : List (Line × List Line)) (k : Line) (v : List Line) :
    List (Line × List Line) :=
  match m with
  | [] => [(k, v)]
  | (k', v') :: rest => if k' = k then (k', v) :: rest else (k', v') :: assocSet rest k v

/-- `d[k].append(v)` / `d[k].add(v)` — the key is always present at call
sites (a missing key leaves the dict unchanged). -/
def assocPush (m : List (Line × List Line)) (k : Line) (v : Line) :
    List (Line × List Line) :=
  match m with
  | [] => []
  | (k', vs) :: rest =>
    if k' = k then (k', vs ++ [v]) :: rest else (k', vs) :: assocPush rest k v

/-- `if section not in section_entries: order.append(section);
section_entries[section] = []; section_tasks[section] = set()` — shared by
`load_completed` and the sync loop. -/
def ensureSection (st : LogState) (s : Line) : LogState :=
  if (assocFind st.entries s).isSome then st
  else { order := st.order ++ [s], entries := assocSet st.entries s [],
         sigs := assocSet st.sigs s [] }

/-- `load_completed` (lines 43–72): blank lines skipped, unindented lines open
a section, indented lines before any section are dropped, entry lines are
stored `rstrip`-ped with their extracted signature. -/
def loadAux : List Line → Option Line → LogState → LogState
  | [], _, st => st
  | l :: rest, cur, st =>
    if isBlank l then loadAux rest cur st
    else if unindented l then
      loadAux rest (some (strip l)) (ensureSection st (strip l))
    else
      match cur with
      | none => loadAux rest cur st
      | some s =>
        loadAux rest cur
          { st with entries := assocPush st.entries s (rstrip l),
                    sigs := assocPush st.sigs s (extractTaskText (rstrip l)) }

def loadCompleted (ls : List Line) : LogState := loadAux ls none ⟨[], [], []⟩

/-- `f"\t[{today_str}] [x] {task_text}"`. -/
def fmtEntry (today : Line) (text : Line) : Line :=
  '\t' :: '[' :: (today ++ ']' :: ' ' :: '[' :: 'x' :: ']' :: ' ' :: text)

/-- The recording loop of `sync_completed` (lines 150–164): ensure the
section, skip the task when its text is already in the section's signature
set, else append the stamped entry and record the addition. -/
def syncLoop (today : Line) : List SyncTask → LogState → LogState × List (Line × Line × Nat)
  | [], st => (st, [])
  | t :: ts, st =>
    let st1 := ensureSection st t.sect
    if ((assocFind st1.sigs t.sect).getD []).contains t.text then
      syncLoop today ts st1
    else
      let st2 := { st1 with entries := assocPush st1.entries t.sect (fmtEntry today t.text),
                            sigs := assocPush st1.sigs t.sect t.text }
      let pr := syncLoop today ts st2
      (pr.1, (t.sect, t.text, t.fileId) :: pr.2)

/-- `if not entry_out.startswith("\t"): entry_out = "\t" + entry_out.lstrip()`. -/
def ensureTab (e : Line) : Line :=
  if e.head? = some '\t' then e else '\t' :: lstrip e

/-- The lines a section contributes to the rewritten log (lines 169–174). -/
def renderSec (entries : List (Line × List Line)) (s : Line) : List Line :=
  s :: ((assocFind entries s).getD []).map (fun e => rstrip (ensureTab e))

/-- The rewrite loop (lines 167–176): one blank line after every section
except the last. -/
def renderLoop (entries : List (Line × List Line)) : List Line → List Line
  | [] => []
  | [s] => renderSec entries s
  | s :: rest => renderSec entries s ++ ([] : Line) :: renderLoop entries rest

/-- `[line for idx, line in enumerate(lines) if idx not in indexes]`. -/
def keepNotIdx (idxs : List Nat) : Nat → List Line → List Line
  | _, [] => []
  | i, l :: rest =>
    if idxs.contains i then keepNotIdx idxs (i + 1) rest
    else l :: keepNotIdx idxs (i + 1) rest

/-- `remove_tasks_from_sources`, per file (lines 125–135): drop the removed
indexes, join, `rstrip`, and write `content + "\n"` (or the empty string when
nothing is left). -/
def removeWrite (lines : List Line) (idxs : List Nat) : Line :=
  let content := rstrip (joinNL (keepNotIdx idxs 0 lines))
  if content ≠ [] then content ++ ['\n'] else []

/-- The files holding at least one extracted task, in first-occurrence order
(the iteration order of `indexes_by_file`). -/
def filesOf : List SyncTask → List Nat
  | [] => []
  | t :: ts => t.fileId :: (filesOf ts).filter (fun f => f ≠ t.fileId)

def idxsFor (tasks : List SyncTask) (fid : Nat) : List Nat :=
  (tasks.filter (fun t => t.fileId = fid)).map (fun t => t.lineIdx)

def sourceLookup (sources : List (Nat × Line × List Line)) (fid : Nat) : List Line :=
  match sources with
  | [] => []
  | (f, _, ls) :: rest => if f = fid then ls else sourceLookup rest fid

def removeTasksFromSources (sources : List (Nat × Line × List Line))
    (tasks : List SyncTask) : List (Nat × Line) :=
  (filesOf tasks).map
    (fun fid => (fid, removeWrite (sourceLookup sources fid) (idxsFor tasks fid)))

/-- All `[x]` tasks extracted from the source files, in file order. -/
def syncTasksOf (sources : List (Nat × Line × List Line)) : List SyncTask :=
  (sources.map (fun s => extractTasksFromLines s.2.2 s.2.1 s.1)).flatten

/-- Result of one run of `sync_completed` (lines 140–180): number of tasks
found, the additions, the rewritten log lines (`none` when the log file is
not written), and the per-file rewritten source content. -/
structure SyncResult where
  totalFound : Nat
  added : List (Line × Line × Nat)
  logWrite : Option (List Line)
  fileWrites : List (Nat × Line)
  deriving Repr, DecidableEq

def syncCompletedPure (sources : List (Nat × Line × List Line)) (logLines : List Line)
    (today : Line) : SyncResult :=
  let tasks := syncTasksOf sources
  if tasks = [] then ⟨0, [], none, []⟩
  else
    let pr := syncLoop today tasks (loadCompleted logLines)
    { totalFound := tasks.length, added := pr.2,
      logWrite := if pr.2 ≠ [] then some (renderLoop pr.1.entries pr.1.order) else none,
      fileWrites := removeTasksFromSources sources tasks }

/-! ### C8: the completion-log writer -/

def entriesAt (st : LogState) (s : Line) : List Line := (assocFind st.entries s).getD []

def sigsAt (st : LogState) (s : Line) : List Line := (assocFind st.sigs s).getD []

/-- `section_entries` and `section_tasks` always hold the same keys. -/
def keysPar (st : LogState) : Prop :=
  ∀ s, (assocFind st.entries s).isSome = (assocFind st.sigs s).isSome

theorem assocFind_assocSet_self (m : List (Line × List Line)) (k : Line) (v : List Line) :
    assocFind (assocSet m k v) k = some v := by
  induction m with
  | nil => simp [assocSet, assocFind]
  | cons p rest ih =>
    by_cases h : p.1 = k
    · simp [assocSet, assocFind, h]
    · rw [show assocSet (p :: rest) k v = (p.1, p.2) :: assocSet rest k v by
        simp [assocSet, h]]
      rw [show assocFind ((p.1, p.2) :: assocSet rest k v) k =
        if p.1 = k then some p.2 else assocFind (assocSet rest k v) k from rfl]
      rw [if_neg h, ih]

theorem assocFind_assocSet_ne (m : List (Line × List Line)) (k s : Line) (v : List Line)
    (h : s ≠ k) : assocFind (assocSet m k v) s = assocFind m s := by
  have hks : ¬ k = s := fun he => h (Eq.symm he)
  induction m with
  | nil =>
    rw [show assocSet [] k v = [(k, v)] from rfl]
    rw [show assocFind [(k, v)] s = if k = s then some v else assocFind [] s from rfl]
    rw [if_neg hks]
  | cons p rest ih =>
    by_cases hp : p.1 = k
    · rw [show assocSet (p :: rest) k v = (p.1, v) :: rest by simp [assocSet, hp]]
      rw [show assocFind ((p.1, v) :: rest) s =
        if p.1 = s then some v else assocFind rest s from rfl]
      rw [show assocFind (p :: rest) s =
        if p.1 = s then some p.2 else assocFind rest s from rfl]
      rw [if_neg (hp ▸ hks), if_neg (hp ▸ hks)]
    · rw [show assocSet (p :: rest) k v = (p.1, p.2) :: assocSet rest k v by
        simp [assocSet, hp]]
      rw [show assocFind ((p.1, p.2) :: assocSet rest k v) s =
        if p.1 = s then some p.2 else assocFind (assocSet rest k v) s from rfl]
      rw [show assocFind (p :: rest) s =
        if p.1 = s then some p.2 else assocFind rest s from rfl]
      rw [ih]

theorem assocFind_assocPush (m : List (Line × List Line)) (k : Line) (v : Line) (s : Line) :
    assocFind (assocPush m k v) s =
      if s = k then (assocFind m k).map (fun vs => vs ++ [v]) else assocFind m s := by
  induction m with
  | nil =>
    by_cases h : s = k <;> simp [assocPush, assocFind, h]
  | cons p rest ih =>
    by_cases hp : p.1 = k
    · rw [show assocPush (p :: rest) k v = (p.1, p.2 ++ [v]) :: rest by
        simp [assocPush, hp]]
      rw [show assocFind ((p.1, p.2 ++ [v]) :: rest) s =
        if p.1 = s then some (p.2 ++ [v]) else assocFind rest s from rfl]
      rw [show assocFind (p :: rest) s =
        if p.1 = s then some p.2 else assocFind rest s from rfl]
      by_cases hs : p.1 = s
      · have hsk : s = k := by rw [← hs, hp]
        rw [if_pos hs, if_pos hs, if_pos hsk]
        rw [show assocFind (p :: rest) k =
          if p.1 = k then some p.2 else assocFind rest k from rfl]
        rw [if_pos hp]
        rfl
      · have hsk : ¬ s = k := by
          intro he
          exact hs (by rw [hp, he])
        rw [if_neg hs, if_neg hs, if_neg hsk]
    · rw [show assocPush (p :: rest) k v = (p.1, p.2) :: assocPush rest k v by
        simp [assocPush, hp]]
      rw [show assocFind ((p.1, p.2) :: assocPush rest k v) s =
        if p.1 = s then some p.2 else assocFind (assocPush rest k v) s from rfl]
      rw [show assocFind (p :: rest) s =
        if p.1 = s then some p.2 else assocFind rest s from rfl]
      by_cases hs : p.1 = s
      · have hsk : ¬ s = k := by
          intro he
          exact hp (by rw [hs, he])
        rw [if_pos hs, if_pos hs, if_neg hsk]
      · rw [if_neg hs, if_neg hs, ih]
        by_cases hsk : s = k
        · rw [if_pos hsk, if_pos hsk]
          rw [show assocFind (p :: rest) k =
            if p.1 = k then some p.2 else assocFind rest k from rfl, if_neg hp]
        · rw [if_neg hsk, if_neg hsk]

theorem isSome_assocFind_assocPush (m : List (Line × List Line)) (k : Line) (v : Line)
    (s : Line) :
    (assocFind (assocPush m k v) s).isSome = (assocFind m s).isSome := by
  rw [assocFind_assocPush]
  by_cases h : s = k
  · rw [if_pos h, h]
    cases assocFind m k <;> simp
  · rw [if_neg h]

theorem keysPar_ensure (st : LogState) (u : Line) (hp : keysPar st) :
    keysPar (ensureSection st u) := by
  intro s
  unfold ensureSection
  by_cases h : (assocFind st.entries u).isSome = true
  · rw [if_pos h]
    exact hp s
  · rw [if_neg h]
    by_cases hs : s = u
    · subst hs
      simp [assocFind_assocSet_self]
    · simp only [assocFind_assocSet_ne _ _ _ _ hs]
      exact hp s

theorem keysPar_load (ls : List Line) : keysPar (loadCompleted ls) := by
  have h : ∀ (ls : List Line) (cur : Option Line) (st : LogState), keysPar st →
      keysPar (loadAux ls cur st) := by
    intro ls
    induction ls with
    | nil => intro cur st hp; exact hp
    | cons l rest ih =>
      intro cur st hp
      by_cases hb : isBlank l = true
      · simp only [loadAux, hb, if_true]
        exact ih cur st hp
      · by_cases hu : unindented l = true
        · simp only [loadAux, hb, Bool.false_eq_true, if_false, hu, if_true]
          exact ih _ _ (keysPar_ensure st (strip l) hp)
        · simp only [loadAux, hb, hu, Bool.false_eq_true, if_false]
          cases cur with
          | none => exact ih none st hp
          | some s =>
            refine ih (some s) _ ?_
            intro s2
            simp only [isSome_assocFind_assocPush]
            exact hp s2
  exact h ls none ⟨[], [], []⟩ (fun s => rfl)

theorem ensureSection_of_isSome (st : LogState) (u : Line)
    (h : (assocFind st.entries u).isSome = true) : ensureSection st u = st := by
  unfold ensureSection
  rw [if_pos h]

theorem entriesAt_ensure (st : LogState) (u s : Line) :
    entriesAt (ensureSection st u) s = entriesAt st s := by
  unfold ensureSection
  by_cases h : (assocFind st.entries u).isSome = true
  · rw [if_pos h]
  · rw [if_neg h]
    by_cases hs : s = u
    · subst hs
      have h2 : assocFind st.entries s = none := by
        cases hf : assocFind st.entries s
        · rfl
        · rw [hf] at h; simp at h
      simp [entriesAt, assocFind_assocSet_self, h2]
    · simp [entriesAt, assocFind_assocSet_ne _ _ _ _ hs]

theorem mem_sigsAt_isSome (st : LogState) (s : Line) (x : Line) (h : x ∈ sigsAt st s) :
    (assocFind st.sigs s).isSome = true := by
  cases hf : assocFind st.sigs s
  · simp [sigsAt, hf] at h
  · rfl

theorem ensure_entries_isSome_self (st : LogState) (u : Line) :
    (assocFind (ensureSection st u).entries u).isSome = true := by
  unfold ensureSection
  by_cases h : (assocFind st.entries u).isSome = true
  · rw [if_pos h]; exact h
  · rw [if_neg h]
    simp [assocFind_assocSet_self]

/-- When every task's text is already in its section's signature set (and the
section exists), the sync loop changes nothing and adds nothing. -/
theorem syncLoop_all_dup (today : Line) (ts : List SyncTask) :
    ∀ st, (∀ t ∈ ts, (assocFind st.entries t.sect).isSome = true ∧
      t.text ∈ sigsAt st t.sect) →
    syncLoop today ts st = (st, []) := by
  induction ts with
  | nil => intro st _; rfl
  | cons t ts ih =>
    intro st h
    have ht := h t (List.mem_cons_self t ts)
    have he : ensureSection st t.sect = st := ensureSection_of_isSome st t.sect ht.1
    have hc : ((assocFind st.sigs t.sect).getD []).contains t.text = true := by
      simpa [sigsAt] using ht.2
    simp only [syncLoop, he, hc, if_true]
    exact ih st (fun t2 h2 => h t2 (List.mem_cons_of_mem t h2))

/-- Per-section effect of the sync loop: each section's entry list is extended
at its end with exactly the stamped lines of the tasks added to it, in
order. -/
theorem syncLoop_entries_append (today : Line) (ts : List SyncTask) :
    ∀ st s, keysPar st →
      entriesAt ((syncLoop today ts st).1) s =
        entriesAt st s ++
          ((syncLoop today ts st).2.filter (fun a => a.1 = s)).map
            (fun a => fmtEntry today a.2.1) := by
  induction ts with
  | nil => intro st s _; simp [syncLoop]
  | cons t ts ih =>
    intro st s hp
    have hp1 : keysPar (ensureSection st t.sect) := keysPar_ensure st t.sect hp
    have he : entriesAt (ensureSection st t.sect) s = entriesAt st s :=
      entriesAt_ensure st t.sect s
    have hsec : (assocFind (ensureSection st t.sect).entries t.sect).isSome = true :=
      ensure_entries_isSome_self st t.sect
    by_cases hdup : ((assocFind (ensureSection st t.sect).sigs t.sect).getD []).contains
        t.text = true
    · simp only [syncLoop, hdup, if_true]
      rw [ih (ensureSection st t.sect) s hp1, he]
    · simp only [syncLoop, hdup, Bool.false_eq_true, if_false]
      set st1 := ensureSection st t.sect with hst1
      set st2 : LogState :=
        { st1 with entries := assocPush st1.entries t.sect (fmtEntry today t.text),
                   sigs := assocPush st1.sigs t.sect t.text } with hst2
      have hp2 : keysPar st2 := by
        intro s2
        simp only [hst2, isSome_assocFind_assocPush]
        exact hp1 s2
      have h2 : entriesAt st2 s =
          if s = t.sect then entriesAt st1 s ++ [fmtEntry today t.text]
          else entriesAt st1 s := by
        simp only [hst2, entriesAt, assocFind_assocPush]
        by_cases hs : s = t.sect
        · rw [if_pos hs, if_pos hs, hs]
          cases hf : assocFind st1.entries t.sect with
          | none => rw [hf] at hsec; simp at hsec
          | some vs => simp
        · rw [if_neg hs, if_neg hs]
      have hrec := ih st2 s hp2
      by_cases hs : s = t.sect
      · subst hs
        rw [hrec, h2, if_pos rfl, he]
        simp [List.filter_cons, List.append_assoc]
      · rw [hrec, h2, if_neg hs, he]
        have hd : (decide ((t.sect, t.text, t.fileId).1 = s)) = false := by
          simp only [decide_eq_false_iff_not]
          exact fun he2 => hs (Eq.symm he2)
        simp [List.filter_cons, hd]

theorem intercalate_cons_cons {α : Type} (sep x y : List α) (zs : List (List α)) :
    List.intercalate sep (x :: y :: zs) = x ++ sep ++ List.intercalate sep (y :: zs) := by
  simp [List.intercalate, List.intersperse]

theorem renderLoop_eq_intercalate (entries : List (Line × List Line)) :
    ∀ order, renderLoop entries order =
      List.intercalate [[]] (order.map (renderSec entries)) := by
  intro order
  induction order with
  | nil => simp [renderLoop, List.intercalate]
  | cons s rest ih =>
    cases rest with
    | nil => simp [renderLoop, List.intercalate, List.intersperse]
    | cons s2 rest2 =>
      rw [show renderLoop entries (s :: s2 :: rest2) =
        renderSec entries s ++ ([] : Line) :: renderLoop entries (s2 :: rest2) from rfl]
      rw [ih]
      rw [show (List.map (renderSec entries) (s :: s2 :: rest2)) =
        renderSec entries s :: List.map (renderSec entries) (s2 :: rest2) from rfl]
      rw [show (List.map (renderSec entries) (s2 :: rest2)) =
        renderSec entries s2 :: List.map (renderSec entries) rest2 from rfl]
      rw [intercalate_cons_cons]
      simp

/-- C8.  The completion-log writer: (i) the file is written exactly when some
task is newly recorded; (ii) when every extracted task's signature is already
in its section's signature set of the loaded log, nothing is added and the log
file is not written (so none of its lines can be removed); (iii) each
section's entry list only ever grows at its end, by exactly the stamped lines
`"\t[" ++ today ++ "] [x] " ++ text` of the tasks added to that section, in
order; (iv) when something is added, the whole file is rewritten as the
sections in order, joined by exactly one blank separator line except after the
last section. -/
theorem claim_C8_log_writer :
    (∀ sources logLines today,
      ((syncCompletedPure sources logLines today).logWrite = none ↔
        (syncCompletedPure sources logLines today).added = []))
    ∧ (∀ sources logLines today,
        (∀ t ∈ syncTasksOf sources, t.text ∈ sigsAt (loadCompleted logLines) t.sect) →
        (syncCompletedPure sources logLines today).added = []
        ∧ (syncCompletedPure sources logLines today).logWrite = none)
    ∧ (∀ today ts st s, keysPar st →
        entriesAt ((syncLoop today ts st).1) s =
          entriesAt st s ++
            ((syncLoop today ts st).2.filter (fun a => a.1 = s)).map
              (fun a => fmtEntry today a.2.1))
    ∧ (∀ sources logLines today,
        (syncCompletedPure sources logLines today).added ≠ [] →
        (syncCompletedPure sources logLines today).logWrite =
          some (List.intercalate [[]]
            ((syncLoop today (syncTasksOf sources) (loadCompleted logLines)).1.order.map
              (renderSec (syncLoop today (syncTasksOf sources)
                (loadCompleted logLines)).1.entries)))) := by
  refine ⟨?_, ?_, ?_, ?_⟩
  · intro sources logLines today
    unfold syncCompletedPure
    by_cases ht : syncTasksOf sources = []
    · simp [ht]
    · simp only [ht, if_neg (by exact ht)]
      by_cases ha : (syncLoop today (syncTasksOf sources) (loadCompleted logLines)).2 = []
      · simp [ha]
      · simp [ha]
  · intro sources logLines today h
    have hpar := keysPar_load logLines
    have hall : ∀ t ∈ syncTasksOf sources,
        (assocFind (loadCompleted logLines).entries t.sect).isSome = true ∧
        t.text ∈ sigsAt (loadCompleted logLines) t.sect := by
      intro t ht
      have h2 := h t ht
      have h3 : (assocFind (loadCompleted logLines).sigs t.sect).isSome = true :=
        mem_sigsAt_isSome _ _ _ h2
      exact ⟨by rw [hpar t.sect]; exact h3, h2⟩
    have hfix := syncLoop_all_dup today (syncTasksOf sources) (loadCompleted logLines) hall
    unfold syncCompletedPure
    by_cases ht : syncTasksOf sources = []
    · simp [ht]
    · simp [ht, hfix]
  · intro today ts st s hp
    exact syncLoop_entries_append today ts st s hp
  · intro sources logLines today h
    unfold syncCompletedPure at h ⊢
    by_cases ht : syncTasksOf sources = []
    · simp [ht] at h
    · simp only [ht, if_neg (by exact ht)] at h ⊢
      by_cases ha : (syncLoop today (syncTasksOf sources) (loadCompleted logLines)).2 = []
      · simp [ha] at h
      · simp only [ha, ne_eq, not_false_eq_true, if_true]
        rw [renderLoop_eq_intercalate]
        simp

/-- Concrete instance of C8: re-syncing a `[x] Ship release` line whose
signature is already recorded under section `Work` adds zero entries and
leaves the log file unwritten. -/
theorem claim_C8_witness :
    (syncCompletedPure [(0, lc "today", [lc "Work", lc "\t[x] Ship release"])]
      [lc "Work", lc "\t[2026-01-01] [x] Ship release"] (lc "2026-10-12")).added = []
    ∧ (syncCompletedPure [(0, lc "today", [lc "Work", lc "\t[x] Ship release"])]
      [lc "Work", lc "\t[2026-01-01] [x] Ship release"] (lc "2026-10-12")).logWrite
      = none :=
  claim_C8_log_writer.2.1 [(0, lc "today", [lc "Work", lc "\t[x] Ship release"])]
    [lc "Work", lc "\t[2026-01-01] [x] Ship release"] (lc "2026-10-12") (by decide)

/-! ### C10: write/read round trip for the rewritten source files -/

theorem rstrip_append (a b : Line) :
    rstrip (a ++ b) = if rstrip b = [] then rstrip a else a ++ rstrip b := by
  simp only [rstrip, List.reverse_append, List.dropWhile_append]
  by_cases h : b.reverse.dropWhile pyWS = []
  · simp only [h, List.isEmpty_nil, if_true, List.reverse_nil]
  · have h1 : (b.reverse.dropWhile pyWS).isEmpty = false := by
      simpa [List.isEmpty_iff] using h
    have h2 : ((b.reverse.dropWhile pyWS).reverse = ([] : Line)) = False := by
      simp [h]
    simp [h1, h2]

theorem rstrip_eq_nil_iff (l : Line) : rstrip l = [] ↔ ∀ c ∈ l, pyWS c = true := by
  simp only [rstrip, List.reverse_eq_nil_iff, List.dropWhile_eq_nil_iff, List.mem_reverse]

theorem isBlank_iff_all_ws (l : Line) : isBlank l = true ↔ ∀ c ∈ l, pyWS c = true := by
  constructor
  · intro h c hc
    simp only [isBlank, strip, decide_eq_true_eq] at h
    by_cases hw : pyWS c = true
    · exact hw
    · exfalso
      have hc2 : c ∈ lstrip l ∨ c ∈ l.takeWhile pyWS := by
        have := List.takeWhile_append_dropWhile (p := pyWS) (l := l)
        rw [← this] at hc
        rcases List.mem_append.mp hc with h1 | h1
        · exact Or.inr h1
        · exact Or.inl h1
      rcases hc2 with h1 | h1
      · have h3 : ∀ c2 ∈ lstrip l, pyWS c2 = true := (rstrip_eq_nil_iff _).mp h
        exact hw (h3 c h1)
      · exact hw (List.mem_takeWhile_imp h1)
  · intro h
    simp only [isBlank, strip, decide_eq_true_eq]
    rw [rstrip_eq_nil_iff]
    intro c hc
    exact h c ((List.dropWhile_sublist (l := l) pyWS).mem hc)

theorem rstrip_eq_nil_iff_blank (l : Line) : (rstrip l = []) ↔ isBlank l = true := by
  rw [rstrip_eq_nil_iff, isBlank_iff_all_ws]

theorem joinNL_cons (x : Line) (rest : List Line) :
    joinNL (x :: rest) = if rest = [] then x else x ++ '\n' :: joinNL rest := by
  cases rest with
  | nil => simp [joinNL, List.intercalate, List.intersperse]
  | cons y zs =>
    rw [if_neg (by simp)]
    rw [show joinNL (x :: y :: zs) = List.intercalate ['\n'] (x :: y :: zs) from rfl]
    rw [intercalate_cons_cons]
    simp [joinNL]

theorem joinNL_append_singleton (xs : List Line) (x : Line) (h : xs ≠ []) :
    joinNL (xs ++ [x]) = joinNL xs ++ '\n' :: x := by
  induction xs with
  | nil => exact absurd rfl h
  | cons y ys ih =>
    cases ys with
    | nil => simp [joinNL_cons]
    | cons z zs =>
      rw [List.cons_append, joinNL_cons y (z :: zs ++ [x]), if_neg (by simp)]
      rw [ih (by simp)]
      rw [joinNL_cons y (z :: zs), if_neg (by simp)]
      simp [List.append_assoc]

/-- Effect of `"\n".join(lines).rstrip()` at the line level: trailing blank
lines disappear and the last surviving line is `rstrip`-ped. -/
def trimTrailing (ls : List Line) : List Line :=
  match ls.reverse.dropWhile isBlank with
  | [] => []
  | l :: rest => (rstrip l :: rest).reverse

theorem trimTrailing_singleton (x : Line) :
    trimTrailing [x] = if isBlank x = true then [] else [rstrip x] := by
  unfold trimTrailing
  by_cases hb : isBlank x = true <;> simp [List.dropWhile, hb]

theorem trimTrailing_append_blank (xs : List Line) (x : Line) (h : isBlank x = true) :
    trimTrailing (xs ++ [x]) = trimTrailing xs := by
  unfold trimTrailing
  rw [List.reverse_append]
  simp [List.dropWhile_cons, h]

theorem trimTrailing_append_nonblank (xs : List Line) (x : Line) (h : isBlank x = false) :
    trimTrailing (xs ++ [x]) = xs ++ [rstrip x] := by
  unfold trimTrailing
  rw [List.reverse_append]
  simp [List.dropWhile_cons, h]

theorem rstrip_joinNL (ls : List Line) : rstrip (joinNL ls) = joinNL (trimTrailing ls) := by
  induction ls using List.reverseRecOn with
  | nil => rfl
  | append_singleton xs x ih =>
    by_cases hxs : xs = []
    · subst hxs
      simp only [List.nil_append]
      rw [joinNL_cons, if_pos rfl, trimTrailing_singleton]
      by_cases hb : isBlank x = true
      · rw [if_pos hb]
        exact (rstrip_eq_nil_iff_blank x).mpr hb
      · rw [if_neg hb]
        rw [joinNL_cons, if_pos rfl]
    · rw [joinNL_append_singleton xs x hxs]
      rw [show joinNL xs ++ '\n' :: x = joinNL xs ++ ('\n' :: x) from rfl]
      rw [rstrip_append]
      by_cases hb : isBlank x = true
      · have hx : rstrip ('\n' :: x) = [] := by
          rw [rstrip_eq_nil_iff]
          intro c hc
          rcases List.mem_cons.mp hc with h1 | h1
          · rw [h1]; rfl
          · exact ((isBlank_iff_all_ws x).mp hb) c h1
        rw [if_pos hx, ih, trimTrailing_append_blank xs x hb]
      · simp only [Bool.not_eq_true] at hb
        have hx : rstrip ('\n' :: x) = '\n' :: rstrip x := by
          rw [rstrip_cons]
          rw [if_neg (fun he => by
            rw [(rstrip_eq_nil_iff_blank x).symm.mpr] at hb
            · exact absurd hb (by simp)
            · exact he)]
        have hx2 : ¬ rstrip ('\n' :: x) = [] := by
          rw [hx]; simp
        rw [if_neg hx2, hx, trimTrailing_append_nonblank xs x hb]
        rw [joinNL_append_singleton xs (rstrip x) hxs]

/-- A line free of line-break characters (always true of lines obtained from
`splitlines`). -/
def lineClean (l : Line) : Bool := l.all (fun c => !(c = '\n' || c = '\x0d'))

theorem normNewlines_id (content : Line) (h : ∀ c ∈ content, ¬ c = '\x0d') :
    normNewlines content = content := by
  induction content with
  | nil => rfl
  | cons c cs ih =>
    have hc : ¬ c = '\x0d' := h c (List.mem_cons_self c cs)
    cases cs with
    | nil => rfl
    | cons d ds =>
      rw [show normNewlines (c :: d :: ds) =
        (if c = '\x0d' then
          (if d = '\n' then '\n' :: normNewlines ds
           else '\x0d' :: normNewlines (d :: ds))
         else c :: normNewlines (d :: ds)) from rfl]
      rw [if_neg hc, ih (fun c2 h2 => h c2 (List.mem_cons_of_mem c h2))]

theorem splitNLAux_clean_front (m : Line) :
    ∀ (cur rest : Line), lineClean m = true →
      splitNLAux cur (m ++ rest) = splitNLAux (m.reverse ++ cur) rest := by
  induction m with
  | nil => intro cur rest _; rfl
  | cons c cs ih =>
    intro cur rest hm
    simp only [lineClean, List.all_cons, Bool.and_eq_true] at hm
    have hc : (c = '\n' || c = '\x0d') = false := by
      simpa using hm.1
    rw [List.cons_append]
    rw [show splitNLAux cur (c :: (cs ++ rest)) =
      (if c = '\n' || c = '\x0d' then cur.reverse :: splitNLAux [] (cs ++ rest)
       else splitNLAux (c :: cur) (cs ++ rest)) from rfl]
    rw [hc]
    simp only [Bool.false_eq_true, if_false]
    rw [ih (c :: cur) rest hm.2]
    simp

theorem splitNLAux_newline (cur cs : Line) :
    splitNLAux cur ('\n' :: cs) = cur.reverse :: splitNLAux [] cs := by
  simp [splitNLAux]

theorem splitNLAux_joinNL (ms : List Line) :
    ms ≠ [] → (∀ l ∈ ms, lineClean l = true) →
    splitNLAux [] (joinNL ms ++ ['\n']) = ms := by
  induction ms with
  | nil => intro h _; exact absurd rfl h
  | cons m rest ih =>
    intro _ hclean
    have hm : lineClean m = true := hclean m (List.mem_cons_self m rest)
    cases rest with
    | nil =>
      rw [joinNL_cons, if_pos rfl]
      rw [splitNLAux_clean_front m [] ['\n'] hm]
      rw [splitNLAux_newline]
      simp [splitNLAux]
    | cons m2 rest2 =>
      rw [joinNL_cons, if_neg (by simp)]
      rw [show (m ++ '\n' :: joinNL (m2 :: rest2)) ++ ['\n'] =
        m ++ ('\n' :: (joinNL (m2 :: rest2) ++ ['\n'])) by simp]
      rw [splitNLAux_clean_front m [] ('\n' :: (joinNL (m2 :: rest2) ++ ['\n'])) hm]
      rw [splitNLAux_newline]
      rw [ih (by simp) (fun l hl => hclean l (List.mem_cons_of_mem m hl))]
      simp

theorem mem_joinNL (ms : List Line) (c : Char) (h : c ∈ joinNL ms) :
    c = '\n' ∨ ∃ l ∈ ms, c ∈ l := by
  induction ms with
  | nil => simp [joinNL, List.intercalate] at h
  | cons m rest ih =>
    rw [joinNL_cons] at h
    by_cases hr : rest = []
    · rw [if_pos hr] at h
      exact Or.inr ⟨m, List.mem_cons_self m rest, h⟩
    · rw [if_neg hr] at h
      rcases List.mem_append.mp h with h1 | h1
      · exact Or.inr ⟨m, List.mem_cons_self m rest, h1⟩
      · rcases List.mem_cons.mp h1 with h2 | h2
        · exact Or.inl h2
        · rcases ih h2 with h3 | ⟨l, hl, hcl⟩
          · exact Or.inl h3
          · exact Or.inr ⟨l, List.mem_cons_of_mem m hl, hcl⟩

theorem splitNL_joinNL (ms : List Line) (h : ms ≠ [])
    (hclean : ∀ l ∈ ms, lineClean l = true) :
    splitNL (joinNL ms ++ ['\n']) = ms := by
  unfold splitNL
  rw [normNewlines_id]
  · exact splitNLAux_joinNL ms h hclean
  · intro c hc
    rcases List.mem_append.mp hc with h1 | h1
    · rcases mem_joinNL ms c h1 with h2 | ⟨l, hl, hcl⟩
      · rw [h2]; decide
      · have := hclean l hl
        simp only [lineClean, List.all_eq_true] at this
        have h3 := this c hcl
        simp only [Bool.not_eq_true', Bool.or_eq_false_iff] at h3
        simpa using h3.2
    · rcases List.mem_singleton.mp h1 with h2
      rw [h2]
      decide

theorem mem_rstrip (l : Line) (c : Char) (h : c ∈ rstrip l) : c ∈ l := by
  simp only [rstrip, List.mem_reverse] at h
  have := (List.dropWhile_sublist (l := l.reverse) pyWS).mem h
  simpa using this

theorem lineClean_rstrip (l : Line) (h : lineClean l = true) : lineClean (rstrip l) = true := by
  simp only [lineClean, List.all_eq_true] at h ⊢
  intro c hc
  exact h c (mem_rstrip l c hc)

theorem dropWhile_head_false (p : Line → Bool) (l : List Line) (x : Line) (rest : List Line)
    (h : l.dropWhile p = x :: rest) : p x = false := by
  induction l with
  | nil => simp [List.dropWhile] at h
  | cons a t ih =>
    rw [List.dropWhile_cons] at h
    by_cases ha : p a = true
    · rw [if_pos ha] at h
      exact ih h
    · rw [if_neg ha] at h
      cases h
      simpa using ha

theorem trimTrailing_mem (ls : List Line) (l : Line) (h : l ∈ trimTrailing ls) :
    l ∈ ls ∨ ∃ l2 ∈ ls, l = rstrip l2 := by
  unfold trimTrailing at h
  cases hD : ls.reverse.dropWhile isBlank with
  | nil => rw [hD] at h; simp at h
  | cons x rest =>
    rw [hD] at h
    simp only [List.mem_reverse, List.mem_cons] at h
    have hmem : ∀ y ∈ x :: rest, y ∈ ls := by
      intro y hy
      have h2 := (List.dropWhile_sublist (l := ls.reverse) isBlank).mem (hD ▸ hy)
      simpa using h2
    rcases h with h1 | h1
    · right
      exact ⟨x, hmem x (List.mem_cons_self x rest), h1⟩
    · left
      exact hmem l (List.mem_cons_of_mem x h1)

theorem trimTrailing_clean (ls : List Line) (h : ∀ l ∈ ls, lineClean l = true) :
    ∀ l ∈ trimTrailing ls, lineClean l = true := by
  intro l hl
  rcases trimTrailing_mem ls l hl with h1 | ⟨l2, hl2, he⟩
  · exact h l h1
  · rw [he]
    exact lineClean_rstrip l2 (h l2 hl2)

theorem trimTrailing_ne_single_nil (ls : List Line) : trimTrailing ls ≠ [[]] := by
  unfold trimTrailing
  cases hD : ls.reverse.dropWhile isBlank with
  | nil => simp
  | cons x rest =>
    intro h
    have h2 : rstrip x :: rest = [[]] := by
      have := congrArg List.reverse h
      simpa using this
    have hx : rstrip x = [] := (List.cons_eq_cons.mp h2).1
    have hb : isBlank x = false := dropWhile_head_false isBlank ls.reverse x rest hD
    rw [rstrip_eq_nil_iff_blank] at hx
    rw [hx] at hb
    exact absurd hb (by simp)

theorem joinNL_eq_nil (ms : List Line) (h : joinNL ms = []) : ms = [] ∨ ms = [[]] := by
  cases ms with
  | nil => exact Or.inl rfl
  | cons m rest =>
    rw [joinNL_cons] at h
    cases rest with
    | nil =>
      rw [if_pos rfl] at h
      exact Or.inr (by rw [h])
    | cons m2 rest2 =>
      rw [if_neg (by simp)] at h
      exact absurd h (by simp)

/-- Reading back `"\n".join(lines).rstrip() + "\n"` yields the lines with
trailing blank lines dropped and the last surviving line `rstrip`-ped (or the
single empty line when everything was blank). -/
theorem splitNL_writeContent (ls : List Line) (hclean : ∀ l ∈ ls, lineClean l = true) :
    splitNL (writeContent ls) = if trimTrailing ls = [] then [[]] else trimTrailing ls := by
  unfold writeContent
  rw [rstrip_joinNL]
  by_cases h : trimTrailing ls = []
  · rw [if_pos h, h]
    decide
  · rw [if_neg h]
    exact splitNL_joinNL (trimTrailing ls) h (trimTrailing_clean ls hclean)

theorem keepNotIdx_sublist (idxs : List Nat) : ∀ (n : Nat) (ls : List Line),
    (keepNotIdx idxs n ls).Sublist ls := by
  intro n ls
  induction ls generalizing n with
  | nil => simp [keepNotIdx]
  | cons l rest ih =>
    rw [keepNotIdx]
    by_cases h : idxs.contains n = true
    · rw [if_pos h]
      exact (ih (n + 1)).cons l
    · rw [if_neg h]
      exact (ih (n + 1)).cons₂ l

theorem keepNotIdx_eq_enum (idxs : List Nat) : ∀ (n : Nat) (ls : List Line),
    keepNotIdx idxs n ls =
      ((ls.enumFrom n).filter (fun p => !(idxs.contains p.1))).map Prod.snd := by
  intro n ls
  induction ls generalizing n with
  | nil => simp [keepNotIdx]
  | cons l rest ih =>
    rw [keepNotIdx, List.enumFrom]
    by_cases h : idxs.contains n = true
    · rw [if_pos h]
      simp only [List.filter_cons, h, Bool.not_true, Bool.false_eq_true, if_false]
      exact ih (n + 1)
    · rw [if_neg h]
      have h2 : (idxs.contains n) = false := by simpa using h
      simp only [List.filter_cons, h2, Bool.not_false, if_true, List.map_cons]
      rw [ih (n + 1)]

/-- Reading back the content written for a rewritten source file. -/
theorem splitNL_removeWrite (lines : List Line) (idxs : List Nat)
    (hclean : ∀ l ∈ lines, lineClean l = true) :
    splitNL (removeWrite lines idxs) = trimTrailing (keepNotIdx idxs 0 lines) := by
  unfold removeWrite
  have hkc : ∀ l ∈ keepNotIdx idxs 0 lines, lineClean l = true :=
    fun l hl => hclean l ((keepNotIdx_sublist idxs 0 lines).mem hl)
  rw [rstrip_joinNL]
  by_cases h : trimTrailing (keepNotIdx idxs 0 lines) = []
  · rw [h]
    simp [splitNL, splitNLAux, normNewlines]
  · have hne : joinNL (trimTrailing (keepNotIdx idxs 0 lines)) ≠ [] := by
      intro h2
      rcases joinNL_eq_nil _ h2 with h3 | h3
      · exact h h3
      · exact trimTrailing_ne_single_nil _ h3
    rw [if_pos hne]
    exact splitNL_joinNL _ h (trimTrailing_clean _ hkc)

theorem mem_filesOf (tasks : List SyncTask) (fid : Nat) :
    fid ∈ filesOf tasks ↔ ∃ t ∈ tasks, t.fileId = fid := by
  induction tasks with
  | nil => simp [filesOf]
  | cons t ts ih =>
    simp only [filesOf, List.mem_cons, List.mem_filter, ih]
    constructor
    · rintro (h | ⟨⟨t2, ht2, he⟩, -⟩)
      · exact ⟨t, Or.inl rfl, h.symm⟩
      · exact ⟨t2, Or.inr ht2, he⟩
    · rintro ⟨t2, ht2, he⟩
      rcases ht2 with h1 | h1
      · subst h1
        exact Or.inl he.symm
      · by_cases hf : fid = t.fileId
        · exact Or.inl hf
        · exact Or.inr ⟨⟨t2, h1, he⟩, by simpa using hf⟩

theorem not_written_of_not_mem (sources : List (Nat × Line × List Line))
    (tasks : List SyncTask) (fid : Nat) (h : ¬ fid ∈ filesOf tasks) :
    ∀ w, ¬ ((fid, w) ∈ removeTasksFromSources sources tasks) := by
  intro w hw
  unfold removeTasksFromSources at hw
  obtain ⟨f2, hf2, he⟩ := List.mem_map.mp hw
  have : fid = f2 := congrArg Prod.fst he.symm
  exact h (this ▸ hf2)

/-- C10 (amended).  Removal of checked lines is unconditional on novelty: the
rewritten source files do not depend on the completion log's contents at all;
when every extracted `[x]` task is already recorded, the log is left unwritten
while `fileWrites` is still the full removal result; a source file is written
iff it holds at least one extracted `[x]` task; and the written content is the
file's lines with exactly the extracted task lines deleted and the remaining
lines kept in order — except that the final `rstrip` drops trailing blank
lines and trailing whitespace of the last kept line. -/
theorem claim_C10_removal :
    (∀ sources log1 log2 today,
      (syncCompletedPure sources log1 today).fileWrites =
        (syncCompletedPure sources log2 today).fileWrites)
    ∧ (∀ sources logLines today,
        (∀ t ∈ syncTasksOf sources, t.text ∈ sigsAt (loadCompleted logLines) t.sect) →
        (syncCompletedPure sources logLines today).logWrite = none
        ∧ (syncCompletedPure sources logLines today).fileWrites =
          removeTasksFromSources sources (syncTasksOf sources))
    ∧ (∀ (tasks : List SyncTask) (fid : Nat),
        fid ∈ filesOf tasks ↔ ∃ t ∈ tasks, t.fileId = fid)
    ∧ (∀ sources tasks fid, ¬ fid ∈ filesOf tasks →
        ∀ w, ¬ ((fid, w) ∈ removeTasksFromSources sources tasks))
    ∧ (∀ lines idxs, (∀ l ∈ lines, lineClean l = true) →
        splitNL (removeWrite lines idxs) = trimTrailing (keepNotIdx idxs 0 lines)
        ∧ (keepNotIdx idxs 0 lines).Sublist lines
        ∧ keepNotIdx idxs 0 lines =
          ((lines.enumFrom 0).filter (fun p => !(idxs.contains p.1))).map Prod.snd) := by
  refine ⟨?_, ?_, mem_filesOf, not_written_of_not_mem, ?_⟩
  · intro sources log1 log2 today
    unfold syncCompletedPure
    by_cases h : syncTasksOf sources = [] <;> simp [h]
  · intro sources logLines today h
    have hpar := keysPar_load logLines
    have hall : ∀ t ∈ syncTasksOf sources,
        (assocFind (loadCompleted logLines).entries t.sect).isSome = true ∧
        t.text ∈ sigsAt (loadCompleted logLines) t.sect := by
      intro t ht
      have h2 := h t ht
      have h3 : (assocFind (loadCompleted logLines).sigs t.sect).isSome = true :=
        mem_sigsAt_isSome _ _ _ h2
      exact ⟨by rw [hpar t.sect]; exact h3, h2⟩
    have hfix := syncLoop_all_dup today (syncTasksOf sources) (loadCompleted logLines) hall
    unfold syncCompletedPure
    by_cases ht : syncTasksOf sources = []
    · rw [ht]
      simp [removeTasksFromSources, filesOf]
    · simp [ht, hfix]
  · intro lines idxs hclean
    exact ⟨splitNL_removeWrite lines idxs hclean, keepNotIdx_sublist idxs 0 lines,
      keepNotIdx_eq_enum idxs 0 lines⟩

/-- C10 is false as stated: a trailing blank line of the source file is *not*
preserved by the rewrite — the claim's "all its other lines are preserved"
fails (the log is indeed left unwritten and the task line deleted). -/
theorem claim_C10_cex :
    (syncCompletedPure [(0, lc "f", [lc "A", lc "[x] done", lc ""])]
      [lc "A", lc "\t[2026-01-01] [x] done"] (lc "2026-10-12")).logWrite = none
    ∧ (syncCompletedPure [(0, lc "f", [lc "A", lc "[x] done", lc ""])]
      [lc "A", lc "\t[2026-01-01] [x] done"] (lc "2026-10-12")).fileWrites =
        [(0, lc "A\n")]
    ∧ keepNotIdx [1] 0 [lc "A", lc "[x] done", lc ""] = [lc "A", lc ""]
    ∧ splitNL (lc "A\n") ≠ [lc "A", lc ""] := by
  decide

/-- Concrete instance of C10 (amended): the rewritten file holds the kept
lines with the trailing blank stripped. -/
theorem claim_C10_witness :
    splitNL (removeWrite [lc "A", lc "[x] done", lc ""] [1]) =
      trimTrailing (keepNotIdx [1] 0 [lc "A", lc "[x] done", lc ""])
    ∧ (keepNotIdx [1] 0 [lc "A", lc "[x] done", lc ""]).Sublist
        [lc "A", lc "[x] done", lc ""]
    ∧ keepNotIdx [1] 0 [lc "A", lc "[x] done", lc ""] =
      (([lc "A", lc "[x] done", lc ""].enumFrom 0).filter
        (fun p => !(([1] : List Nat).contains p.1))).map Prod.snd :=
  claim_C10_removal.2.2.2.2 [lc "A", lc "[x] done", lc ""] [1] (by decide)

/-! ### C9: exit codes and fail-fast

The error routing of the three entry points is modelled over a small JSON-like
value type.  Filesystem interaction is reduced to oracles (`file exists`,
`manual source resolves`), and the import model covers `main` of
import_external_tasks.py up to the point where the per-spec import loop would
start (`--target` selection is not modelled); everything before that point —
config loading, config-target construction with status normalization, manual
source resolution and CLI status normalization — follows the source order, so
every halting outcome happens before any file is written. -/

inductive PyVal where
  | pstr (s : String)
  | pbool (b : Bool)
  | pnum (n : Int)
  | plist (xs : List PyVal)
  | pdict (kvs : List (String × PyVal))
  | pnone

inductive PyResult where
  | exit (code : Nat)
  | uncaught (kind : String)
  deriving Repr, DecidableEq

def dictGet (kvs : List (String × PyVal)) (k : String) : Option PyVal :=
  match kvs with
  | [] => none
  | (k', v) :: rest => if k' = k then some v else dictGet rest k

def isPList : PyVal → Bool
  | .plist _ => true
  | _ => false

/-- `default_status_outputs()` of task_status_view.py. -/
def defaultStatusOutputs : PyVal :=
  .plist
    [.pdict [("path", .pstr "03_in_progress_status.txt"),
             ("title", .pstr "In Progress (incl. Blocked)"),
             ("statuses", .plist [.pstr "in-progress", .pstr "blocked"])],
     .pdict [("path", .pstr "03_blocked.txt"),
             ("title", .pstr "Blocked"),
             ("statuses", .plist [.pstr "blocked"])]]

structure RawConfig where
  extraFiles : PyVal
  globPatterns : PyVal
  statusOutputs : PyVal
  importTargets : PyVal

/-- Python truthiness-based `x or default` for the list values involved. -/
def orDefault (v d : PyVal) : PyVal :=
  match v with
  | .plist [] => d
  | _ => v

/-- `load_config` (task_status_view.py lines 111–138): a missing file yields
the defaults; a non-dict top level raises `AttributeError` at `.get`;
non-list field shapes raise `ValueError`. -/
def loadConfigModel : Option PyVal → Except String RawConfig
  | none => .ok ⟨.plist [], .plist [], defaultStatusOutputs, .plist []⟩
  | some data =>
    match data with
    | .pdict kvs =>
      let ef := (dictGet kvs "extra_files").getD (.plist [])
      let gp := (dictGet kvs "glob_patterns").getD (.plist [])
      let so := (dictGet kvs "status_outputs").getD defaultStatusOutputs
      let it := (dictGet kvs "import_targets").getD (.plist [])
      if ¬ (isPList ef = true ∧ isPList gp = true) then .error "ValueError"
      else if ¬ isPList so = true then .error "ValueError"
      else if ¬ isPList it = true then .error "ValueError"
      else .ok ⟨ef, gp, orDefault so defaultStatusOutputs, orDefault it (.plist [])⟩
    | _ => .error "AttributeError"

/-- `STATUS_ALIASES` of task_status_view.py. -/
def statusAliases : List (Line × String) :=
  [(lc "b", "blocked"), (lc "blocked", "blocked"), (lc "block", "blocked"),
   (lc "i", "in-progress"), (lc "ip", "in-progress"), (lc "in-progress", "in-progress"),
   (lc "inprogress", "in-progress"), (lc "progress", "in-progress"),
   (lc "w", "waiting"), (lc "wait", "waiting"), (lc "waiting", "waiting"),
   (lc "hold", "waiting"),
   (lc "d", "delegated"), (lc "delegate", "delegated"), (lc "delegated", "delegated"),
   (lc "x", "done"), (lc "done", "done"), (lc "complete", "done"),
   (lc "completed", "done"),
   (lc "t", "transfer"), (lc "transfer", "transfer")]

def aliasLookup (k : Line) : Option String :=
  (statusAliases.find? (fun p => p.1 = k)).map (fun p => p.2)

/-- `resolve_status_token` on a string token:
`token.strip().lower()` looked up in the alias table. -/
def resolveTok (tok : Line) : Option String :=
  let key := (strip tok).map pyLower
  if key = [] then none else aliasLookup key

/-- `resolve_status_token` on an arbitrary config value (the
`isinstance(token, str)` guard). -/
def resolveTokVal : PyVal → Option String
  | .pstr s => resolveTok s.toList
  | _ => none

def statusOrderList : List String :=
  ["blocked", "in-progress", "waiting", "delegated", "done"]

/-- `raw.split(",")` (keeps empty pieces; the empty string gives `[""]`). -/
def splitComma : Line → List Line
  | [] => [[]]
  | c :: cs =>
    if c = ',' then [] :: splitComma cs
    else
      match splitComma cs with
      | h :: t => (c :: h) :: t
      | [] => [[c]]

/-- The token loop of `normalize_status_filters` (lines 352–362):
`sys.exit(2)` on the first unresolvable token, order-preserving dedup. -/
def nsfGo : List Line → List String → Except Nat (List String)
  | [], acc => .ok acc
  | tok :: rest, acc =>
    match resolveTok tok with
    | none => .error 2
    | some st => nsfGo rest (if acc.contains st then acc else acc ++ [st])

/-- `normalize_status_filters` (lines 348–364). -/
def normalizeStatusFiltersE (raw : Option (List Line)) : Except Nat (List String) :=
  match raw with
  | none => .ok statusOrderList
  | some raws =>
    if raws = [] then .ok statusOrderList
    else nsfGo ((raws.map splitComma).flatten) []

/-- Status check of `parse_output_entry` (lines 229–235). -/
def checkTokens : List PyVal → Except String Unit
  | [] => .ok ()
  | t :: rest =>
    match resolveTokVal t with
    | none => .error "ValueError"
    | some _ => checkTokens rest

/-- `parse_output_entry` (lines 216–247), reduced to its validation outcome. -/
def parseOutputEntryModel (e : PyVal) : Except String Unit :=
  match e with
  | .pdict kvs =>
    match dictGet kvs "path" with
    | some (.pstr p) =>
      if strip p.toList = [] then .error "ValueError"
      else
        match dictGet kvs "statuses" with
        | some (.plist []) => .error "ValueError"
        | some (.plist toks) => checkTokens toks
        | _ => .error "ValueError"
    | _ => .error "ValueError"
  | _ => .error "ValueError"

def buildOutputTargetsGo : List PyVal → Except String Unit
  | [] => .ok ()
  | e :: rest =>
    match parseOutputEntryModel e with
    | .error k => .error k
    | .ok _ => buildOutputTargetsGo rest

/-- `build_output_targets` over the (list-shaped) `status_outputs` value. -/
def buildOutputTargetsModel : PyVal → Except String Unit
  | .plist es => buildOutputTargetsGo es
  | _ => .ok ()

/-- `main` of task_status_view.py, reduced to its exit code and whether the
status files were written (`--list-sources` not taken): config errors are
caught in `gather_sources` and exit 2; an unresolvable filter token exits 2;
an invalid status-output entry returns 2; all before any write. -/
def tsvMainModel (cfgFile : Option PyVal) (statusArgs : Option (List Line))
    (writeFiles : Bool) : PyResult × Bool :=
  match loadConfigModel cfgFile with
  | .error _ => (.exit 2, false)
  | .ok cfg =>
    match normalizeStatusFiltersE statusArgs with
    | .error c => (.exit c, false)
    | .ok _ =>
      match buildOutputTargetsModel cfg.statusOutputs with
      | .error _ => (.exit 2, false)
      | .ok _ => (.exit 0, writeFiles)

/-- `main` of filter_priority.py: `parse_file` exits 1 when the input file is
missing (lines 25–27), otherwise the run returns 0. -/
def fpMainModel (todayFile : Option (List Line)) : PyResult :=
  match todayFile with
  | none => .exit 1
  | some _ => .exit 0

/-- `str(item)` for the `[str(item) for item in raw]` coercion in
`normalize_status_input`: non-string values render to text (such as `True` or
`['a']`) that never equals an alias key, modelled by a non-resolvable
surrogate token. -/
def pyStrLine : PyVal → Line
  | .pstr s => s.toList
  | _ => lc "?"

/-- `normalize_status_input` as called from `build_config_targets`
(import_external_tasks.py lines 38–45 and 113–116): the inner `sys.exit(2)`
is caught and re-raised as `ValueError`; a non-iterable `statuses` value
raises `TypeError` at the list comprehension. -/
def normalizeStatusInputE (v : Option PyVal) : Except String (List String) :=
  let tokens : Except String (List Line) :=
    match v with
    | none => .ok [lc "in-progress", lc "blocked"]
    | some (.pstr s) => .ok [s.toList]
    | some (.plist xs) => .ok (xs.map pyStrLine)
    | some _ => .error "TypeError"
  match tokens with
  | .error e => .error e
  | .ok toks =>
    match nsfGo ((toks.map splitComma).flatten) [] with
    | .error _ => .error "ValueError"
    | .ok sts => .ok sts

def bctGo : List PyVal → Nat → Except String Nat
  | [], n => .ok n
  | e :: rest, n =>
    match e with
    | .pdict kvs =>
      match dictGet kvs "source" with
      | some (.pstr s) =>
        if strip s.toList = [] then bctGo rest n
        else
          match normalizeStatusInputE (dictGet kvs "statuses") with
          | .error k => .error k
          | .ok _ => bctGo rest (n + 1)
      | _ => bctGo rest n
    | _ => bctGo rest n

/-- `build_config_targets` (lines 88–126), reduced to the number of valid
targets; a bad status list raises `ValueError` out of `main`. -/
def buildConfigTargetsModel : PyVal → Except String Nat
  | .plist es => bctGo es 0
  | _ => .ok 0

inductive PreResult where
  | halted (r : PyResult)
  | ready (specCount : Nat)
  deriving Repr, DecidableEq

/-- `main` of import_external_tasks.py (lines 396–441) up to the import loop:
config load (uncaught exception on error), config-target construction
(uncaught `ValueError` on a bad status list), manual-source resolution
(return 1 when not found), CLI status normalization (`sys.exit(2)`), and the
no-specs check (return 1).  Every `halted` outcome occurs before any file is
written. -/
def importMainPre (cfgFile : Option PyVal) (allConfigured : Bool) (srcArg : Bool)
    (srcResolves : Bool) (statusArgs : Option (List Line)) : PreResult :=
  match loadConfigModel cfgFile with
  | .error k => .halted (.uncaught k)
  | .ok cfg =>
    match buildConfigTargetsModel cfg.importTargets with
    | .error k => .halted (.uncaught k)
    | .ok tcount =>
      let n0 := if allConfigured then tcount else 0
      if srcArg then
        if ¬ srcResolves then .halted (.exit 1)
        else
          match normalizeStatusFiltersE
            (some (statusArgs.getD [lc "in-progress", lc "blocked"])) with
          | .error c => .halted (.exit c)
          | .ok _ => .ready (n0 + 1)
      else
        if n0 = 0 then .halted (.exit 1) else .ready n0

theorem splitComma_ne_nil (l : Line) : splitComma l ≠ [] := by
  induction l with
  | nil => simp [splitComma]
  | cons c cs ih =>
    by_cases hc : c = ','
    · simp [splitComma, hc]
    · simp only [splitComma, if_neg hc]
      cases h : splitComma cs <;> simp

theorem nsfGo_ok_ne (toks : List Line) : ∀ acc sts, acc ≠ [] →
    nsfGo toks acc = .ok sts → sts ≠ [] := by
  induction toks with
  | nil =>
    intro acc sts hacc h
    rw [nsfGo] at h
    cases h
    exact hacc
  | cons t ts ih =>
    intro acc sts hacc h
    simp only [nsfGo] at h
    cases hr : resolveTok t with
    | none => simp [hr] at h
    | some st =>
      simp only [hr] at h
      by_cases hin : acc.contains st = true
      · rw [if_pos hin] at h
        exact ih acc sts hacc h
      · rw [if_neg hin] at h
        exact ih (acc ++ [st]) sts (by simp) h

theorem nsfGo_error_two (toks : List Line) : ∀ acc c,
    nsfGo toks acc = .error c → c = 2 := by
  induction toks with
  | nil =>
    intro acc c h
    rw [nsfGo] at h
    cases h
  | cons t ts ih =>
    intro acc c h
    simp only [nsfGo] at h
    cases hr : resolveTok t with
    | none =>
      simp only [hr] at h
      cases h
      rfl
    | some st =>
      simp only [hr] at h
      exact ih _ c h

/-- C9 is false as stated: for import_external_tasks.py an invalid config
shape (`extra_files` not a list) does not exit with code 2 — `load_config`'s
`ValueError` propagates out of `main` uncaught. -/
theorem claim_C9_cex :
    importMainPre (some (PyVal.pdict [("extra_files", PyVal.pstr "x")]))
      false true true none = PreResult.halted (PyResult.uncaught "ValueError")
    ∧ PreResult.halted (PyResult.uncaught "ValueError") ≠
      PreResult.halted (PyResult.exit 2) := by
  constructor
  · rfl
  · simp

/-- C9 (amended).  A user-supplied status-filter token list never yields a
silent empty match: it either fails fast with exit code 2 or resolves to a
non-empty status list.  task_status_view.py exits 2 on an invalid config and
on an unresolvable token, and no failing run writes the status files;
filter_priority.py exits 1 on a missing input file and 0 otherwise;
import_external_tasks.py halts before any import with a `sys.exit(2)` for an
unresolvable CLI token, but an invalid config shape (or an invalid status
list inside a config import target) escapes `main` as an *uncaught* exception
rather than exit code 2 — in either case before any file is written. -/
theorem claim_C9_exit_codes :
    (∀ raws, raws ≠ [] →
      normalizeStatusFiltersE (some raws) = .error 2
      ∨ ∃ sts, normalizeStatusFiltersE (some raws) = .ok sts ∧ sts ≠ [])
    ∧ (∀ cfg args wf k, loadConfigModel cfg = .error k →
        tsvMainModel cfg args wf = (.exit 2, false))
    ∧ (∀ cfg rc args wf, loadConfigModel cfg = .ok rc →
        normalizeStatusFiltersE args = .error 2 →
        tsvMainModel cfg args wf = (.exit 2, false))
    ∧ (∀ cfg args wf, (tsvMainModel cfg args wf).1 ≠ .exit 0 →
        (tsvMainModel cfg args wf).2 = false)
    ∧ (fpMainModel none = .exit 1 ∧ ∀ ls, fpMainModel (some ls) = .exit 0)
    ∧ (∀ cfg k ac sa sr, loadConfigModel cfg = .error k →
        importMainPre cfg ac true sr sa = .halted (.uncaught k))
    ∧ (∀ cfg rc n ac toks, loadConfigModel cfg = .ok rc →
        buildConfigTargetsModel rc.importTargets = .ok n →
        normalizeStatusFiltersE (some toks) = .error 2 →
        importMainPre cfg ac true true (some toks) = .halted (.exit 2)) := by
  refine ⟨?_, ?_, ?_, ?_, ⟨rfl, fun ls => rfl⟩, ?_, ?_⟩
  · intro raws h
    have htok : (raws.map splitComma).flatten ≠ [] := by
      cases raws with
      | nil => exact absurd rfl h
      | cons r rest =>
        simp only [List.map_cons, List.flatten_cons]
        intro h2
        exact splitComma_ne_nil r (List.append_eq_nil.mp h2).1
    have hmain : normalizeStatusFiltersE (some raws) =
        nsfGo ((raws.map splitComma).flatten) [] := by
      simp only [normalizeStatusFiltersE]
      rw [if_neg h]
    rw [hmain]
    cases htoks : (raws.map splitComma).flatten with
    | nil => exact absurd htoks htok
    | cons t ts =>
      cases hr : resolveTok t with
      | none =>
        left
        simp [nsfGo, hr]
      | some st =>
        have hstep : nsfGo (t :: ts) [] = nsfGo ts [st] := by
          simp [nsfGo, hr]
        cases hres : nsfGo ts [st] with
        | error c =>
          left
          rw [hstep, hres, nsfGo_error_two ts [st] c hres]
        | ok sts =>
          right
          exact ⟨sts, by rw [hstep, hres], nsfGo_ok_ne ts [st] sts (by simp) hres⟩
  · intro cfg args wf k h
    unfold tsvMainModel
    rw [h]
  · intro cfg rc args wf h1 h2
    unfold tsvMainModel
    rw [h1, h2]
  · intro cfg args wf h
    unfold tsvMainModel at h ⊢
    cases h1 : loadConfigModel cfg with
    | error k =>
      simp only [h1] at h ⊢
    | ok rc =>
      simp only [h1] at h ⊢
      cases h2 : normalizeStatusFiltersE args with
      | error c =>
        simp only [h2] at h ⊢
      | ok sts =>
        simp only [h2] at h ⊢
        cases h3 : buildOutputTargetsModel rc.statusOutputs with
        | error k =>
          simp only [h3] at h ⊢
        | ok u =>
          simp only [h3] at h ⊢
          exact absurd rfl h
  · intro cfg k ac sa sr h
    unfold importMainPre
    rw [h]
  · intro cfg rc n ac toks h1 h2 h3
    unfold importMainPre
    simp only [h1, h2]
    simp [h3]

/-- Concrete instance of C9 (amended): the token list `["blocked,bogus"]`
fails fast with exit code 2 in task_status_view.py, before any write. -/
theorem claim_C9_witness :
    (normalizeStatusFiltersE (some [lc "blocked,bogus"]) = .error 2
      ∨ ∃ sts, normalizeStatusFiltersE (some [lc "blocked,bogus"]) = .ok sts ∧ sts ≠ [])
    ∧ tsvMainModel none (some [lc "blocked,bogus"]) true = (.exit 2, false) :=
  ⟨claim_C9_exit_codes.1 [lc "blocked,bogus"] (by simp),
   claim_C9_exit_codes.2.2.1 none ⟨.plist [], .plist [], defaultStatusOutputs, .plist []⟩
     (some [lc "blocked,bogus"]) true rfl rfl⟩

/-! ### C4: round trip of import and re-parse

Supporting line-level facts. -/

theorem lstrip_append_ws (a r : Line) (h : ∀ c ∈ a, pyWS c = true) :
    lstrip (a ++ r) = lstrip r := by
  induction a with
  | nil => rfl
  | cons c cs ih =>
    have hc := h c (List.mem_cons_self c cs)
    simp only [List.cons_append, lstrip, List.dropWhile_cons, hc, if_true]
    exact ih (fun c2 h2 => h c2 (List.mem_cons_of_mem c h2))

theorem pyWS_tab : pyWS '\t' = true := by decide

theorem mem_replicate_tab (k : Nat) (c : Char) (h : c ∈ List.replicate k '\t') :
    pyWS c = true := by
  rw [List.eq_of_mem_replicate h]
  exact pyWS_tab

theorem lstrip_tabs (k : Nat) (r : Line) :
    lstrip (List.replicate k '\t' ++ r) = lstrip r :=
  lstrip_append_ws (List.replicate k '\t') r (mem_replicate_tab k)

theorem statusTag_tabs (k : Nat) (r : Line) :
    statusTag (List.replicate k '\t' ++ r) = statusTag r := by
  unfold statusTag
  rw [lstrip_tabs]

theorem strip_tabs (k : Nat) (r : Line) :
    strip (List.replicate k '\t' ++ r) = strip r := by
  unfold strip
  rw [lstrip_tabs]

theorem statusTag_blank_none (l : Line) (h : isBlank l = true) : statusTag l = none := by
  have h2 : lstrip l = [] := by
    simp only [lstrip, List.dropWhile_eq_nil_iff]
    exact (isBlank_iff_all_ws l).mp h
  unfold statusTag
  rw [h2]

theorem rstrip_idem (l : Line) : rstrip (rstrip l) = rstrip l := by
  unfold rstrip
  rw [List.reverse_reverse]
  cases hD : l.reverse.dropWhile pyWS with
  | nil => simp
  | cons x rest =>
    have hx : pyWS x = false := by
      have h2 : ∀ (m : List Char), m.dropWhile pyWS = x :: rest → pyWS x = false := by
        intro m hm
        induction m with
        | nil => simp [List.dropWhile] at hm
        | cons a t ih =>
          rw [List.dropWhile_cons] at hm
          by_cases ha : pyWS a = true
          · rw [if_pos ha] at hm
            exact ih hm
          · rw [if_neg ha] at hm
            cases hm
            simpa using ha
      exact h2 l.reverse hD
    rw [List.dropWhile_cons, hx]
    simp

theorem lstrip_rstrip_comm (l : Line) : lstrip (rstrip l) = rstrip (lstrip l) := by
  induction l with
  | nil => rfl
  | cons c cs ih =>
    by_cases hc : pyWS c = true
    · rw [rstrip_cons]
      by_cases hr : rstrip cs = []
      · rw [if_pos hr, if_pos hc]
        have h2 : lstrip (c :: cs) = lstrip cs := by
          simp [lstrip, List.dropWhile_cons, hc]
        rw [h2]
        have h3 : lstrip cs = [] := by
          have h4 : ∀ x ∈ cs, pyWS x = true := by
            intro x hx
            have := (rstrip_eq_nil_iff cs).mp hr
            exact this x hx
          simp [lstrip, List.dropWhile_eq_nil_iff]
          exact h4
        rw [h3]
        rfl
      · rw [if_neg hr]
        have h2 : lstrip (c :: rstrip cs) = lstrip (rstrip cs) := by
          simp [lstrip, List.dropWhile_cons, hc]
        have h3 : lstrip (c :: cs) = lstrip cs := by
          simp [lstrip, List.dropWhile_cons, hc]
        rw [h2, h3, ih]
    · have hcf : pyWS c = false := by simpa using hc
      have h3 : lstrip (c :: cs) = c :: cs := by
        simp [lstrip, List.dropWhile_cons, hcf]
      rw [rstrip_cons]
      by_cases hr : rstrip cs = []
      · rw [if_pos hr, if_neg (by simp [hcf])]
        rw [h3, rstrip_cons, if_pos hr, if_neg (by simp [hcf])]
        simp [lstrip, List.dropWhile_cons, hcf]
      · rw [if_neg hr, h3, rstrip_cons, if_neg hr]
        have h4 : lstrip (c :: rstrip cs) = c :: rstrip cs := by
          simp [lstrip, List.dropWhile_cons, hcf]
        rw [h4]

theorem strip_rstrip (l : Line) : strip (rstrip l) = strip l := by
  unfold strip
  rw [lstrip_rstrip_comm, rstrip_idem]

theorem lstrip_idem (l : Line) : lstrip (lstrip l) = lstrip l := by
  unfold lstrip
  cases hD : l.dropWhile pyWS with
  | nil => simp
  | cons x rest =>
    have hx : pyWS x = false := by
      have h2 : ∀ (m : List Char), m.dropWhile pyWS = x :: rest → pyWS x = false := by
        intro m hm
        induction m with
        | nil => simp [List.dropWhile] at hm
        | cons a t ih =>
          rw [List.dropWhile_cons] at hm
          by_cases ha : pyWS a = true
          · rw [if_pos ha] at hm
            exact ih hm
          · rw [if_neg ha] at hm
            cases hm
            simpa using ha
      exact h2 l hD
    rw [List.dropWhile_cons, hx]
    simp

theorem strip_idem (l : Line) : strip (strip l) = strip l := by
  unfold strip
  rw [lstrip_rstrip_comm, lstrip_idem, rstrip_idem]

theorem expandTabsAux_tabs (k : Nat) (rest : List Char) (col : Nat) (h : col % 4 = 0) :
    expandTabsAux 4 (List.replicate k '\t' ++ rest) col =
      List.replicate (4 * k) ' ' ++ expandTabsAux 4 rest (col + 4 * k) := by
  induction k generalizing col with
  | zero => simp
  | succ m ih =>
    rw [List.replicate_succ, List.cons_append]
    simp only [expandTabsAux, if_pos rfl, h, Nat.sub_zero]
    rw [ih (col + 4) (by omega)]
    rw [show 4 * (m + 1) = 4 + 4 * m by ring, List.replicate_add, List.append_assoc]
    have h2 : col + 4 + 4 * m = col + (4 + 4 * m) := by ring
    rw [h2]
    simp

theorem dropWhile_spaces_cons (n : Nat) (c : Char) (rest : List Char) (hc : pyWS c = false) :
    List.dropWhile pyWS (List.replicate n ' ' ++ c :: rest) = c :: rest := by
  induction n with
  | zero => simp [List.dropWhile_cons, hc]
  | succ m ih =>
    rw [List.replicate_succ, List.cons_append, List.dropWhile_cons]
    rw [if_pos (by decide)]
    exact ih

theorem leadingIndent_tabs (k : Nat) (c : Char) (cs : List Char) (hc : pyWS c = false) :
    leadingIndent (List.replicate k '\t' ++ c :: cs) = 4 * k := by
  have hct : c ≠ '\t' := by
    intro he; subst he; simp [pyWS] at hc
  unfold leadingIndent expandTabs
  rw [expandTabsAux_tabs k (c :: cs) 0 rfl]
  simp only [expandTabsAux, if_neg hct, Nat.zero_add]
  unfold lstrip
  rw [dropWhile_spaces_cons (4 * k) c (expandTabsAux 4 cs (4 * k + 1)) hc]
  simp

theorem not_blank_of_head_not_ws (c : Char) (cs : List Char) (hc : pyWS c = false) :
    isBlank (c :: cs) = false := by
  rw [Bool.eq_false_iff]
  intro hb
  have := (isBlank_iff_all_ws (c :: cs)).mp hb c (List.mem_cons_self c cs)
  rw [this] at hc
  cases hc

theorem head_not_ws_of_lstrip_fixed (c : Char) (cs : List Char)
    (h : lstrip (c :: cs) = c :: cs) : pyWS c = false :=
  head_not_ws_of_unindented c cs (by simp [unindented, h])

/-- Any character found by the tag pattern names a status in STATUS_TAGS. -/
theorem statusName_total (l : Line) (c : Char) (h : statusTag l = some c) :
    ∃ st, statusName c = some st := by
  unfold statusTag at h
  split at h
  case h_2 => exact absurd h (by simp)
  case h_1 b rest heq =>
    split at h
    case isFalse => exact absurd h (by simp)
    case isTrue hmem =>
      have hc : c = pyLower b := (Option.some.inj h).symm
      subst hc
      have hm : pyLower b = 'b' ∨ pyLower b = 'd' ∨ pyLower b = 'w' ∨ pyLower b = 'i' ∨
          pyLower b = 'x' ∨ pyLower b = 't' := by
        simpa using hmem
      rcases hm with h1 | h1 | h1 | h1 | h1 | h1 <;> rw [h1] <;> exact ⟨_, rfl⟩

theorem joinNL_single (x : Line) : joinNL [x] = x := by
  simp [joinNL, List.intercalate]

/-- The canonical signature of a block made of a non-blank tag line followed
by blank continuation lines is the stripped tag line. -/
theorem canonicalizeLines_tag_blanks (line : Line) (ts : List Line)
    (hb : isBlank line = false) (hts : ∀ t ∈ ts, isBlank t = true) :
    canonicalizeLines (rstrip line :: ts.map rstrip) = strip line := by
  unfold canonicalizeLines
  have hfilter : ((ts.map rstrip).map strip).filter (fun l => !l.isEmpty) = [] := by
    rw [List.filter_eq_nil_iff]
    intro a ha
    simp only [List.map_map, List.mem_map, Function.comp] at ha
    obtain ⟨t, ht, rfl⟩ := ha
    have h2 : strip t = [] := by
      have := hts t ht
      simpa [isBlank] using this
    rw [strip_rstrip, h2]
    simp
  simp only [List.map_cons, List.filter_cons]
  rw [strip_rstrip]
  have hne : (strip line).isEmpty = false := by
    have h3 : strip line ≠ [] := by simpa [isBlank] using hb
    cases h : strip line with
    | nil => exact absurd h h3
    | cons a t => simp
  rw [hne]
  simp only [Bool.not_false, if_pos]
  rw [hfilter, joinNL_single]

theorem filterMap_none_of_all {α β : Type} (f : α → Option β) (l : List α)
    (h : ∀ a ∈ l, f a = none) : l.filterMap f = [] := by
  induction l with
  | nil => rfl
  | cons a t ih =>
    rw [List.filterMap_cons, h a (List.mem_cons_self a t)]
    exact ih (fun x hx => h x (List.mem_cons_of_mem a hx))

/-- The tag-line filter whose image the parser's signatures match. -/
def tagSig (l : Line) : Option Line :=
  if (statusTag l).isSome = true then some (strip l) else none

/-- The canonical signatures produced by the parser do not depend on the
current section or heading stack. -/
theorem tsvParseAux_sigs_ind (fuel : Nat) :
    ∀ (ls : List Line) (s1 s2 : Line) (k1 k2 : List Line),
      (tsvParseAux fuel ls s1 k1).map sigOf = (tsvParseAux fuel ls s2 k2).map sigOf := by
  induction fuel with
  | zero => intro ls s1 s2 k1 k2; simp [tsvParseAux]
  | succ n ih =>
    intro ls s1 s2 k1 k2
    cases ls with
    | nil => simp [tsvParseAux]
    | cons line rest =>
      simp only [tsvParseAux]
      by_cases hb : isBlank line = true
      · rw [if_pos hb, if_pos hb]; exact ih rest s1 s2 k1 k2
      · rw [if_neg hb, if_neg hb]
        by_cases hleg : legendTSV (strip line) = true
        · rw [if_pos hleg, if_pos hleg]; exact ih rest s1 s2 k1 k2
        · rw [if_neg hleg, if_neg hleg]
          rcases hh : headingMatch line with _ | kv
          · simp only [hh]
            by_cases hsec : (unindented line && !statusMatches line) = true
            · rw [if_pos hsec, if_pos hsec]; exact ih rest _ _ k1 k2
            · rw [if_neg hsec, if_neg hsec]
              rcases hc : statusTag line with _ | c
              · simp only [hc]; exact ih rest s1 s2 k1 k2
              · simp only [hc]
                rcases hst : statusName c with _ | st
                · simp only [hst]; exact ih rest s1 s2 k1 k2
                · simp only [hst, List.map_cons]
                  rw [ih (tsvCollect (leadingIndent line) rest).2 s1 s2 k1 k2]
                  simp [sigOf]
          · simp only [hh]; exact ih rest _ _ _ _

/-- Master re-parse lemma: on a file in which every tagged line is non-legend
and is followed only by blank lines up to the next break line, the parser's
canonical signatures are exactly the stripped tagged lines, in order. -/
theorem tsvParseAux_sigs (fuel : Nat) :
    ∀ (ls : List Line) (sect : Line) (stack : List Line),
      ls.length ≤ fuel →
      (∀ l rest2, (l :: rest2) <:+ ls → (statusTag l).isSome = true →
        legendTSV (strip l) = false ∧
        ∀ x ∈ rest2.takeWhile (blankOrDeeper (leadingIndent l)), isBlank x = true) →
      (tsvParseAux fuel ls sect stack).map sigOf = ls.filterMap tagSig := by
  induction fuel with
  | zero =>
    intro ls sect stack hlen _
    have h0 : ls = [] := List.length_eq_zero.mp (Nat.le_zero.mp hlen)
    subst h0
    simp [tsvParseAux]
  | succ n ih =>
    intro ls sect stack hlen H
    cases ls with
    | nil => simp [tsvParseAux]
    | cons line rest =>
      have hlen2 : rest.length ≤ n := by
        simp only [List.length_cons] at hlen
        omega
      have Hrest : ∀ l rest2, (l :: rest2) <:+ rest → (statusTag l).isSome = true →
          legendTSV (strip l) = false ∧
          ∀ x ∈ rest2.takeWhile (blankOrDeeper (leadingIndent l)), isBlank x = true := by
        intro l rest2 hs ht
        exact H l rest2 (hs.trans (List.suffix_cons line rest)) ht
      by_cases htag : (statusTag line).isSome = true
      · obtain ⟨c, hc⟩ := Option.isSome_iff_exists.mp htag
        obtain ⟨st, hst⟩ := statusName_total line c hc
        obtain ⟨hleg, htw⟩ := H line rest (List.suffix_refl _) htag
        rw [tsvParseAux_tag n line rest sect stack c st hc hst hleg]
        rw [List.map_cons]
        have hsig : sigOf { status := st, sect := sect,
                            lines := rstrip line ::
                              (rest.takeWhile (blankOrDeeper (leadingIndent line))).map rstrip,
                            headings := stack } = strip line := by
          unfold sigOf
          exact canonicalizeLines_tag_blanks line _
            (statusTag_not_blank line c hc) htw
        rw [hsig]
        have hdrop : (tsvParseAux n
            (rest.dropWhile (blankOrDeeper (leadingIndent line))) sect stack).map sigOf =
            (rest.dropWhile (blankOrDeeper (leadingIndent line))).filterMap tagSig := by
          apply ih _ sect stack
          · exact le_trans (List.dropWhile_sublist _ |>.length_le) hlen2
          · intro l rest2 hs ht
            exact Hrest l rest2 (hs.trans (List.dropWhile_suffix _)) ht
        rw [hdrop]
        have hrest_split : rest.filterMap tagSig =
            (rest.dropWhile (blankOrDeeper (leadingIndent line))).filterMap tagSig := by
          conv_lhs => rw [← List.takeWhile_append_dropWhile
            (p := blankOrDeeper (leadingIndent line)) (l := rest)]
          rw [List.filterMap_append]
          rw [filterMap_none_of_all tagSig _ (by
            intro a ha
            have hba : isBlank a = true := htw a ha
            simp [tagSig, statusTag_blank_none a hba])]
          rw [List.nil_append]
        rw [← hrest_split]
        have hline : tagSig line = some (strip line) := by
          simp [tagSig, htag]
        rw [List.filterMap_cons, hline]
      · have hline : tagSig line = none := by
          simp only [tagSig, if_neg htag]
        have hgoal : (line :: rest).filterMap tagSig = rest.filterMap tagSig := by
          rw [List.filterMap_cons, hline]
        rw [hgoal]
        have hsm : statusMatches line = false := by
          simpa [statusMatches] using htag
        have hc : statusTag line = none := by
          simpa using htag
        simp only [tsvParseAux]
        by_cases hb : isBlank line = true
        · rw [if_pos hb]; exact ih rest sect stack hlen2 Hrest
        · rw [if_neg hb]
          by_cases hleg : legendTSV (strip line) = true
          · rw [if_pos hleg]; exact ih rest sect stack hlen2 Hrest
          · rw [if_neg hleg]
            rcases hh : headingMatch line with _ | kv
            · simp only [hh]
              by_cases hsec : (unindented line && !statusMatches line) = true
              · rw [if_pos hsec]; exact ih rest _ stack hlen2 Hrest
              · rw [if_neg hsec]
                simp only [hc]
                exact ih rest sect stack hlen2 Hrest
            · simp only [hh]
              exact ih rest _ _ hlen2 Hrest

/-- Hypothesis bundle on an entry for the round trip: a single-line block
whose line carries a status tag, is not a legend line, and is free of line
breaks. -/
def EntryOK (e : TSVEntry) : Prop :=
  ∃ l, e.lines = [l] ∧ (statusTag l).isSome = true ∧ legendTSV (strip l) = false ∧
    lineClean l = true

/-- Hypothesis bundle on a heading label (or section name) used by the import:
non-empty, without leading whitespace, not status-tagged, free of line
breaks. -/
def LabelOK (h : Line) : Prop :=
  h ≠ [] ∧ lstrip h = h ∧ statusTag h = none ∧ lineClean h = true

theorem dropWhile_head_not {α : Type} (p : α → Bool) (l : List α) (x : α) (rest : List α)
    (h : l.dropWhile p = x :: rest) : p x = false := by
  induction l with
  | nil => simp [List.dropWhile] at h
  | cons a t ih =>
    rw [List.dropWhile_cons] at h
    by_cases ha : p a = true
    · rw [if_pos ha] at h
      exact ih h
    · rw [if_neg ha] at h
      cases h
      simpa using ha

theorem head_strip_not_ws (x : Line) (h : strip x ≠ []) :
    ∃ c cs, strip x = c :: cs ∧ pyWS c = false := by
  unfold strip at h ⊢
  cases hL : lstrip x with
  | nil => rw [hL] at h; exact absurd rfl h
  | cons c cs =>
    have hc : pyWS c = false := dropWhile_head_not pyWS x c cs hL
    rw [rstrip_cons]
    by_cases hr : rstrip cs = []
    · rw [if_pos hr, if_neg (by simp [hc])]
      exact ⟨c, [], rfl, hc⟩
    · rw [if_neg hr]
      exact ⟨c, rstrip cs, rfl, hc⟩

theorem blank_false_of_mem_not_ws (l : Line) (c : Char) (hc : c ∈ l) (hw : pyWS c = false) :
    isBlank l = false := by
  rw [Bool.eq_false_iff]
  intro hb
  rw [(isBlank_iff_all_ws l).mp hb c hc] at hw
  cases hw

/-- A fixed point of `lstrip` that is non-empty is not blank. -/
theorem not_blank_of_labelOK (h : Line) (hOK : LabelOK h) : isBlank h = false := by
  obtain ⟨hne, hl, -, -⟩ := hOK
  cases hh : h with
  | nil => exact absurd hh hne
  | cons c cs =>
    rw [hh] at hl
    exact not_blank_of_head_not_ws c cs (head_not_ws_of_lstrip_fixed c cs hl)

theorem rstrip_bracket_shape (b : Char) (r : Line) :
    ∃ r2, rstrip ('[' :: b :: ']' :: r) = '[' :: b :: ']' :: r2 := by
  have h1 : rstrip (']' :: r) ≠ [] := by
    rw [rstrip_cons]
    by_cases hr : rstrip r = []
    · rw [if_pos hr, if_neg (by decide)]
      simp
    · rw [if_neg hr]
      simp
  have h2 : rstrip (b :: ']' :: r) = b :: rstrip (']' :: r) := by
    rw [rstrip_cons, if_neg h1]
  have h3 : rstrip ('[' :: b :: ']' :: r) = '[' :: rstrip (b :: ']' :: r) := by
    rw [rstrip_cons, if_neg (by rw [h2]; simp)]
  rw [h3, h2]
  cases h4 : rstrip (']' :: r) with
  | nil => exact absurd h4 h1
  | cons z zs =>
    have hz : z = ']' := by
      rw [rstrip_cons] at h4
      by_cases hr : rstrip r = []
      · rw [if_pos hr, if_neg (by decide)] at h4
        cases h4
        rfl
      · rw [if_neg hr] at h4
        cases h4
        rfl
    subst hz
    exact ⟨zs, rfl⟩

theorem lstrip_cons_not_ws (c : Char) (cs : List Char) (hc : pyWS c = false) :
    lstrip (c :: cs) = c :: cs := by
  simp [lstrip, List.dropWhile_cons, hc]

/-- A status tag survives stripping. -/
theorem statusTag_strip_of_some (l : Line) (c : Char) (h : statusTag l = some c) :
    statusTag (strip l) = some c := by
  obtain ⟨b, rest, heq, hpl⟩ := statusTag_some_shape l c h
  have hs : strip l = rstrip (lstrip l) := rfl
  rw [heq] at hs
  obtain ⟨r2, hr2⟩ := rstrip_bracket_shape b rest
  rw [hr2] at hs
  unfold statusTag
  rw [hs, lstrip_cons_not_ws '[' (b :: ']' :: r2) (by decide)]
  have hmem : (['b', 'd', 'w', 'i', 'x', 't'].contains (pyLower b)) = true := by
    unfold statusTag at h
    simp only [heq] at h
    by_contra hm
    rw [Bool.not_eq_true] at hm
    rw [hm] at h
    simp at h
  show (if (['b', 'd', 'w', 'i', 'x', 't'].contains (pyLower b)) = true
    then some (pyLower b) else none) = some c
  rw [if_pos hmem, hpl]

/-- `insert_into_section` on an empty destination appends the section name, a
blank separator line and the block. -/
theorem insertIntoSection_empty (s0 : Line) (B : List Line) :
    insertIntoSection [] s0 B = s0 :: [] :: B := by
  unfold insertIntoSection findSectionIndices findIdxFrom insertAt lineAt
  simp
  intro h1 _
  exact absurd h1 (by omega)

theorem trimTrailing_id (ls : List Line) (z : Line) (hz : ls.getLast? = some z)
    (hb : isBlank z = false) (hr : rstrip z = z) : trimTrailing ls = ls := by
  have h1 : ∃ ys, ls = ys ++ [z] := by
    cases hls : ls with
    | nil => rw [hls] at hz; cases hz
    | cons a t =>
      refine ⟨(a :: t).dropLast, ?_⟩
      rw [← hls]
      have := List.dropLast_append_getLast? (l := ls) z hz
      exact this.symm
  obtain ⟨ys, rfl⟩ := h1
  rw [trimTrailing_append_nonblank ys z hb, hr]

/-- The hypothesis of the master re-parse lemma, as a predicate on a file. -/
def SufOK (ls : List Line) : Prop :=
  ∀ l rest2, (l :: rest2) <:+ ls → (statusTag l).isSome = true →
    legendTSV (strip l) = false ∧
    ∀ x ∈ rest2.takeWhile (blankOrDeeper (leadingIndent l)), isBlank x = true

theorem SufOK_nil : SufOK [] := by
  intro l rest2 hs _
  have := hs.length_le
  simp at this

theorem SufOK_cons_untagged (a : Line) (t : List Line) (ha : statusTag a = none)
    (ht : SufOK t) : SufOK (a :: t) := by
  intro l rest2 hs htag
  rcases List.suffix_cons_iff.mp hs with h1 | h1
  · obtain ⟨rfl, -⟩ := List.cons.injEq .. ▸ (List.cons.inj h1)
    rw [ha] at htag
    cases htag
  · exact ht l rest2 h1 htag

theorem SufOK_cons_tagged (a : Line) (t : List Line)
    (hleg : legendTSV (strip a) = false)
    (htw : ∀ x ∈ t.takeWhile (blankOrDeeper (leadingIndent a)), isBlank x = true)
    (ht : SufOK t) : SufOK (a :: t) := by
  intro l rest2 hs htag
  rcases List.suffix_cons_iff.mp hs with h1 | h1
  · obtain ⟨h2, h3⟩ := List.cons.inj h1
    subst h2
    subst h3
    exact ⟨hleg, htw⟩
  · exact ht l rest2 h1 htag

theorem SufOK_append_untagged (A : List Line) (t : List Line)
    (hA : ∀ l ∈ A, statusTag l = none) (ht : SufOK t) : SufOK (A ++ t) := by
  induction A with
  | nil => simpa using ht
  | cons a A2 ih =>
    rw [List.cons_append]
    exact SufOK_cons_untagged a (A2 ++ t)
      (hA a (List.mem_cons_self a A2))
      (ih (fun l hl => hA l (List.mem_cons_of_mem a hl)))

/-- The first non-blank line of `ls` (if any) does not continue a block of
depth `d`. -/
def BreakAt (d : Nat) (ls : List Line) : Prop :=
  ls.dropWhile isBlank = [] ∨
    ∃ b tl, ls.dropWhile isBlank = b :: tl ∧ blankOrDeeper d b = false

theorem takeWhile_blank_of_break (d : Nat) (ls : List Line) (h : BreakAt d ls) :
    ∀ x ∈ ls.takeWhile (blankOrDeeper d), isBlank x = true := by
  induction ls with
  | nil => simp
  | cons a t ih =>
    by_cases hb : isBlank a = true
    · have hp : blankOrDeeper d a = true := by simp [blankOrDeeper, hb]
      rw [List.takeWhile_cons, hp]
      intro x hx
      rcases List.mem_cons.mp hx with h1 | h1
      · rw [h1]; exact hb
      · apply ih _ x h1
        unfold BreakAt at h ⊢
        rwa [List.dropWhile_cons, if_pos hb] at h
    · have hbf : isBlank a = false := by simpa using hb
      unfold BreakAt at h
      rw [List.dropWhile_cons, if_neg (by simp [hbf])] at h
      rcases h with h1 | ⟨b, tl, h1, h2⟩
      · cases h1
      · obtain ⟨rfl, -⟩ := List.cons.inj h1
        rw [List.takeWhile_cons, h2]
        simp

theorem BreakAt_nil (d : Nat) : BreakAt d [] := Or.inl rfl

theorem BreakAt_cons_blank (d : Nat) (ls : List Line) (h : BreakAt d ls) :
    BreakAt d (([] : Line) :: ls) := by
  unfold BreakAt at h ⊢
  rwa [List.dropWhile_cons, if_pos (by decide)]

theorem BreakAt_cons_break (d : Nat) (b : Line) (ls : List Line)
    (hb : isBlank b = false) (hd : leadingIndent b ≤ d) : BreakAt d (b :: ls) := by
  right
  refine ⟨b, ls, ?_, ?_⟩
  · rw [List.dropWhile_cons, if_neg (by simp [hb])]
  · simp [blankOrDeeper, hb]
    omega

theorem strip_ne_nil_of_tag (l : Line) (c : Char) (hc : statusTag l = some c) :
    strip l ≠ [] := by
  have hb : isBlank l = false := statusTag_not_blank l c hc
  intro h
  rw [isBlank, h] at hb
  simp at hb

/-- Shape facts about one stored entry line `"\t" * k ++ strip l`. -/
theorem entryLine_props (l : Line) (k : Nat) (c : Char) (hc : statusTag l = some c) :
    leadingIndent (List.replicate k '\t' ++ strip l) = 4 * k ∧
    isBlank (List.replicate k '\t' ++ strip l) = false ∧
    statusTag (List.replicate k '\t' ++ strip l) = some c ∧
    strip (List.replicate k '\t' ++ strip l) = strip l := by
  obtain ⟨c0, cs0, hsh, hws⟩ := head_strip_not_ws l (strip_ne_nil_of_tag l c hc)
  refine ⟨?_, ?_, ?_, ?_⟩
  · rw [hsh]
    exact leadingIndent_tabs k c0 cs0 hws
  · apply blank_false_of_mem_not_ws _ c0 _ hws
    rw [hsh]
    exact List.mem_append_right _ (List.mem_cons_self c0 cs0)
  · rw [statusTag_tabs]
    exact statusTag_strip_of_some l c hc
  · rw [strip_tabs, strip_idem]

theorem reindent_single (ind : Line) (l : Line) (hl : strip l ≠ []) :
    reindentEntryLines [l] ind = [ind ++ strip l] := by
  simp [reindentEntryLines, hl]

theorem entriesBody_single (ind : Line) (e : TSVEntry) (l : Line) (he : e.lines = [l])
    (hl : strip l ≠ []) : entriesBody ind [e] = [ind ++ strip l] := by
  show reindentEntryLines e.lines ind = [ind ++ strip l]
  rw [he]
  exact reindent_single ind l hl

theorem entriesBody_cons2 (ind : Line) (e e2 : TSVEntry) (es2 : List TSVEntry) (l : Line)
    (he : e.lines = [l]) (hl : strip l ≠ []) :
    entriesBody ind (e :: e2 :: es2) =
      (ind ++ strip l) :: ([] : Line) :: entriesBody ind (e2 :: es2) := by
  show reindentEntryLines e.lines ind ++ ([] : Line) :: entriesBody ind (e2 :: es2) = _
  rw [he, reindent_single ind l hl]
  rfl

theorem entriesBody_cons_head (ind : Line) (e : TSVEntry) (es : List TSVEntry) (l : Line)
    (he : e.lines = [l]) (hl : strip l ≠ []) :
    ∃ tl, entriesBody ind (e :: es) = (ind ++ strip l) :: tl := by
  cases es with
  | nil => exact ⟨[], by rw [entriesBody_single ind e l he hl]⟩
  | cons e2 es2 =>
    exact ⟨([] : Line) :: entriesBody ind (e2 :: es2), entriesBody_cons2 ind e e2 es2 l he hl⟩

/-- The first non-blank line of `ls` (if any) is unindented or a level-1
heading line: depth at most 4. -/
def HeadLE4 (ls : List Line) : Prop :=
  ls.dropWhile isBlank = [] ∨
    ∃ b tl, ls.dropWhile isBlank = b :: tl ∧ isBlank b = false ∧ leadingIndent b ≤ 4

theorem BreakAt_of_HeadLE4 (d : Nat) (ls : List Line) (h4 : 4 ≤ d) (h : HeadLE4 ls) :
    BreakAt d ls := by
  rcases h with h1 | ⟨b, tl, h1, h2, h3⟩
  · exact Or.inl h1
  · right
    refine ⟨b, tl, h1, ?_⟩
    simp [blankOrDeeper, h2]
    omega

theorem SufOK_entriesBody (k : Nat) (hk : 1 ≤ k) :
    ∀ (es : List TSVEntry) (ctx : List Line),
      (∀ e ∈ es, EntryOK e) → HeadLE4 ctx → SufOK ctx →
      SufOK (entriesBody (List.replicate k '\t') es ++ ctx) := by
  intro es
  induction es with
  | nil =>
    intro ctx _ _ hctx
    simpa [entriesBody] using hctx
  | cons e es2 ih =>
    intro ctx hok hhead hctx
    obtain ⟨l, he, htag, hleg, hclean⟩ := hok e (List.mem_cons_self e es2)
    obtain ⟨c, hc⟩ := Option.isSome_iff_exists.mp htag
    have hl : strip l ≠ [] := strip_ne_nil_of_tag l c hc
    obtain ⟨hE1, hE2, hE3, hE4⟩ := entryLine_props l k c hc
    cases es2 with
    | nil =>
      rw [entriesBody_single _ e l he hl, List.singleton_append]
      apply SufOK_cons_tagged _ _ ?_ ?_ hctx
      · rw [hE4]; exact hleg
      · rw [hE1]
        exact takeWhile_blank_of_break _ ctx
          (BreakAt_of_HeadLE4 _ ctx (by omega) hhead)
    | cons e2 es3 =>
      rw [entriesBody_cons2 _ e e2 es3 l he hl]
      have hT : SufOK (entriesBody (List.replicate k '\t') (e2 :: es3) ++ ctx) :=
        ih ctx (fun x hx => hok x (List.mem_cons_of_mem e hx)) hhead hctx
      obtain ⟨l2, he2, htag2, -, -⟩ := hok e2 (List.mem_cons_of_mem e (List.mem_cons_self e2 es3))
      obtain ⟨c2, hc2⟩ := Option.isSome_iff_exists.mp htag2
      have hl2 : strip l2 ≠ [] := strip_ne_nil_of_tag l2 c2 hc2
      obtain ⟨hF1, hF2, -, -⟩ := entryLine_props l2 k c2 hc2
      obtain ⟨tl2, htl2⟩ := entriesBody_cons_head (List.replicate k '\t') e2 es3 l2 he2 hl2
      have hbreak : BreakAt (4 * k) (([] : Line) ::
          (entriesBody (List.replicate k '\t') (e2 :: es3) ++ ctx)) := by
        apply BreakAt_cons_blank
        rw [htl2, List.cons_append]
        exact BreakAt_cons_break _ _ _ hF2 (by omega)
      show SufOK ((List.replicate k '\t' ++ strip l) :: ([] : Line) ::
        (entriesBody (List.replicate k '\t') (e2 :: es3) ++ ctx))
      apply SufOK_cons_tagged _ _ ?_ ?_ ?_
      · rw [hE4]; exact hleg
      · rw [hE1]
        exact takeWhile_blank_of_break _ _ hbreak
      · exact SufOK_cons_untagged _ _ rfl hT

theorem rstrip_strip (l : Line) : rstrip (strip l) = strip l := by
  unfold strip
  rw [rstrip_idem]

theorem entryLine_rstrip (ind : Line) (l : Line) (hl : strip l ≠ []) :
    rstrip (ind ++ strip l) = ind ++ strip l := by
  rw [rstrip_append, rstrip_strip, if_neg hl]

theorem entriesBody_ne_nil (ind : Line) (e : TSVEntry) (es : List TSVEntry) (l : Line)
    (he : e.lines = [l]) (hl : strip l ≠ []) : entriesBody ind (e :: es) ≠ [] := by
  obtain ⟨tl, htl⟩ := entriesBody_cons_head ind e es l he hl
  rw [htl]
  simp

theorem entriesBody_getLast (ind : Line) :
    ∀ (es : List TSVEntry), es ≠ [] → (∀ e ∈ es, EntryOK e) →
      ∃ z, (entriesBody ind es).getLast? = some z ∧ isBlank z = false ∧ rstrip z = z := by
  intro es
  induction es with
  | nil => intro h; exact absurd rfl h
  | cons e es2 ih =>
    intro _ hok
    obtain ⟨l, he, htag, -, -⟩ := hok e (List.mem_cons_self e es2)
    obtain ⟨c, hc⟩ := Option.isSome_iff_exists.mp htag
    have hl : strip l ≠ [] := strip_ne_nil_of_tag l c hc
    obtain ⟨c0, cs0, hsh, hws⟩ := head_strip_not_ws l hl
    cases es2 with
    | nil =>
      refine ⟨ind ++ strip l, ?_, ?_, entryLine_rstrip ind l hl⟩
      · rw [entriesBody_single ind e l he hl]
        rfl
      · apply blank_false_of_mem_not_ws _ c0 _ hws
        rw [hsh]
        exact List.mem_append_right _ (List.mem_cons_self c0 cs0)
    | cons e2 es3 =>
      obtain ⟨z, hz1, hz2, hz3⟩ :=
        ih (by simp) (fun x hx => hok x (List.mem_cons_of_mem e hx))
      refine ⟨z, ?_, hz2, hz3⟩
      rw [entriesBody_cons2 ind e e2 es3 l he hl]
      obtain ⟨l2, he2, htag2, -, -⟩ :=
        hok e2 (List.mem_cons_of_mem e (List.mem_cons_self e2 es3))
      obtain ⟨c2, hc2⟩ := Option.isSome_iff_exists.mp htag2
      obtain ⟨tl2, htl2⟩ := entriesBody_cons_head ind e2 es3 l2 he2
        (strip_ne_nil_of_tag l2 c2 hc2)
      rw [htl2] at hz1 ⊢
      rw [List.getLast?_cons_cons, List.getLast?_cons_cons]
      exact hz1

/-- `build_heading_block` for a non-empty chain and non-empty single-line
entries: heading lines, entry body, one trailing empty line. -/
theorem buildHeadingBlock_shape (chain : List Line) (es : List TSVEntry)
    (hch : chain ≠ []) (hes : es ≠ []) (hok : ∀ e ∈ es, EntryOK e) :
    buildHeadingBlock chain es =
      headingChainLines 1 chain ++
        entriesBody (List.replicate (chain.length + 1) '\t') es ++ [[]] := by
  unfold buildHeadingBlock
  rw [if_neg hch]
  obtain ⟨z, hz1, hz2, -⟩ :=
    entriesBody_getLast (List.replicate (chain.length + 1) '\t') es hes hok
  have hne : entriesBody (List.replicate (chain.length + 1) '\t') es ≠ [] := by
    intro h
    rw [h] at hz1
    cases hz1
  have hlast : (headingChainLines 1 chain ++
      entriesBody (List.replicate (chain.length + 1) '\t') es).getLast? = some z := by
    rw [List.getLast?_append_of_ne_nil _ hne]
    exact hz1
  have hcond : (headingChainLines 1 chain ++
      entriesBody (List.replicate (chain.length + 1) '\t') es) ≠ [] ∧
      (headingChainLines 1 chain ++
        entriesBody (List.replicate (chain.length + 1) '\t') es).getLast? ≠ some [] := by
    constructor
    · intro h
      rw [h] at hlast
      cases hlast
    · rw [hlast]
      intro h
      have hz : z = [] := Option.some.inj h
      rw [hz] at hz2
      simp [isBlank, strip, lstrip, rstrip] at hz2
  rw [if_pos hcond]

/-- The concatenated section body before the trailing-blank pop: every group
block keeps its trailing empty line except the last one. -/
def blocksFlat : List (List Line × List TSVEntry) → List Line
  | [] => []
  | [hg] => headingChainLines 1 hg.1 ++
      entriesBody (List.replicate (hg.1.length + 1) '\t') hg.2
  | hg :: hg2 :: rest => buildHeadingBlock hg.1 hg.2 ++ blocksFlat (hg2 :: rest)

/-- Well-formedness of the heading groups fed to the block builder. -/
def HgsWF (hgs : List (List Line × List TSVEntry)) : Prop :=
  ∀ p ∈ hgs, (p.1 ≠ [] ∧ ∀ h ∈ p.1, LabelOK h) ∧ p.2 ≠ [] ∧ ∀ e ∈ p.2, EntryOK e

theorem popTrailingEmpty_append_empty (X : List Line) :
    popTrailingEmpty (X ++ [[]]) = popTrailingEmpty X := by
  unfold popTrailingEmpty
  rw [List.reverse_append]
  simp [List.dropWhile_cons]

theorem popTrailingEmpty_of_last (X : List Line) (z : Line) (hz : X.getLast? = some z)
    (hne : z ≠ []) : popTrailingEmpty X = X := by
  have h1 : ∃ ys, X = ys ++ [z] := by
    cases hX : X with
    | nil => rw [hX] at hz; cases hz
    | cons a t =>
      refine ⟨(a :: t).dropLast, ?_⟩
      rw [← hX]
      exact (List.dropLast_append_getLast? (l := X) z hz).symm
  obtain ⟨ys, rfl⟩ := h1
  unfold popTrailingEmpty
  rw [List.reverse_append]
  have hzE : z.isEmpty = false := by
    cases z with
    | nil => exact absurd rfl hne
    | cons a t => rfl
  simp [List.dropWhile_cons, hzE]

theorem popTrailingEmpty_append (A Y : List Line) (h : popTrailingEmpty Y ≠ []) :
    popTrailingEmpty (A ++ Y) = A ++ popTrailingEmpty Y := by
  unfold popTrailingEmpty at h ⊢
  rw [List.reverse_append, List.dropWhile_append]
  have h2 : (Y.reverse.dropWhile fun l => l.isEmpty).isEmpty = false := by
    cases hY : Y.reverse.dropWhile fun l => l.isEmpty with
    | nil => rw [hY] at h; simp at h
    | cons a t => rfl
  rw [if_neg (by rw [h2]; simp)]
  rw [List.reverse_append, List.reverse_reverse]

theorem blocksFlat_getLast : ∀ (hgs : List (List Line × List TSVEntry)), hgs ≠ [] →
    HgsWF hgs →
    ∃ z, (blocksFlat hgs).getLast? = some z ∧ isBlank z = false ∧ rstrip z = z := by
  intro hgs
  induction hgs with
  | nil => intro h; exact absurd rfl h
  | cons hg rest ih =>
    intro _ hWF
    obtain ⟨⟨hch, hlab⟩, hes, hok⟩ := hWF hg (List.mem_cons_self hg rest)
    cases rest with
    | nil =>
      obtain ⟨z, hz1, hz2, hz3⟩ :=
        entriesBody_getLast (List.replicate (hg.1.length + 1) '\t') hg.2 hes hok
      refine ⟨z, ?_, hz2, hz3⟩
      show (headingChainLines 1 hg.1 ++
        entriesBody (List.replicate (hg.1.length + 1) '\t') hg.2).getLast? = some z
      rw [List.getLast?_append_of_ne_nil _ (by intro h; rw [h] at hz1; cases hz1)]
      exact hz1
    | cons hg2 rest2 =>
      obtain ⟨z, hz1, hz2, hz3⟩ := ih (by simp)
        (fun p hp => hWF p (List.mem_cons_of_mem hg hp))
      refine ⟨z, ?_, hz2, hz3⟩
      show (buildHeadingBlock hg.1 hg.2 ++ blocksFlat (hg2 :: rest2)).getLast? = some z
      rw [List.getLast?_append_of_ne_nil _ (by intro h; rw [h] at hz1; cases hz1)]
      exact hz1

theorem sectionBlock_eq_blocksFlat : ∀ (hgs : List (List Line × List TSVEntry)),
    HgsWF hgs → sectionBlock hgs = blocksFlat hgs := by
  intro hgs
  induction hgs with
  | nil => intro _; rfl
  | cons hg rest ih =>
    intro hWF
    obtain ⟨⟨hch, hlab⟩, hes, hok⟩ := hWF hg (List.mem_cons_self hg rest)
    cases rest with
    | nil =>
      show popTrailingEmpty (List.flatten [buildHeadingBlock hg.1 hg.2]) = _
      rw [show List.flatten [buildHeadingBlock hg.1 hg.2] =
        buildHeadingBlock hg.1 hg.2 by simp]
      rw [buildHeadingBlock_shape hg.1 hg.2 hch hes hok]
      rw [popTrailingEmpty_append_empty]
      obtain ⟨z, hz1, hz2, hz3⟩ :=
        entriesBody_getLast (List.replicate (hg.1.length + 1) '\t') hg.2 hes hok
      have hzne : z ≠ [] := by
        intro h
        rw [h] at hz2
        simp [isBlank, strip, lstrip, rstrip] at hz2
      have hlast : (headingChainLines 1 hg.1 ++
          entriesBody (List.replicate (hg.1.length + 1) '\t') hg.2).getLast? = some z := by
        rw [List.getLast?_append_of_ne_nil _ (by intro h; rw [h] at hz1; cases hz1)]
        exact hz1
      exact popTrailingEmpty_of_last _ z hlast hzne
    | cons hg2 rest2 =>
      have hWF2 : HgsWF (hg2 :: rest2) := fun p hp => hWF p (List.mem_cons_of_mem hg hp)
      have hrec : sectionBlock (hg2 :: rest2) = blocksFlat (hg2 :: rest2) := ih hWF2
      obtain ⟨z, hz1, hz2, hz3⟩ := blocksFlat_getLast (hg2 :: rest2) (by simp) hWF2
      have hne : popTrailingEmpty (List.flatten ((hg2 :: rest2).map
          (fun hg => buildHeadingBlock hg.1 hg.2))) ≠ [] := by
        show sectionBlock (hg2 :: rest2) ≠ []
        rw [hrec]
        intro h
        rw [h] at hz1
        cases hz1
      show popTrailingEmpty (List.flatten ((hg :: hg2 :: rest2).map
        (fun hg => buildHeadingBlock hg.1 hg.2))) = _
      rw [List.map_cons, List.flatten_cons]
      rw [popTrailingEmpty_append _ _ hne]
      show buildHeadingBlock hg.1 hg.2 ++ sectionBlock (hg2 :: rest2) = _
      rw [hrec]
      rfl

theorem headingChainLines_mem : ∀ (chain : List Line) (lvl : Nat) (line : Line),
    line ∈ headingChainLines lvl chain →
    ∃ j h, h ∈ chain ∧ line = List.replicate j '\t' ++ h := by
  intro chain
  induction chain with
  | nil => intro lvl line h; simp [headingChainLines] at h
  | cons h0 rest ih =>
    intro lvl line hmem
    rw [headingChainLines] at hmem
    rcases List.mem_cons.mp hmem with h1 | h1
    · exact ⟨lvl, h0, List.mem_cons_self h0 rest, h1⟩
    · obtain ⟨j, h, hh, he⟩ := ih (lvl + 1) line h1
      exact ⟨j, h, List.mem_cons_of_mem h0 hh, he⟩

theorem label_head_shape (h : Line) (hOK : LabelOK h) :
    ∃ c cs, h = c :: cs ∧ pyWS c = false := by
  obtain ⟨hne, hl, -, -⟩ := hOK
  cases hh : h with
  | nil => exact absurd hh hne
  | cons c cs =>
    rw [hh] at hl
    exact ⟨c, cs, rfl, head_not_ws_of_lstrip_fixed c cs hl⟩

/-- Shape facts about one stored heading line `"\t" * lvl ++ h`. -/
theorem headLine_props (h : Line) (hOK : LabelOK h) (lvl : Nat) :
    isBlank (List.replicate lvl '\t' ++ h) = false ∧
    leadingIndent (List.replicate lvl '\t' ++ h) = 4 * lvl ∧
    statusTag (List.replicate lvl '\t' ++ h) = none := by
  obtain ⟨c, cs, rfl, hws⟩ := label_head_shape h hOK
  refine ⟨?_, leadingIndent_tabs lvl c cs hws, ?_⟩
  · exact blank_false_of_mem_not_ws _ c
      (List.mem_append_right _ (List.mem_cons_self c cs)) hws
  · rw [statusTag_tabs]
    exact hOK.2.2.1

theorem headingChainLines_untagged (chain : List Line) (lvl : Nat)
    (hlab : ∀ h ∈ chain, LabelOK h) :
    ∀ line ∈ headingChainLines lvl chain, statusTag line = none := by
  intro line hmem
  obtain ⟨j, h, hh, rfl⟩ := headingChainLines_mem chain lvl line hmem
  rw [statusTag_tabs]
  exact (hlab h hh).2.2.1

/-- The first line of a non-empty group sequence is a level-1 heading line, so
the flattened body starts non-blank at depth 4. -/
theorem blocksFlat_HeadLE4 (hg : List Line × List TSVEntry)
    (rest : List (List Line × List TSVEntry)) (hWF : HgsWF (hg :: rest)) :
    HeadLE4 (blocksFlat (hg :: rest)) := by
  obtain ⟨⟨hch, hlab⟩, hes, hok⟩ := hWF hg (List.mem_cons_self hg rest)
  cases hc : hg.1 with
  | nil => exact absurd hc hch
  | cons h0 ch2 =>
    have hOK0 : LabelOK h0 := hlab h0 (by rw [hc]; exact List.mem_cons_self h0 ch2)
    obtain ⟨hb0, hi0, -⟩ := headLine_props h0 hOK0 1
    have hhead : ∃ tl, blocksFlat (hg :: rest) = (List.replicate 1 '\t' ++ h0) :: tl := by
      cases rest with
      | nil =>
        refine ⟨headingChainLines 2 ch2 ++
          entriesBody (List.replicate (hg.1.length + 1) '\t') hg.2, ?_⟩
        show headingChainLines 1 hg.1 ++ _ = _
        rw [hc, headingChainLines]
        rfl
      | cons hg2 rest2 =>
        refine ⟨(headingChainLines 2 ch2 ++
          entriesBody (List.replicate (hg.1.length + 1) '\t') hg.2 ++ [[]]) ++
            blocksFlat (hg2 :: rest2), ?_⟩
        show buildHeadingBlock hg.1 hg.2 ++ blocksFlat (hg2 :: rest2) = _
        rw [buildHeadingBlock_shape hg.1 hg.2 hch hes hok, hc, headingChainLines]
        simp
    obtain ⟨tl, htl⟩ := hhead
    rw [htl]
    right
    refine ⟨List.replicate 1 '\t' ++ h0, tl, ?_, hb0, by omega⟩
    rw [List.dropWhile_cons, if_neg (by simpa using hb0)]

theorem SufOK_blocksFlat : ∀ (hgs : List (List Line × List TSVEntry)),
    HgsWF hgs → SufOK (blocksFlat hgs) := by
  intro hgs
  induction hgs with
  | nil => intro _; exact SufOK_nil
  | cons hg rest ih =>
    intro hWF
    obtain ⟨⟨hch, hlab⟩, hes, hok⟩ := hWF hg (List.mem_cons_self hg rest)
    have hunt : ∀ line ∈ headingChainLines 1 hg.1, statusTag line = none :=
      headingChainLines_untagged hg.1 1 hlab
    have hk1 : 1 ≤ hg.1.length + 1 := by omega
    cases rest with
    | nil =>
      show SufOK (headingChainLines 1 hg.1 ++
        entriesBody (List.replicate (hg.1.length + 1) '\t') hg.2)
      apply SufOK_append_untagged _ _ hunt
      have := SufOK_entriesBody (hg.1.length + 1) hk1 hg.2 [] hok
        (Or.inl rfl) SufOK_nil
      simpa using this
    | cons hg2 rest2 =>
      have hWF2 : HgsWF (hg2 :: rest2) := fun p hp => hWF p (List.mem_cons_of_mem hg hp)
      show SufOK (buildHeadingBlock hg.1 hg.2 ++ blocksFlat (hg2 :: rest2))
      rw [buildHeadingBlock_shape hg.1 hg.2 hch hes hok]
      have hassoc : (headingChainLines 1 hg.1 ++
          entriesBody (List.replicate (hg.1.length + 1) '\t') hg.2 ++ [[]]) ++
            blocksFlat (hg2 :: rest2) =
          headingChainLines 1 hg.1 ++
            (entriesBody (List.replicate (hg.1.length + 1) '\t') hg.2 ++
              (([] : Line) :: blocksFlat (hg2 :: rest2))) := by
        simp
      rw [hassoc]
      apply SufOK_append_untagged _ _ hunt
      apply SufOK_entriesBody (hg.1.length + 1) hk1 hg.2 _ hok
      · show HeadLE4 (([] : Line) :: blocksFlat (hg2 :: rest2))
        have h4 := blocksFlat_HeadLE4 hg2 rest2 hWF2
        unfold HeadLE4 at h4 ⊢
        rwa [List.dropWhile_cons, if_pos (by decide)]
      · exact SufOK_cons_untagged _ _ rfl (ih hWF2)

theorem sigOf_single (e : TSVEntry) (l : Line) (he : e.lines = [l]) (hl : strip l ≠ []) :
    sigOf e = strip l := by
  unfold sigOf canonicalizeLines
  rw [he]
  have hE : (strip l).isEmpty = false := by
    cases h : strip l with
    | nil => exact absurd h hl
    | cons a t => rfl
  simp [hE, joinNL_single]

theorem tagSig_none_of_untagged (l : Line) (h : statusTag l = none) : tagSig l = none := by
  simp [tagSig, h]

theorem filterMap_entriesBody (k : Nat) :
    ∀ (es : List TSVEntry), (∀ e ∈ es, EntryOK e) →
      (entriesBody (List.replicate k '\t') es).filterMap tagSig = es.map sigOf := by
  intro es
  induction es with
  | nil => intro _; rfl
  | cons e es2 ih =>
    intro hok
    obtain ⟨l, he, htag, -, -⟩ := hok e (List.mem_cons_self e es2)
    obtain ⟨c, hc⟩ := Option.isSome_iff_exists.mp htag
    have hl : strip l ≠ [] := strip_ne_nil_of_tag l c hc
    obtain ⟨-, -, hE3, hE4⟩ := entryLine_props l k c hc
    have hts : tagSig (List.replicate k '\t' ++ strip l) = some (strip l) := by
      rw [tagSig, if_pos (by rw [hE3]; rfl), hE4]
    have hsig : sigOf e = strip l := sigOf_single e l he hl
    cases es2 with
    | nil =>
      rw [entriesBody_single _ e l he hl]
      rw [List.filterMap_cons, hts, List.map_cons, hsig]
      rfl
    | cons e2 es3 =>
      rw [entriesBody_cons2 _ e e2 es3 l he hl]
      have hrest := ih (fun x hx => hok x (List.mem_cons_of_mem e hx))
      simp only [List.filterMap_cons, hts, tagSig_none_of_untagged [] rfl, hrest,
        List.map_cons, hsig]

theorem filterMap_blocksFlat : ∀ (hgs : List (List Line × List TSVEntry)), HgsWF hgs →
    (blocksFlat hgs).filterMap tagSig = ((hgs.map Prod.snd).flatten).map sigOf := by
  intro hgs
  induction hgs with
  | nil => intro _; rfl
  | cons hg rest ih =>
    intro hWF
    obtain ⟨⟨hch, hlab⟩, hes, hok⟩ := hWF hg (List.mem_cons_self hg rest)
    have hhs : (headingChainLines 1 hg.1).filterMap tagSig = [] :=
      filterMap_none_of_all tagSig _ (fun line hline =>
        tagSig_none_of_untagged line (headingChainLines_untagged hg.1 1 hlab line hline))
    cases rest with
    | nil =>
      show (headingChainLines 1 hg.1 ++
        entriesBody (List.replicate (hg.1.length + 1) '\t') hg.2).filterMap tagSig = _
      rw [List.filterMap_append, hhs, List.nil_append]
      rw [filterMap_entriesBody (hg.1.length + 1) hg.2 hok]
      simp
    | cons hg2 rest2 =>
      have hWF2 : HgsWF (hg2 :: rest2) := fun p hp => hWF p (List.mem_cons_of_mem hg hp)
      show (buildHeadingBlock hg.1 hg.2 ++ blocksFlat (hg2 :: rest2)).filterMap tagSig = _
      rw [buildHeadingBlock_shape hg.1 hg.2 hch hes hok]
      rw [List.filterMap_append, List.filterMap_append, List.filterMap_append, hhs]
      rw [filterMap_entriesBody (hg.1.length + 1) hg.2 hok]
      rw [show (([[]] : List Line).filterMap tagSig) = [] from rfl]
      rw [ih hWF2]
      simp

theorem addToHeadingGroups_flat (hgs : List (List Line × List TSVEntry)) (hk : List Line)
    (e : TSVEntry) :
    List.Perm (((addToHeadingGroups hgs hk e).map Prod.snd).flatten)
      (e :: (hgs.map Prod.snd).flatten) := by
  induction hgs with
  | nil => simp [addToHeadingGroups]
  | cons p rest ih =>
    rw [addToHeadingGroups]
    by_cases h : p.1 = hk
    · rw [if_pos h]
      simp only [List.map_cons, List.flatten_cons]
      rw [List.append_assoc]
      exact List.perm_middle
    · rw [if_neg h]
      simp only [List.map_cons, List.flatten_cons]
      exact (ih.append_left p.2).trans List.perm_middle

/-- The heading-group accumulation of `run_single_import` for a batch whose
entries all target one section. -/
def hgroupsOf (spec : PyImportSpec) (entries : List TSVEntry) :
    List (List Line × List TSVEntry) :=
  entries.foldl (fun h e => addToHeadingGroups h (chainFor spec e) e) []

theorem foldl_addH_flat (spec : PyImportSpec) :
    ∀ (es : List TSVEntry) (hgs : List (List Line × List TSVEntry)),
      List.Perm (((es.foldl (fun h e => addToHeadingGroups h (chainFor spec e) e)
          hgs).map Prod.snd).flatten)
        (((hgs.map Prod.snd).flatten) ++ es) := by
  intro es
  induction es with
  | nil => intro hgs; simp
  | cons e es2 ih =>
    intro hgs
    rw [List.foldl_cons]
    refine (ih (addToHeadingGroups hgs (chainFor spec e) e)).trans ?_
    refine ((addToHeadingGroups_flat hgs (chainFor spec e) e).append_right es2).trans ?_
    exact List.perm_middle.symm

theorem hgroupsOf_flat (spec : PyImportSpec) (entries : List TSVEntry) :
    List.Perm (((hgroupsOf spec entries).map Prod.snd).flatten) entries := by
  have := foldl_addH_flat spec entries []
  simpa [hgroupsOf] using this

theorem addToHeadingGroups_WF (hgs : List (List Line × List TSVEntry)) (hk : List Line)
    (e : TSVEntry) (hW : HgsWF hgs) (hq1 : hk ≠ []) (hq2 : ∀ h ∈ hk, LabelOK h)
    (hr : EntryOK e) : HgsWF (addToHeadingGroups hgs hk e) := by
  induction hgs with
  | nil =>
    intro p hp
    rw [addToHeadingGroups] at hp
    rcases List.mem_singleton.mp hp with rfl
    exact ⟨⟨hq1, hq2⟩, by simp, by
      intro x hx
      rcases List.mem_singleton.mp hx with rfl
      exact hr⟩
  | cons q rest ih =>
    intro p hp
    rw [addToHeadingGroups] at hp
    by_cases h : q.1 = hk
    · rw [if_pos h] at hp
      rcases List.mem_cons.mp hp with h1 | h1
      · obtain ⟨⟨hw1, hw2⟩, hw3, hw4⟩ := hW q (List.mem_cons_self q rest)
        subst h1
        refine ⟨⟨hw1, hw2⟩, by simp, ?_⟩
        intro x hx
        rcases List.mem_append.mp hx with h2 | h2
        · exact hw4 x h2
        · rcases List.mem_singleton.mp h2 with rfl
          exact hr
      · exact hW p (List.mem_cons_of_mem q h1)
    · rw [if_neg h] at hp
      rcases List.mem_cons.mp hp with h1 | h1
      · subst h1
        exact hW q (List.mem_cons_self q rest)
      · exact ih (fun x hx => hW x (List.mem_cons_of_mem q hx)) p h1

theorem chainFor_ne_nil (spec : PyImportSpec) (e : TSVEntry) : chainFor spec e ≠ [] := by
  simp only [chainFor]
  by_cases h : normalizeHeadingChain e.headings = []
  · rw [if_pos h]; simp
  · rw [if_neg h]; exact h

theorem hgroupsOf_WF (spec : PyImportSpec) :
    ∀ (es : List TSVEntry) (hgs : List (List Line × List TSVEntry)), HgsWF hgs →
      (∀ e ∈ es, EntryOK e ∧ ∀ h ∈ chainFor spec e, LabelOK h) →
      HgsWF (es.foldl (fun h e => addToHeadingGroups h (chainFor spec e) e) hgs) := by
  intro es
  induction es with
  | nil => intro hgs hW _; exact hW
  | cons e es2 ih =>
    intro hgs hW hok
    rw [List.foldl_cons]
    obtain ⟨he1, he2⟩ := hok e (List.mem_cons_self e es2)
    apply ih
    · apply addToHeadingGroups_WF hgs (chainFor spec e) e hW ?_ he2 he1
      intro h
      exact chainFor_ne_nil spec e h
    · exact fun x hx => hok x (List.mem_cons_of_mem e hx)

theorem mem_strip (l : Line) (c : Char) (h : c ∈ strip l) : c ∈ l := by
  unfold strip at h
  exact (List.dropWhile_sublist (l := l) pyWS).mem (mem_rstrip _ c h)

theorem lineClean_of_sub (a b : Line) (hsub : ∀ c ∈ a, c ∈ b) (h : lineClean b = true) :
    lineClean a = true := by
  rw [lineClean, List.all_eq_true] at h ⊢
  exact fun c hc => h c (hsub c hc)

theorem lineClean_strip (l : Line) (h : lineClean l = true) : lineClean (strip l) = true :=
  lineClean_of_sub (strip l) l (mem_strip l) h

theorem lineClean_tabs_append (j : Nat) (h : Line) (hc : lineClean h = true) :
    lineClean (List.replicate j '\t' ++ h) = true := by
  rw [lineClean, List.all_eq_true]
  intro c hcm
  rcases List.mem_append.mp hcm with h1 | h1
  · rw [List.eq_of_mem_replicate h1]
    decide
  · rw [lineClean, List.all_eq_true] at hc
    exact hc c h1

theorem entriesBody_clean (k : Nat) :
    ∀ (es : List TSVEntry), (∀ e ∈ es, EntryOK e) →
      ∀ x ∈ entriesBody (List.replicate k '\t') es, lineClean x = true := by
  intro es
  induction es with
  | nil => intro _ x hx; simp [entriesBody] at hx
  | cons e es2 ih =>
    intro hok x hx
    obtain ⟨l, he, htag, -, hcl⟩ := hok e (List.mem_cons_self e es2)
    obtain ⟨c, hc⟩ := Option.isSome_iff_exists.mp htag
    have hl : strip l ≠ [] := strip_ne_nil_of_tag l c hc
    have hE : lineClean (List.replicate k '\t' ++ strip l) = true :=
      lineClean_tabs_append k (strip l) (lineClean_strip l hcl)
    cases es2 with
    | nil =>
      rw [entriesBody_single _ e l he hl] at hx
      rcases List.mem_singleton.mp hx with rfl
      exact hE
    | cons e2 es3 =>
      rw [entriesBody_cons2 _ e e2 es3 l he hl] at hx
      rcases List.mem_cons.mp hx with h1 | h1
      · rw [h1]; exact hE
      · rcases List.mem_cons.mp h1 with h2 | h2
        · rw [h2]; rfl
        · exact ih (fun y hy => hok y (List.mem_cons_of_mem e hy)) x h2

theorem blocksFlat_clean : ∀ (hgs : List (List Line × List TSVEntry)), HgsWF hgs →
    ∀ x ∈ blocksFlat hgs, lineClean x = true := by
  intro hgs
  induction hgs with
  | nil => intro _ x hx; simp [blocksFlat] at hx
  | cons hg rest ih =>
    intro hWF x hx
    obtain ⟨⟨hch, hlab⟩, hes, hok⟩ := hWF hg (List.mem_cons_self hg rest)
    have hheads : ∀ y ∈ headingChainLines 1 hg.1, lineClean y = true := by
      intro y hy
      obtain ⟨j, h, hh, rfl⟩ := headingChainLines_mem hg.1 1 y hy
      exact lineClean_tabs_append j h (hlab h hh).2.2.2
    cases rest with
    | nil =>
      rcases List.mem_append.mp hx with h1 | h1
      · exact hheads x h1
      · exact entriesBody_clean (hg.1.length + 1) hg.2 hok x h1
    | cons hg2 rest2 =>
      have hx2 : x ∈ buildHeadingBlock hg.1 hg.2 ++ blocksFlat (hg2 :: rest2) := hx
      rcases List.mem_append.mp hx2 with h1 | h1
      · rw [buildHeadingBlock_shape hg.1 hg.2 hch hes hok] at h1
        rcases List.mem_append.mp h1 with h2 | h2
        · rcases List.mem_append.mp h2 with h3 | h3
          · exact hheads x h3
          · exact entriesBody_clean (hg.1.length + 1) hg.2 hok x h3
        · rcases List.mem_singleton.mp h2 with rfl
          rfl
      · exact ih (fun p hp => hWF p (List.mem_cons_of_mem hg hp)) x h1

theorem determineSection_default (spec : PyImportSpec) (e : TSVEntry)
    (hmap : spec.sectionMap = []) (hsrc : spec.useSourceSection = false) :
    determineSection spec e = spec.sect := by
  unfold determineSection
  rw [hmap]
  simp [assocGet, hsrc]

theorem addToGroups_same (s0 : Line) (hgs : List (List Line × List TSVEntry))
    (hk : List Line) (e : TSVEntry) :
    addToGroups [(s0, hgs)] s0 hk e = [(s0, addToHeadingGroups hgs hk e)] := by
  simp [addToGroups]

theorem foldl_groups_single (spec : PyImportSpec) (s0 : Line) :
    ∀ (es : List TSVEntry) (hgs : List (List Line × List TSVEntry)),
      (∀ e ∈ es, determineSection spec e = s0) →
      es.foldl (fun gs e => addToGroups gs (determineSection spec e) (chainFor spec e) e)
          [(s0, hgs)] =
        [(s0, es.foldl (fun h e => addToHeadingGroups h (chainFor spec e) e) hgs)] := by
  intro es
  induction es with
  | nil => intro hgs _; rfl
  | cons e es2 ih =>
    intro hgs hsec
    simp only [List.foldl_cons]
    have h1 : addToGroups [(s0, hgs)] (determineSection spec e) (chainFor spec e) e =
        [(s0, addToHeadingGroups hgs (chainFor spec e) e)] := by
      rw [hsec e (List.mem_cons_self e es2)]
      exact addToGroups_same s0 hgs (chainFor spec e) e
    rw [h1]
    exact ih _ (fun x hx => hsec x (List.mem_cons_of_mem e hx))

theorem groupAll_single (spec : PyImportSpec) (s0 : Line) (e0 : TSVEntry)
    (es : List TSVEntry) (hsec : ∀ e ∈ e0 :: es, determineSection spec e = s0) :
    groupAll spec (e0 :: es) = [(s0, hgroupsOf spec (e0 :: es))] := by
  unfold groupAll hgroupsOf
  simp only [List.foldl_cons]
  have h0 : addToGroups [] (determineSection spec e0) (chainFor spec e0) e0 =
      [(s0, addToHeadingGroups [] (chainFor spec e0) e0)] := by
    rw [hsec e0 (List.mem_cons_self e0 es)]
    rfl
  rw [h0]
  exact foldl_groups_single spec s0 es _ (fun x hx => hsec x (List.mem_cons_of_mem e0 hx))

/-- The insertion loop of `run_single_import` (import_external_tasks.py lines
330–337) applied to an empty destination file's lines. -/
def importIntoEmpty (spec : PyImportSpec) (entries : List TSVEntry) : List Line :=
  (groupAll spec entries).foldl
    (fun acc g => insertIntoSection acc g.1 (sectionBlock g.2)) []

/-- C4 (amended).  Round trip for the storage layout actually produced: when
every imported entry is a single status-tagged non-legend line, the target
section name is untagged, and every heading label used for storage is a
non-empty unindented untagged label, importing the batch into an empty
destination and re-parsing the written file recovers exactly the original
multiset of canonical signatures, regardless of the heading grouping.  (For
multi-line blocks this fails: see the counterexample.) -/
theorem claim_C4_roundtrip (spec : PyImportSpec) (entries : List TSVEntry)
    (hne : entries ≠ [])
    (hmap : spec.sectionMap = []) (hsrc : spec.useSourceSection = false)
    (hsect : statusTag spec.sect = none) (hsclean : lineClean spec.sect = true)
    (hentries : ∀ e ∈ entries, EntryOK e)
    (hlabels : ∀ e ∈ entries, ∀ h ∈ chainFor spec e, LabelOK h) :
    List.Perm
      ((tsvParseFile (splitNL (writeContent (importIntoEmpty spec entries)))).map sigOf)
      (entries.map sigOf) := by
  obtain ⟨e0, es, rfl⟩ : ∃ e0 es, entries = e0 :: es := by
    cases entries with
    | nil => exact absurd rfl hne
    | cons a t => exact ⟨a, t, rfl⟩
  have hsec : ∀ e ∈ e0 :: es, determineSection spec e = spec.sect := fun e _ =>
    determineSection_default spec e hmap hsrc
  have hWFnil : HgsWF ([] : List (List Line × List TSVEntry)) := by
    intro p hp
    simp at hp
  have hWF : HgsWF (hgroupsOf spec (e0 :: es)) :=
    hgroupsOf_WF spec (e0 :: es) [] hWFnil
      (fun e he => ⟨hentries e he, hlabels e he⟩)
  have hflat := hgroupsOf_flat spec (e0 :: es)
  have hgsne : hgroupsOf spec (e0 :: es) ≠ [] := by
    intro h
    rw [h] at hflat
    have h2 := hflat.length_eq
    simp at h2
  have hbuilt : importIntoEmpty spec (e0 :: es) =
      spec.sect :: ([] : Line) :: blocksFlat (hgroupsOf spec (e0 :: es)) := by
    unfold importIntoEmpty
    rw [groupAll_single spec spec.sect e0 es hsec]
    show insertIntoSection [] spec.sect (sectionBlock (hgroupsOf spec (e0 :: es))) = _
    rw [insertIntoSection_empty, sectionBlock_eq_blocksFlat _ hWF]
  rw [hbuilt]
  have hclean : ∀ l ∈ spec.sect :: ([] : Line) ::
      blocksFlat (hgroupsOf spec (e0 :: es)), lineClean l = true := by
    intro l hl
    rcases List.mem_cons.mp hl with h1 | h1
    · rw [h1]; exact hsclean
    · rcases List.mem_cons.mp h1 with h2 | h2
      · rw [h2]; rfl
      · exact blocksFlat_clean _ hWF l h2
  obtain ⟨z, hz1, hz2, hz3⟩ := blocksFlat_getLast _ hgsne hWF
  have hBFne : blocksFlat (hgroupsOf spec (e0 :: es)) ≠ [] := by
    intro h
    rw [h] at hz1
    cases hz1
  have hlast : (spec.sect :: ([] : Line) ::
      blocksFlat (hgroupsOf spec (e0 :: es))).getLast? = some z := by
    rw [List.getLast?_cons_cons]
    cases hBF : blocksFlat (hgroupsOf spec (e0 :: es)) with
    | nil => exact absurd hBF hBFne
    | cons b bf =>
      rw [List.getLast?_cons_cons]
      rw [hBF] at hz1
      exact hz1
  have htrim : trimTrailing (spec.sect :: ([] : Line) ::
      blocksFlat (hgroupsOf spec (e0 :: es))) =
      spec.sect :: ([] : Line) :: blocksFlat (hgroupsOf spec (e0 :: es)) :=
    trimTrailing_id _ z hlast hz2 hz3
  rw [splitNL_writeContent _ hclean, if_neg (by rw [htrim]; simp), htrim]
  have hsuf : SufOK (spec.sect :: ([] : Line) ::
      blocksFlat (hgroupsOf spec (e0 :: es))) :=
    SufOK_cons_untagged _ _ hsect
      (SufOK_cons_untagged _ _ rfl (SufOK_blocksFlat _ hWF))
  unfold tsvParseFile
  rw [tsvParseAux_sigs _ _ _ _ (le_refl _) hsuf]
  rw [List.filterMap_cons, tagSig_none_of_untagged _ hsect]
  rw [List.filterMap_cons, tagSig_none_of_untagged [] rfl]
  rw [filterMap_blocksFlat _ hWF]
  exact hflat.map sigOf

/-- C4 is false as stated for multi-line blocks with nested continuation
lines: the batch gathered from `["Proj", "\t[i] alpha", "\t\tbeta"]` has the
canonical signature `"[i] alpha\nbeta"`, but `reindent_entry_lines` flattens
the block to one uniform indentation level, so re-parsing the written
destination yields the signature `"[i] alpha"` only — the continuation line
is no longer deeper than its tag line. -/
theorem claim_C4_cex :
    (gatherTasks srcNested specImp.statuses).map sigOf = [lc "[i] alpha\nbeta"] ∧
    (runSingleImport specImp srcNested []).1.map
        (fun d => (tsvParseFile (splitNL (writeContent d))).map sigOf) =
      some [lc "[i] alpha"] := by
  decide

/-- Concrete data for the C4 witness: two single-line entries stored under
different heading chains. -/
def eC4a : TSVEntry :=
  { status := "in-progress", sect := lc "Proj", lines := [lc "[i] alpha"],
    headings := [lc "## Sub"] }

def eC4b : TSVEntry :=
  { status := "done", sect := lc "", lines := [lc "\t[x] beta  "],
    headings := [] }

theorem claim_C4_witness :
    List.Perm
      ((tsvParseFile (splitNL (writeContent
        (importIntoEmpty specImp [eC4a, eC4b])))).map sigOf)
      ([eC4a, eC4b].map sigOf) :=
  claim_C4_roundtrip specImp [eC4a, eC4b] (by decide) rfl rfl (by decide) (by decide)
    (by
      intro e he
      rcases List.mem_cons.mp he with h1 | h1
      · subst h1
        exact ⟨lc "[i] alpha", rfl, by decide, by decide, by decide⟩
      · rcases List.mem_singleton.mp h1 with rfl
        exact ⟨lc "\t[x] beta  ", rfl, by decide, by decide, by decide⟩)
    (by
      intro e he h hh
      rcases List.mem_cons.mp he with h1 | h1
      · subst h1
        have hc : chainFor specImp eC4a = [lc "## Sub"] := by decide
        rw [hc] at hh
        rcases List.mem_singleton.mp hh with rfl
        exact ⟨by decide, by decide, by decide, by decide⟩
      · rcases List.mem_singleton.mp h1 with rfl
        have hc : chainFor specImp eC4b = [lc "Imported"] := by decide
        rw [hc] at hh
        rcases List.mem_singleton.mp hh with rfl
        exact ⟨by decide, by decide, by decide, by decide⟩)
